import Mathlib

/-!
Verification of the software IO TLB (swiotlb) bounce-buffer allocator.

This file gives a shallow embedding of the allocator's data model and
operations (slot table, bitmap, per-area free lists, the constrained
first-fit slot search, allocation/release including the lockless mode's
cross-CPU release and reclamation, and the bounce-copy decision logic),
and proves properties of the embedded operations.

Machine integers are modelled as `Nat` with explicit reduction modulo
`2 ^ 64` (resp. `2 ^ 32`) where the C code performs unsigned arithmetic
that can wrap.
-/

set_option maxRecDepth 100000

namespace Swiotlb

/-- IO_TLB_SHIFT: log2 of the IO TLB unit ("slab") size.  The constant lives
in the swiotlb header, outside of the allocator source file; its value (11,
i.e. a 2 KiB unit) is the one the design document quotes. -/
def IO_TLB_SHIFT : Nat := 11

/-- IO_TLB_SIZE = 1 << IO_TLB_SHIFT: size in bytes of one IO TLB unit. -/
def IO_TLB_SIZE : Nat := 2 ^ IO_TLB_SHIFT

/-- IO_TLB_SEGSIZE: number of units in one segment (from the swiotlb header;
the design document quotes 128). -/
def IO_TLB_SEGSIZE : Nat := 128

/-- PAGE_SHIFT of the native page size (4 KiB pages). -/
def PAGE_SHIFT : Nat := 12

/-- PAGE_SIZE: native page size in bytes. -/
def PAGE_SIZE : Nat := 2 ^ PAGE_SHIFT

/-- BITS_PER_LONG on the 64-bit targets this allocator runs on. -/
def BITS_PER_LONG : Nat := 64

/-- Modulus of 64-bit unsigned arithmetic (`unsigned long`, `phys_addr_t`,
`dma_addr_t`, `size_t`). -/
def U64_MOD : Nat := 2 ^ 64

/-- Modulus of 32-bit unsigned arithmetic (`unsigned int`). -/
def U32_MOD : Nat := 2 ^ 32

/-- INVALID_PHYS_ADDR = ~(phys_addr_t)0: the sentinel stored in a slot's
`orig_addr` while the slot is free. -/
def INVALID_PHYS_ADDR : Nat := U64_MOD - 1

/-- DMA_MAPPING_ERROR = ~(dma_addr_t)0, also used as the `phys_addr_t`
error return of `swiotlb_tbl_map_single`. -/
def DMA_MAPPING_ERROR : Nat := U64_MOD - 1

/-- 64-bit unsigned addition. -/
def u64add (a b : Nat) : Nat := (a + b) % U64_MOD

/-- 64-bit unsigned subtraction (wraps below zero like the C `a - b`). -/
def u64sub (a b : Nat) : Nat := (a % U64_MOD + (U64_MOD - b % U64_MOD)) % U64_MOD

/-- struct io_tlb_slot: per-unit metadata.  The intrusive `list_head node`
is represented externally: the per-area free lists are lists of slot
indices. -/
structure IoTlbSlot where
  orig_addr : Nat
  alloc_size : Nat
deriving DecidableEq, Repr

/-- struct io_tlb_area: per-area bookkeeping.  The spinlock has no
observable content in a sequential shallow embedding and is omitted; the
two intrusive free lists are lists of slot indices. -/
structure IoTlbArea where
  used : Nat
  free_slots : List Nat
  free_slots_from_other_cpu : List Nat
deriving DecidableEq, Repr

/-- struct io_tlb_mem: the pool.  Fields that do not affect the embedded
operations (vaddr, end, late_alloc, force_bounce, debugfs) are omitted.
The bitmap is a list of `Bool`s, one per unit, `true` = free. -/
structure IoTlbMem where
  start : Nat
  nslabs : Nat
  nareas : Nat
  area_nslabs : Nat
  bitmap : List Bool
  slots : List IoTlbSlot
  areas : List IoTlbArea
deriving DecidableEq, Repr

/-- Device-side inputs the allocator consumes (§6 of the design document):
the DMA segment-boundary mask, the minimum alignment mask, and the bus
translation, here a linear offset (see `phys_to_dma_unencrypted`). -/
structure Device where
  boundary_mask : Nat
  min_align_mask : Nat
  dma_offset : Nat
deriving DecidableEq, Repr

/-- Read one bit of the pool bitmap (out-of-range reads as 0/false). -/
def IoTlbMem.bit (mem : IoTlbMem) (i : Nat) : Bool := mem.bitmap.getD i false

/-- Read one slot of the slot table. -/
def IoTlbMem.slot (mem : IoTlbMem) (i : Nat) : IoTlbSlot := mem.slots.getD i ⟨0, 0⟩

/-- Read one area descriptor. -/
def IoTlbMem.area (mem : IoTlbMem) (j : Nat) : IoTlbArea := mem.areas.getD j ⟨0, [], []⟩

/-- Apply an update to one area descriptor. -/
def IoTlbMem.updateArea (mem : IoTlbMem) (j : Nat) (f : IoTlbArea → IoTlbArea) : IoTlbMem :=
  { mem with areas := mem.areas.set j (f (mem.area j)) }

/-- Modelled from the spec: `bus_address_of(device, physical_address)` is an
external input of the allocator (§6); the kernel's
`phys_to_dma_unencrypted` is not part of this repository's sources.  It is
modelled as the linear translation by a per-device offset, which is how the
direct-mapping translation behaves. -/
def phys_to_dma_unencrypted (dev : Device) (paddr : Nat) : Nat :=
  (paddr + dev.dma_offset) % U64_MOD

/-- swiotlb_align_offset: offset into an IO TLB unit required to keep the
device's minimum alignment happy (`addr & dma_get_min_align_mask(dev) &
(IO_TLB_SIZE - 1)`). -/
def swiotlb_align_offset (dev : Device) (addr : Nat) : Nat :=
  addr &&& dev.min_align_mask &&& (IO_TLB_SIZE - 1)

/-- io_tlb_offset: `val & (IO_TLB_SEGSIZE - 1)`, the offset of a unit index
inside its segment. -/
def io_tlb_offset (val : Nat) : Nat := val &&& (IO_TLB_SEGSIZE - 1)

/-- slot_addr: `start + (idx << IO_TLB_SHIFT)` in `phys_addr_t` arithmetic. -/
def slot_addr (start idx : Nat) : Nat := (start + idx * IO_TLB_SIZE) % U64_MOD

/-- nr_slots: DIV_ROUND_UP(val, IO_TLB_SIZE) in `unsigned long` arithmetic. -/
def nr_slots (val : Nat) : Nat := ((val + IO_TLB_SIZE - 1) % U64_MOD) / IO_TLB_SIZE

/-- get_max_slots: number of units per device segment boundary, carefully
handling the integer overflow that occurs when `boundary_mask == ~0UL`. -/
def get_max_slots (boundary_mask : Nat) : Nat :=
  if boundary_mask = U64_MOD - 1 then 2 ^ (BITS_PER_LONG - IO_TLB_SHIFT)
  else nr_slots (boundary_mask + 1)

/-- Modelled from the spec: the boundary check of §4.3 constraint 5.  The
kernel helper `iommu_is_span_boundary` (lib/iommu-helper.c) is not part of
this repository's sources; it reports whether `nr` units starting at unit
`index`, with the pool's bus base contributing `shift` units, would cross a
`boundary_size`-unit boundary.  `boundary_size` is a power of two in every
call (the kernel asserts this), so the helper's masking with
`boundary_size - 1` is reduction modulo `boundary_size`. -/
def iommu_is_span_boundary (index nr shift boundary_size : Nat) : Bool :=
  decide (boundary_size < (shift + index) % boundary_size + nr)

/-- find_next_zero_bit(bitmap, i + n, i) == i + n: all of the `n` bitmap
bits starting at `i` are set (i.e. all `n` units are free). -/
def allSlotsFree (bitmap : List Bool) (i n : Nat) : Bool :=
  (List.range n).all (fun k => bitmap.getD (i + k) false)

/-- The per-candidate checks of the slot-search loop body in
`swiotlb_do_find_slots`, in source order: origin alignment, caller
alignment, page alignment for page-or-larger requests, segment
containment, the DMA segment-boundary check, and the free-and-contiguous
bitmap scan.  A candidate the C loop `continue`s past is one this
predicate rejects. -/
def slotFits (mem : IoTlbMem) (orig_addr alloc_size alloc_align_mask nslots
    tbl_dma_addr max_slots iotlb_align_mask : Nat) (i : Nat) : Bool :=
  let slot_dma_addr := slot_addr tbl_dma_addr i
  (decide (orig_addr = 0) ||
    decide ((slot_dma_addr &&& iotlb_align_mask) = (orig_addr &&& iotlb_align_mask))) &&
  (decide (alloc_align_mask = 0) ||
    decide (slot_dma_addr &&& (alloc_align_mask - 1) = 0)) &&
  (decide (alloc_size < PAGE_SIZE) ||
    decide (slot_dma_addr &&& (PAGE_SIZE - 1) = 0)) &&
  decide (io_tlb_offset i + nslots ≤ IO_TLB_SEGSIZE) &&
  !(iommu_is_span_boundary i nslots (nr_slots tbl_dma_addr) max_slots) &&
  allSlotsFree mem.bitmap i nslots

/-- One iteration of the `found:` loop of `swiotlb_do_find_slots`, for
`i = slot_index + k`: clear the bitmap bit, record the decreasing
`alloc_size`, and unlink the slot from the area's free list (`list_del`
removes the intrusive node from whichever list holds it, so both of the
area's lists are erased from). -/
def claimStep (area_index alloc_size offset slot_index : Nat)
    (m : IoTlbMem) (k : Nat) : IoTlbMem :=
  let i := slot_index + k
  { m with
    bitmap := m.bitmap.set i false
    slots := m.slots.set i
      ⟨(m.slot i).orig_addr, u64sub alloc_size (offset + k * IO_TLB_SIZE)⟩
    areas := (m.updateArea area_index (fun a =>
      { a with
        free_slots := a.free_slots.erase i
        free_slots_from_other_cpu := a.free_slots_from_other_cpu.erase i })).areas }

/-- The `found:` loop of `swiotlb_do_find_slots`: iterations
`i = slot_index, …, slot_index + nslots - 1` in ascending order. -/
def claimLoop (area_index alloc_size offset slot_index : Nat) :
    Nat → IoTlbMem → IoTlbMem
  | 0, m => m
  | n + 1, m => claimStep area_index alloc_size offset slot_index
      (claimLoop area_index alloc_size offset slot_index n m) n

/-- swiotlb_do_find_slots: search one area for `nr_slots(alloc_size)`
contiguous free units satisfying all constraints and claim them.  Returns
the starting unit index (`none` models the C `-1`) together with the
updated pool; on failure the pool is returned unchanged (the C function
mutates nothing before the `found:` label).  The `BUG_ON(!nslots)` debug
assertion is not modelled. -/
def swiotlb_do_find_slots (dev : Device) (mem : IoTlbMem) (area_index : Nat)
    (orig_addr alloc_size alloc_align_mask : Nat) : Option Nat × IoTlbMem :=
  let area := mem.area area_index
  let boundary_mask := dev.boundary_mask
  let tbl_dma_addr := phys_to_dma_unencrypted dev mem.start &&& boundary_mask
  let max_slots0 := get_max_slots boundary_mask
  let iotlb_align_mask := dev.min_align_mask &&& (U32_MOD - IO_TLB_SIZE)
  let nslots := nr_slots alloc_size % U32_MOD
  let offset := swiotlb_align_offset dev orig_addr
  let max_slots := max max_slots0 IO_TLB_SEGSIZE
  if nslots > u64sub mem.area_nslabs area.used then (none, mem)
  else
    match area.free_slots.find? (slotFits mem orig_addr alloc_size alloc_align_mask
        nslots tbl_dma_addr max_slots iotlb_align_mask) with
    | none => (none, mem)
    | some slot_index =>
        let m' := claimLoop area_index alloc_size offset slot_index nslots mem
        (some slot_index,
         m'.updateArea area_index (fun a => { a with used := u64add a.used nslots }))

/-- One iteration of the reclamation loop of `swiotlb_find_slots_lockless`
for slot index `i`: mark the unit free again in the bitmap, reset its
metadata to the free sentinel, move it from the area's
`free_slots_from_other_cpu` list to its `free_slots` list (`list_add`
prepends), and decrement the area's used count. -/
def reclaimStep (area_index : Nat) (m : IoTlbMem) (i : Nat) : IoTlbMem :=
  { m with
    bitmap := m.bitmap.set i true
    slots := m.slots.set i ⟨INVALID_PHYS_ADDR, 0⟩
    areas := (m.updateArea area_index (fun a =>
      { a with
        used := u64sub a.used 1
        free_slots := i :: a.free_slots.erase i
        free_slots_from_other_cpu := a.free_slots_from_other_cpu.erase i })).areas }

/-- The reclamation pass of `swiotlb_find_slots_lockless`: walk the area's
`free_slots_from_other_cpu` list (safely, so a snapshot of the list is
iterated) and reclaim every slot on it. -/
def reclaimArea (mem : IoTlbMem) (area_index : Nat) : IoTlbMem :=
  (mem.area area_index).free_slots_from_other_cpu.foldl (reclaimStep area_index) mem

/-- swiotlb_find_slots_lockless: in lockless mode each CPU allocates only
from its own area (`cpu & (nareas - 1)`); if the first search fails the
CPU reclaims every slot queued by other CPUs and retries once. -/
def swiotlb_find_slots_lockless (dev : Device) (mem : IoTlbMem) (cpu : Nat)
    (orig_addr alloc_size alloc_align_mask : Nat) : Option Nat × IoTlbMem :=
  let area_index := cpu &&& (mem.nareas - 1)
  match swiotlb_do_find_slots dev mem area_index orig_addr alloc_size alloc_align_mask with
  | (some index, m') => (some index, m')
  | (none, _) =>
      let m' := reclaimArea mem area_index
      swiotlb_do_find_slots dev m' area_index orig_addr alloc_size alloc_align_mask

/-- The do/while loop of `swiotlb_find_slots`: try each area of the given
list in turn, returning the first success. -/
def tryAreas (dev : Device) (mem : IoTlbMem)
    (orig_addr alloc_size alloc_align_mask : Nat) : List Nat → Option Nat × IoTlbMem
  | [] => (none, mem)
  | j :: rest =>
      match swiotlb_do_find_slots dev mem j orig_addr alloc_size alloc_align_mask with
      | (some index, m') => (some index, m')
      | (none, _) => tryAreas dev mem orig_addr alloc_size alloc_align_mask rest

/-- swiotlb_find_slots: dispatch to the lockless search, or round-robin over
all areas starting from `raw_smp_processor_id() & (nareas - 1)`. -/
def swiotlb_find_slots (lockless : Bool) (dev : Device) (mem : IoTlbMem) (cpu : Nat)
    (orig_addr alloc_size alloc_align_mask : Nat) : Option Nat × IoTlbMem :=
  if lockless then
    swiotlb_find_slots_lockless dev mem cpu orig_addr alloc_size alloc_align_mask
  else
    let start := cpu &&& (mem.nareas - 1)
    tryAreas dev mem orig_addr alloc_size alloc_align_mask
      ((List.range mem.nareas).map (fun k => (start + k) % mem.nareas))

/-- enum dma_data_direction. -/
inductive DmaDir where
  | bidirectional
  | toDevice
  | fromDevice
  | nodir
deriving DecidableEq, Repr

/-- The observable outcome of one `swiotlb_bounce` call.  The staging
memory's bytes are not modelled; what is recorded is which of the
function's paths was taken and, for a performed copy, its direction and
byte count, plus whether the byte count was clamped after a "buffer
overflow" diagnostic. -/
inductive BounceAction where
  | skippedInvalid
  | beforeMappingStart (orig_addr_offset tlb_offset : Nat)
  | offsetOverflow (alloc_size tlb_offset : Nat)
  | copied (clamped : Bool) (dir : DmaDir) (nbytes : Nat)
deriving DecidableEq, Repr

/-- swiotlb_bounce: copy between the original buffer and the staging
buffer.  Embeds the function's control flow: the free-sentinel no-op, the
"access before mapping start" early return, the two "buffer overflow"
checks (the first one returns without copying, the second clamps and
continues), and the performed copy's byte count.  The highmem chunking
only partitions the same `size` bytes and is not modelled separately. -/
def swiotlb_bounce (dev : Device) (mem : IoTlbMem) (tlb_addr size : Nat)
    (dir : DmaDir) : BounceAction :=
  let index := u64sub tlb_addr mem.start / IO_TLB_SIZE
  let orig_addr := (mem.slot index).orig_addr
  let alloc_size := (mem.slot index).alloc_size
  if orig_addr = INVALID_PHYS_ADDR then .skippedInvalid
  else
    let tlb_offset := tlb_addr &&& (IO_TLB_SIZE - 1)
    let orig_addr_offset := swiotlb_align_offset dev orig_addr
    if tlb_offset < orig_addr_offset then .beforeMappingStart orig_addr_offset tlb_offset
    else
      let tlb_offset := tlb_offset - orig_addr_offset
      if alloc_size < tlb_offset then .offsetOverflow alloc_size tlb_offset
      else
        let alloc_size := alloc_size - tlb_offset
        if alloc_size < size then .copied true dir alloc_size
        else .copied false dir size

/-- One iteration of the loop in `swiotlb_tbl_map_single` that saves away
the mapping from the original address: `slots[index + i].orig_addr =
slot_addr(orig_addr, i)`. -/
def origStep (orig_addr index : Nat) (m : IoTlbMem) (i : Nat) : IoTlbMem :=
  { m with
    slots := m.slots.set (index + i)
      ⟨slot_addr orig_addr i, (m.slot (index + i)).alloc_size⟩ }

/-- The orig_addr-recording loop of `swiotlb_tbl_map_single`, ascending
over `i = 0, …, n - 1`. -/
def origLoop (orig_addr index : Nat) : Nat → IoTlbMem → IoTlbMem
  | 0, m => m
  | n + 1, m => origStep orig_addr index (origLoop orig_addr index n m) n

/-- Result of `swiotlb_tbl_map_single` on a present pool: the returned
`phys_addr_t`, the updated pool, and the bounce performed (if any). -/
structure MapOutcome where
  addr : Nat
  mem : IoTlbMem
  bounce : Option BounceAction
deriving DecidableEq, Repr

/-- swiotlb_tbl_map_single, for a present pool (`mem != NULL`): reject an
empty pool and `mapping_size > alloc_size`, search for
`alloc_size + offset` bytes of units, record the original addresses, and
unconditionally bounce `mapping_size` bytes towards the staging buffer
(direction DMA_TO_DEVICE regardless of `dir`). -/
def swiotlb_tbl_map_single_mem (lockless : Bool) (dev : Device) (mem : IoTlbMem)
    (orig_addr mapping_size alloc_size alloc_align_mask : Nat) (dir : DmaDir)
    (cpu : Nat) : MapOutcome :=
  let offset := swiotlb_align_offset dev orig_addr
  if mem.nslabs = 0 then ⟨DMA_MAPPING_ERROR, mem, none⟩
  else if alloc_size < mapping_size then ⟨DMA_MAPPING_ERROR, mem, none⟩
  else
    match swiotlb_find_slots lockless dev mem cpu orig_addr
        (alloc_size + offset) alloc_align_mask with
    | (none, m') => ⟨DMA_MAPPING_ERROR, m', none⟩
    | (some index, m') =>
        let m'' := origLoop orig_addr index (nr_slots (alloc_size + offset)) m'
        let tlb_addr := u64add (slot_addr m''.start index) offset
        ⟨tlb_addr, m'', some (swiotlb_bounce dev m'' tlb_addr mapping_size .toDevice)⟩

/-- swiotlb_tbl_map_single including the `!mem` null-pool check. -/
def swiotlb_tbl_map_single (lockless : Bool) (dev : Device) (memOpt : Option IoTlbMem)
    (orig_addr mapping_size alloc_size alloc_align_mask : Nat) (dir : DmaDir)
    (cpu : Nat) : Nat × Option IoTlbMem × Option BounceAction :=
  match memOpt with
  | none => (DMA_MAPPING_ERROR, none, none)
  | some mem =>
      let r := swiotlb_tbl_map_single_mem lockless dev mem orig_addr mapping_size
        alloc_size alloc_align_mask dir cpu
      (r.addr, some r.mem, r.bounce)

/-- One iteration of the release loop of `swiotlb_release_slots` for slot
`i`: set the bitmap bit, reset the metadata to the free sentinel, and
prepend the slot to the area's free list (`list_add`). -/
def releaseStep (area_index : Nat) (m : IoTlbMem) (i : Nat) : IoTlbMem :=
  { m with
    bitmap := m.bitmap.set i true
    slots := m.slots.set i ⟨INVALID_PHYS_ADDR, 0⟩
    areas := (m.updateArea area_index (fun a =>
      { a with free_slots := i :: a.free_slots })).areas }

/-- The release loop of `swiotlb_release_slots`, descending from
`index + nslots - 1` down to `index` (so the lowest index ends up at the
head of the free list). -/
def releaseLoop (area_index index : Nat) : Nat → IoTlbMem → IoTlbMem
  | 0, m => m
  | n + 1, m => releaseLoop area_index index n (releaseStep area_index m (index + n))

/-- The cross-CPU queueing loop of `swiotlb_release_slots` (lockless mode,
releasing CPU is not the area's owner), descending from
`index + nslots - 1` down to `index`: each slot is prepended to the area's
`free_slots_from_other_cpu` list; the bitmap, the metadata and the used
count are left untouched. -/
def queueOtherCpuLoop (area_index index : Nat) : Nat → IoTlbMem → IoTlbMem
  | 0, m => m
  | n + 1, m => queueOtherCpuLoop area_index index n
      (m.updateArea area_index (fun a =>
        { a with free_slots_from_other_cpu := (index + n) :: a.free_slots_from_other_cpu }))

/-- swiotlb_release_slots: recompute the starting unit index and the unit
count from the bounce address and the first slot's recorded alloc_size,
then either queue the units on the owning area's cross-CPU list (lockless
mode, non-owner CPU) or return them to the free list and decrement the
used count. -/
def swiotlb_release_slots (lockless : Bool) (dev : Device) (mem : IoTlbMem)
    (tlb_addr : Nat) (cpu : Nat) : IoTlbMem :=
  let offset := swiotlb_align_offset dev tlb_addr
  let index := u64sub (u64sub tlb_addr offset) mem.start / IO_TLB_SIZE
  let nslots := nr_slots ((mem.slot index).alloc_size + offset)
  let aindex := index / mem.area_nslabs
  let ncpu := cpu &&& (mem.nareas - 1)
  if lockless && !(decide (aindex = ncpu)) then
    queueOtherCpuLoop aindex index nslots mem
  else
    (releaseLoop aindex index nslots mem).updateArea aindex
      (fun a => { a with used := u64sub a.used nslots })

/-- swiotlb_tbl_unmap_single: bounce the data back for CPU-bound
directions (unless told to skip), then release the slots.  The
`mapping_size` argument reaches only the bounce, never the release. -/
def swiotlb_tbl_unmap_single (lockless : Bool) (dev : Device) (mem : IoTlbMem)
    (tlb_addr mapping_size : Nat) (dir : DmaDir) (skip_cpu_sync : Bool)
    (cpu : Nat) : Option BounceAction × IoTlbMem :=
  let b := if !skip_cpu_sync && (decide (dir = .fromDevice) || decide (dir = .bidirectional))
    then some (swiotlb_bounce dev mem tlb_addr mapping_size .fromDevice)
    else none
  (b, swiotlb_release_slots lockless dev mem tlb_addr cpu)

/-- swiotlb_alloc, for a present pool: a pure slot allocation with no
original address (`swiotlb_find_slots(dev, 0, size, 0)`); the slots'
`orig_addr` metadata is never written.  Returns the staging address of the
allocated units (the C function converts it to a page pointer). -/
def swiotlb_alloc_mem (lockless : Bool) (dev : Device) (mem : IoTlbMem)
    (size cpu : Nat) : Option Nat × IoTlbMem :=
  match swiotlb_find_slots lockless dev mem cpu 0 size 0 with
  | (none, m') => (none, m')
  | (some index, m') => (some (slot_addr m'.start index), m')

/-- swiotlb_init_io_tlb_mem: build a fresh pool.  Every bitmap bit is set,
every slot's metadata is the free sentinel, every area's used count is 0,
and slot `i` is appended (`list_add_tail`) to the free list of area
`i / area_nslabs`. -/
def swiotlb_init_io_tlb_mem (start nslabs nareas : Nat) : IoTlbMem :=
  let area_nslabs := nslabs / nareas
  { start := start
    nslabs := nslabs
    nareas := nareas
    area_nslabs := area_nslabs
    bitmap := List.replicate nslabs true
    slots := List.replicate nslabs ⟨INVALID_PHYS_ADDR, 0⟩
    areas := (List.range nareas).map (fun j =>
      { used := 0
        free_slots := (List.range nslabs).filter (fun i => i / area_nslabs = j)
        free_slots_from_other_cpu := [] }) }

/-! ### Generic helper lemmas -/

theorem getD_set {α : Type _} (l : List α) (i j : Nat) (a d : α) :
    (l.set i a).getD j d = if i = j ∧ i < l.length then a else l.getD j d := by
  simp only [List.getD_eq_getElem?_getD, List.getElem?_set]
  by_cases hij : i = j
  · subst hij
    by_cases hl : i < l.length
    · simp [hl]
    · simp only [hl, if_false, and_false]
      rw [List.getElem?_eq_none (by omega)]
      simp
  · simp [hij]

theorem length_filter_add_length_filter_not {α : Type _} (p : α → Bool) (l : List α) :
    (l.filter p).length + (l.filter (fun a => !(p a))).length = l.length := by
  induction l with
  | nil => simp
  | cons x xs ih =>
      by_cases h : p x = true
      · simp [List.filter, h, ← ih]; omega
      · simp only [Bool.not_eq_true] at h
        simp [List.filter, h, ← ih]; omega

theorem length_of_mem_iff_Ico {l : List Nat} {s n : Nat} (hnd : l.Nodup)
    (hmem : ∀ x, x ∈ l ↔ s ≤ x ∧ x < s + n) : l.length = n := by
  have h1 : l.toFinset = Finset.Ico s (s + n) := by
    ext x
    simp only [List.mem_toFinset, Finset.mem_Ico]
    exact hmem x
  have h2 := List.toFinset_card_of_nodup hnd
  rw [h1, Nat.card_Ico] at h2
  omega

theorem le_length_of_Ico_subset {l : List Nat} {s n : Nat} (hnd : l.Nodup)
    (h : ∀ x, s ≤ x → x < s + n → x ∈ l) : n ≤ l.length := by
  have hsub : Finset.Ico s (s + n) ⊆ l.toFinset := by
    intro x hx
    rw [Finset.mem_Ico] at hx
    rw [List.mem_toFinset]
    exact h x hx.1 hx.2
  have := Finset.card_le_card hsub
  rw [Nat.card_Ico, List.toFinset_card_of_nodup hnd] at this
  omega

/-! ### Arithmetic helper lemmas -/

theorem U64_MOD_pos : 0 < U64_MOD := by decide

theorem u64sub_eq {a b : Nat} (h1 : b ≤ a) (h2 : a < U64_MOD) : u64sub a b = a - b := by
  unfold u64sub
  rw [Nat.mod_eq_of_lt h2, Nat.mod_eq_of_lt (lt_of_le_of_lt h1 h2)]
  have h3 : a + (U64_MOD - b) = U64_MOD + (a - b) := by omega
  rw [h3, Nat.add_mod_left, Nat.mod_eq_of_lt (by omega)]

theorem u64sub_zero {a : Nat} (h : a < U64_MOD) : u64sub a 0 = a := by
  rw [u64sub_eq (Nat.zero_le a) h]
  omega

theorem u64add_eq {a b : Nat} (h : a + b < U64_MOD) : u64add a b = a + b :=
  Nat.mod_eq_of_lt h

theorem io_tlb_offset_eq (v : Nat) : io_tlb_offset v = v % IO_TLB_SEGSIZE := by
  have h : IO_TLB_SEGSIZE = 2 ^ 7 := by decide
  unfold io_tlb_offset
  rw [h]
  exact Nat.and_pow_two_sub_one_eq_mod v 7

theorem nr_slots_eq {v : Nat} (h : v + IO_TLB_SIZE ≤ U64_MOD) :
    nr_slots v = (v + IO_TLB_SIZE - 1) / IO_TLB_SIZE := by
  unfold nr_slots
  have h1 : IO_TLB_SIZE = 2048 := by decide
  have h2 : U64_MOD = 18446744073709551616 := by
    unfold U64_MOD
    norm_num
  rw [Nat.mod_eq_of_lt (by omega)]

theorem allSlotsFree_iff (bitmap : List Bool) (i n : Nat) :
    allSlotsFree bitmap i n = true ↔ ∀ k < n, bitmap.getD (i + k) false = true := by
  unfold allSlotsFree
  simp [List.all_eq_true]

/-! ### Geometry preservation -/

/-- The pool's geometry (base, sizes, list lengths) is preserved by an
operation. -/
structure SameGeom (a b : IoTlbMem) : Prop where
  eq_start : b.start = a.start
  eq_nslabs : b.nslabs = a.nslabs
  eq_nareas : b.nareas = a.nareas
  eq_area_nslabs : b.area_nslabs = a.area_nslabs
  bitmap_len : b.bitmap.length = a.bitmap.length
  slots_len : b.slots.length = a.slots.length
  areas_len : b.areas.length = a.areas.length

theorem sameGeom_self (a : IoTlbMem) : SameGeom a a :=
  ⟨rfl, rfl, rfl, rfl, rfl, rfl, rfl⟩

theorem SameGeom.trans {a b c : IoTlbMem} (h1 : SameGeom a b) (h2 : SameGeom b c) :
    SameGeom a c :=
  ⟨h2.eq_start.trans h1.eq_start, h2.eq_nslabs.trans h1.eq_nslabs,
    h2.eq_nareas.trans h1.eq_nareas, h2.eq_area_nslabs.trans h1.eq_area_nslabs,
    h2.bitmap_len.trans h1.bitmap_len, h2.slots_len.trans h1.slots_len,
    h2.areas_len.trans h1.areas_len⟩

theorem updateArea_area (m : IoTlbMem) (j j' : Nat) (f : IoTlbArea → IoTlbArea) :
    (m.updateArea j f).area j'
      = if j = j' ∧ j < m.areas.length then f (m.area j) else m.area j' := by
  unfold IoTlbMem.updateArea IoTlbMem.area
  exact getD_set m.areas j j' (f (m.areas.getD j ⟨0, [], []⟩)) ⟨0, [], []⟩

theorem updateArea_sameGeom (m : IoTlbMem) (j : Nat) (f : IoTlbArea → IoTlbArea) :
    SameGeom m (m.updateArea j f) := by
  unfold IoTlbMem.updateArea
  exact ⟨rfl, rfl, rfl, rfl, rfl, rfl, by simp [List.length_set]⟩

/-! ### Characterization of the claim loop -/

theorem claimStep_sameGeom (j S off idx : Nat) (m : IoTlbMem) (k : Nat) :
    SameGeom m (claimStep j S off idx m k) := by
  unfold claimStep IoTlbMem.updateArea
  exact ⟨rfl, rfl, rfl, rfl, by simp [List.length_set], by simp [List.length_set],
    by simp [List.length_set]⟩

theorem claimLoop_sameGeom (j S off idx n : Nat) (m : IoTlbMem) :
    SameGeom m (claimLoop j S off idx n m) := by
  induction n with
  | zero => exact sameGeom_self m
  | succ n ih => exact SameGeom.trans ih (claimStep_sameGeom j S off idx _ n)

theorem claimStep_area (j S off idx : Nat) (m : IoTlbMem) (k : Nat) (j' : Nat) :
    (claimStep j S off idx m k).area j'
      = if j = j' ∧ j < m.areas.length
        then ⟨(m.area j).used, (m.area j).free_slots.erase (idx + k),
              (m.area j).free_slots_from_other_cpu.erase (idx + k)⟩
        else m.area j' := by
  exact updateArea_area m j j' (fun a =>
    { a with
      free_slots := a.free_slots.erase (idx + k)
      free_slots_from_other_cpu := a.free_slots_from_other_cpu.erase (idx + k) })

theorem claimLoop_bit (j S off idx n : Nat) (m : IoTlbMem) (i : Nat) :
    (claimLoop j S off idx n m).bit i
      = if idx ≤ i ∧ i < idx + n then false else m.bit i := by
  induction n with
  | zero =>
      have h : ¬(idx ≤ i ∧ i < idx + 0) := by omega
      show m.bit i = _
      rw [if_neg h]
  | succ n ih =>
      show (claimStep j S off idx (claimLoop j S off idx n m) n).bit i = _
      have hlen := (claimLoop_sameGeom j S off idx n m).bitmap_len
      unfold claimStep IoTlbMem.bit at *
      rw [getD_set]
      by_cases h1 : idx + n = i
      · subst h1
        by_cases h2 : idx + n < (claimLoop j S off idx n m).bitmap.length
        · simp only [h2, and_true, if_pos rfl]
          have : idx ≤ idx + n ∧ idx + n < idx + (n + 1) := by omega
          simp [this]
        · simp only [h2, and_false, if_false]
          rw [ih]
          have h3 : ¬(idx ≤ idx + n ∧ idx + n < idx + n) := by omega
          rw [if_neg h3]
          have h4 : m.bitmap.length ≤ idx + n := by omega
          have h5 : idx ≤ idx + n ∧ idx + n < idx + (n + 1) := by omega
          rw [if_pos h5]
          exact List.getD_eq_default m.bitmap false h4
      · simp only [h1, false_and, if_false]
        rw [ih]
        by_cases h2 : idx ≤ i ∧ i < idx + n
        · have : idx ≤ i ∧ i < idx + (n + 1) := by omega
          simp [h2, this]
        · have : (idx ≤ i ∧ i < idx + (n + 1)) ↔ False := by
            constructor
            · intro hc
              exact absurd (by omega : idx ≤ i ∧ i < idx + n ∨ i = idx + n)
                (by simp [h1, h2]; omega)
            · intro hc
              exact hc.elim
          simp [h2, this]

theorem claimLoop_slot (j S off idx n : Nat) (m : IoTlbMem)
    (hb : idx + n ≤ m.slots.length) (i : Nat) :
    (claimLoop j S off idx n m).slot i
      = if idx ≤ i ∧ i < idx + n
        then ⟨(m.slot i).orig_addr, u64sub S (off + (i - idx) * IO_TLB_SIZE)⟩
        else m.slot i := by
  induction n with
  | zero =>
      have h : ¬(idx ≤ i ∧ i < idx + 0) := by omega
      show m.slot i = _
      rw [if_neg h]
  | succ n ih =>
      have hb' : idx + n ≤ m.slots.length := by omega
      have hlen := (claimLoop_sameGeom j S off idx n m).slots_len
      show (claimStep j S off idx (claimLoop j S off idx n m) n).slot i = _
      unfold claimStep IoTlbMem.slot at *
      rw [getD_set]
      by_cases h1 : idx + n = i
      · subst h1
        have h2 : idx + n < (claimLoop j S off idx n m).slots.length := by omega
        have h3 : idx ≤ idx + n ∧ idx + n < idx + (n + 1) := by omega
        rw [if_pos ⟨rfl, h2⟩, if_pos h3]
        have h4 : ¬(idx ≤ idx + n ∧ idx + n < idx + n) := by omega
        rw [ih hb', if_neg h4]
        have h5 : idx + n - idx = n := by omega
        rw [h5]
  -- the else branch of the set: index differs from idx + n
      · simp only [h1, false_and, if_false]
        rw [ih hb']
        by_cases h2 : idx ≤ i ∧ i < idx + n
        · have : idx ≤ i ∧ i < idx + (n + 1) := by omega
          simp [h2, this]
        · have h3 : ¬(idx ≤ i ∧ i < idx + (n + 1)) := by omega
          simp [h2, h3]

theorem claimLoop_area_ne (j S off idx n : Nat) (m : IoTlbMem) {j' : Nat} (h : j' ≠ j) :
    (claimLoop j S off idx n m).area j' = m.area j' := by
  induction n with
  | zero => rfl
  | succ n ih =>
      show (claimStep j S off idx (claimLoop j S off idx n m) n).area j' = _
      rw [claimStep_area]
      have hne : ¬(j = j' ∧ j < (claimLoop j S off idx n m).areas.length) := by
        intro hc
        exact h hc.1.symm
      rw [if_neg hne]
      exact ih

theorem claimLoop_used (j S off idx n : Nat) (m : IoTlbMem) (j' : Nat) :
    ((claimLoop j S off idx n m).area j').used = (m.area j').used := by
  induction n with
  | zero => rfl
  | succ n ih =>
      show ((claimStep j S off idx (claimLoop j S off idx n m) n).area j').used = _
      rw [claimStep_area]
      by_cases hj : j = j' ∧ j < (claimLoop j S off idx n m).areas.length
      · obtain ⟨rfl, hlt⟩ := hj
        rw [if_pos ⟨rfl, hlt⟩]
        exact ih
      · rw [if_neg hj]
        exact ih

theorem claimLoop_free (j S off idx n : Nat) (m : IoTlbMem)
    (hnd : (m.area j).free_slots.Nodup) :
    ((claimLoop j S off idx n m).area j).free_slots
      = (m.area j).free_slots.filter
          (fun x => decide (x < idx ∨ idx + n ≤ x)) := by
  induction n with
  | zero =>
      show (m.area j).free_slots = _
      rw [List.filter_congr (q := fun _ => true) (by
        intro x hx
        rw [decide_eq_true (by omega : x < idx ∨ idx + 0 ≤ x)])]
      simp
  | succ n ih =>
      show ((claimStep j S off idx (claimLoop j S off idx n m) n).area j).free_slots = _
      rw [claimStep_area]
      by_cases hj : j = j ∧ j < (claimLoop j S off idx n m).areas.length
      · rw [if_pos hj]
        show ((claimLoop j S off idx n m).area j).free_slots.erase (idx + n) = _
        rw [ih]
        have hnd2 : ((m.area j).free_slots.filter
            (fun x => decide (x < idx ∨ idx + n ≤ x))).Nodup :=
          List.Nodup.filter _ hnd
        rw [List.Nodup.erase_eq_filter hnd2, List.filter_filter]
        refine List.filter_congr ?_
        intro x hx
        by_cases hc : x = idx + n
        · subst hc
          have h1 : ((idx + n : Nat) != idx + n) = false := by simp
          rw [h1, Bool.false_and]
          have h2 : ¬(idx + n < idx ∨ idx + (n + 1) ≤ idx + n) := by omega
          rw [decide_eq_false h2]
        · have h1 : (x != idx + n) = true := by simp [hc]
          rw [h1, Bool.true_and]
          exact decide_eq_decide.2 (by omega)
      · rw [if_neg hj]
        rw [ih]
        have hlen := (claimLoop_sameGeom j S off idx n m).areas_len
        have hge : m.areas.length ≤ j := by
          rcases not_and_or.1 hj with h | h
          · exact absurd rfl h
          · omega
        have hdef : m.area j = ⟨0, [], []⟩ := by
          unfold IoTlbMem.area
          exact List.getD_eq_default _ _ hge
        rw [hdef]
        rfl

theorem claimLoop_other (j S off idx n : Nat) (m : IoTlbMem)
    (hnd : (m.area j).free_slots_from_other_cpu.Nodup) :
    ((claimLoop j S off idx n m).area j).free_slots_from_other_cpu
      = (m.area j).free_slots_from_other_cpu.filter
          (fun x => decide (x < idx ∨ idx + n ≤ x)) := by
  induction n with
  | zero =>
      show (m.area j).free_slots_from_other_cpu = _
      rw [List.filter_congr (q := fun _ => true) (by
        intro x hx
        rw [decide_eq_true (by omega : x < idx ∨ idx + 0 ≤ x)])]
      simp
  | succ n ih =>
      show ((claimStep j S off idx (claimLoop j S off idx n m) n).area j).free_slots_from_other_cpu = _
      rw [claimStep_area]
      by_cases hj : j = j ∧ j < (claimLoop j S off idx n m).areas.length
      · rw [if_pos hj]
        show ((claimLoop j S off idx n m).area j).free_slots_from_other_cpu.erase (idx + n) = _
        rw [ih]
        have hnd2 : ((m.area j).free_slots_from_other_cpu.filter
            (fun x => decide (x < idx ∨ idx + n ≤ x))).Nodup :=
          List.Nodup.filter _ hnd
        rw [List.Nodup.erase_eq_filter hnd2, List.filter_filter]
        refine List.filter_congr ?_
        intro x hx
        by_cases hc : x = idx + n
        · subst hc
          have h1 : ((idx + n : Nat) != idx + n) = false := by simp
          rw [h1, Bool.false_and]
          have h2 : ¬(idx + n < idx ∨ idx + (n + 1) ≤ idx + n) := by omega
          rw [decide_eq_false h2]
        · have h1 : (x != idx + n) = true := by simp [hc]
          rw [h1, Bool.true_and]
          exact decide_eq_decide.2 (by omega)
      · rw [if_neg hj]
        rw [ih]
        have hlen := (claimLoop_sameGeom j S off idx n m).areas_len
        have hge : m.areas.length ≤ j := by
          rcases not_and_or.1 hj with h | h
          · exact absurd rfl h
          · omega
        have hdef : m.area j = ⟨0, [], []⟩ := by
          unfold IoTlbMem.area
          exact List.getD_eq_default _ _ hge
        rw [hdef]
        rfl

/-! ### Characterization of the release loop -/

theorem releaseStep_area (j : Nat) (m : IoTlbMem) (i : Nat) (j' : Nat) :
    (releaseStep j m i).area j'
      = if j = j' ∧ j < m.areas.length
        then ⟨(m.area j).used, i :: (m.area j).free_slots,
              (m.area j).free_slots_from_other_cpu⟩
        else m.area j' := by
  exact updateArea_area m j j' (fun a => { a with free_slots := i :: a.free_slots })

theorem releaseStep_sameGeom (j : Nat) (m : IoTlbMem) (i : Nat) :
    SameGeom m (releaseStep j m i) := by
  unfold releaseStep IoTlbMem.updateArea
  exact ⟨rfl, rfl, rfl, rfl, by simp [List.length_set], by simp [List.length_set],
    by simp [List.length_set]⟩

theorem releaseLoop_sameGeom (j idx n : Nat) (m : IoTlbMem) :
    SameGeom m (releaseLoop j idx n m) := by
  induction n generalizing m with
  | zero => exact sameGeom_self m
  | succ n ih =>
      exact SameGeom.trans (releaseStep_sameGeom j m (idx + n)) (ih _)

theorem releaseLoop_bit (j idx n : Nat) (m : IoTlbMem)
    (hb : idx + n ≤ m.bitmap.length) (i : Nat) :
    (releaseLoop j idx n m).bit i
      = if idx ≤ i ∧ i < idx + n then true else m.bit i := by
  induction n generalizing m with
  | zero =>
      have h : ¬(idx ≤ i ∧ i < idx + 0) := by omega
      show m.bit i = _
      rw [if_neg h]
  | succ n ih =>
      show (releaseLoop j idx n (releaseStep j m (idx + n))).bit i = _
      have hlen := (releaseStep_sameGeom j m (idx + n)).bitmap_len
      rw [ih _ (by omega)]
      have hstep : (releaseStep j m (idx + n)).bit i
          = if idx + n = i ∧ idx + n < m.bitmap.length then true else m.bit i := by
        unfold releaseStep IoTlbMem.bit
        exact getD_set m.bitmap (idx + n) i true false
      by_cases h1 : idx ≤ i ∧ i < idx + n
      · rw [if_pos h1, if_pos (by omega)]
      · rw [if_neg h1, hstep]
        by_cases h2 : i = idx + n
        · subst h2
          rw [if_pos ⟨rfl, by omega⟩, if_pos (by omega)]
        · rw [if_neg (by omega), if_neg (by omega)]

theorem releaseLoop_slot (j idx n : Nat) (m : IoTlbMem)
    (hb : idx + n ≤ m.slots.length) (i : Nat) :
    (releaseLoop j idx n m).slot i
      = if idx ≤ i ∧ i < idx + n then ⟨INVALID_PHYS_ADDR, 0⟩ else m.slot i := by
  induction n generalizing m with
  | zero =>
      have h : ¬(idx ≤ i ∧ i < idx + 0) := by omega
      show m.slot i = _
      rw [if_neg h]
  | succ n ih =>
      show (releaseLoop j idx n (releaseStep j m (idx + n))).slot i = _
      have hlen := (releaseStep_sameGeom j m (idx + n)).slots_len
      rw [ih _ (by omega)]
      have hstep : (releaseStep j m (idx + n)).slot i
          = if idx + n = i ∧ idx + n < m.slots.length then ⟨INVALID_PHYS_ADDR, 0⟩
            else m.slot i := by
        unfold releaseStep IoTlbMem.slot
        exact getD_set m.slots (idx + n) i ⟨INVALID_PHYS_ADDR, 0⟩ ⟨0, 0⟩
      by_cases h1 : idx ≤ i ∧ i < idx + n
      · rw [if_pos h1, if_pos (by omega)]
      · rw [if_neg h1, hstep]
        by_cases h2 : i = idx + n
        · subst h2
          rw [if_pos ⟨rfl, by omega⟩, if_pos (by omega)]
        · rw [if_neg (by omega), if_neg (by omega)]

theorem releaseLoop_free (j idx n : Nat) (m : IoTlbMem) (hj : j < m.areas.length) :
    ((releaseLoop j idx n m).area j).free_slots
      = List.range' idx n ++ (m.area j).free_slots := by
  induction n generalizing m with
  | zero => rfl
  | succ n ih =>
      show ((releaseLoop j idx n (releaseStep j m (idx + n))).area j).free_slots = _
      have hlen := (releaseStep_sameGeom j m (idx + n)).areas_len
      rw [ih _ (by omega)]
      rw [releaseStep_area, if_pos ⟨rfl, hj⟩]
      show List.range' idx n ++ (idx + n) :: (m.area j).free_slots = _
      rw [List.range'_concat]
      simp

theorem releaseLoop_other (j idx n : Nat) (m : IoTlbMem) (j' : Nat) :
    ((releaseLoop j idx n m).area j').free_slots_from_other_cpu
      = (m.area j').free_slots_from_other_cpu := by
  induction n generalizing m with
  | zero => rfl
  | succ n ih =>
      show ((releaseLoop j idx n (releaseStep j m (idx + n))).area j').free_slots_from_other_cpu = _
      rw [ih]
      rw [releaseStep_area]
      by_cases hj : j = j' ∧ j < m.areas.length
      · obtain ⟨rfl, hlt⟩ := hj
        rw [if_pos ⟨rfl, hlt⟩]
      · rw [if_neg hj]

theorem releaseLoop_used (j idx n : Nat) (m : IoTlbMem) (j' : Nat) :
    ((releaseLoop j idx n m).area j').used = (m.area j').used := by
  induction n generalizing m with
  | zero => rfl
  | succ n ih =>
      show ((releaseLoop j idx n (releaseStep j m (idx + n))).area j').used = _
      rw [ih]
      rw [releaseStep_area]
      by_cases hj : j = j' ∧ j < m.areas.length
      · obtain ⟨rfl, hlt⟩ := hj
        rw [if_pos ⟨rfl, hlt⟩]
      · rw [if_neg hj]

theorem releaseLoop_area_ne (j idx n : Nat) (m : IoTlbMem) {j' : Nat} (h : j' ≠ j) :
    (releaseLoop j idx n m).area j' = m.area j' := by
  induction n generalizing m with
  | zero => rfl
  | succ n ih =>
      show (releaseLoop j idx n (releaseStep j m (idx + n))).area j' = _
      rw [ih]
      rw [releaseStep_area]
      rw [if_neg (by intro hc; exact h hc.1.symm)]

/-! ### Characterization of the cross-CPU queueing loop -/

theorem queueLoop_bitmap (j idx n : Nat) (m : IoTlbMem) :
    (queueOtherCpuLoop j idx n m).bitmap = m.bitmap := by
  induction n generalizing m with
  | zero => rfl
  | succ n ih => exact ih _

theorem queueLoop_slots (j idx n : Nat) (m : IoTlbMem) :
    (queueOtherCpuLoop j idx n m).slots = m.slots := by
  induction n generalizing m with
  | zero => rfl
  | succ n ih => exact ih _

theorem queueLoop_sameGeom (j idx n : Nat) (m : IoTlbMem) :
    SameGeom m (queueOtherCpuLoop j idx n m) := by
  induction n generalizing m with
  | zero => exact sameGeom_self m
  | succ n ih =>
      exact SameGeom.trans (updateArea_sameGeom m j _) (ih _)

theorem queueLoop_other (j idx n : Nat) (m : IoTlbMem) (hj : j < m.areas.length) :
    ((queueOtherCpuLoop j idx n m).area j).free_slots_from_other_cpu
      = List.range' idx n ++ (m.area j).free_slots_from_other_cpu := by
  induction n generalizing m with
  | zero => rfl
  | succ n ih =>
      show ((queueOtherCpuLoop j idx n _).area j).free_slots_from_other_cpu = _
      have hlen := (updateArea_sameGeom m j (fun a =>
        { a with free_slots_from_other_cpu := (idx + n) :: a.free_slots_from_other_cpu })).areas_len
      rw [ih _ (by omega)]
      rw [updateArea_area, if_pos ⟨rfl, hj⟩]
      show List.range' idx n ++ (idx + n) :: (m.area j).free_slots_from_other_cpu = _
      rw [List.range'_concat]
      simp

theorem queueLoop_free (j idx n : Nat) (m : IoTlbMem) (j' : Nat) :
    ((queueOtherCpuLoop j idx n m).area j').free_slots = (m.area j').free_slots := by
  induction n generalizing m with
  | zero => rfl
  | succ n ih =>
      show ((queueOtherCpuLoop j idx n _).area j').free_slots = _
      rw [ih]
      rw [updateArea_area]
      by_cases hj : j = j' ∧ j < m.areas.length
      · obtain ⟨rfl, hlt⟩ := hj
        rw [if_pos ⟨rfl, hlt⟩]
      · rw [if_neg hj]

theorem queueLoop_used (j idx n : Nat) (m : IoTlbMem) (j' : Nat) :
    ((queueOtherCpuLoop j idx n m).area j').used = (m.area j').used := by
  induction n generalizing m with
  | zero => rfl
  | succ n ih =>
      show ((queueOtherCpuLoop j idx n _).area j').used = _
      rw [ih]
      rw [updateArea_area]
      by_cases hj : j = j' ∧ j < m.areas.length
      · obtain ⟨rfl, hlt⟩ := hj
        rw [if_pos ⟨rfl, hlt⟩]
      · rw [if_neg hj]

theorem queueLoop_area_ne (j idx n : Nat) (m : IoTlbMem) {j' : Nat} (h : j' ≠ j) :
    (queueOtherCpuLoop j idx n m).area j' = m.area j' := by
  induction n generalizing m with
  | zero => rfl
  | succ n ih =>
      show (queueOtherCpuLoop j idx n _).area j' = _
      rw [ih]
      rw [updateArea_area]
      rw [if_neg (by intro hc; exact h hc.1.symm)]

/-! ### Characterization of the reclamation pass -/

theorem reclaimStep_area (j : Nat) (m : IoTlbMem) (i : Nat) (j' : Nat) :
    (reclaimStep j m i).area j'
      = if j = j' ∧ j < m.areas.length
        then ⟨u64sub (m.area j).used 1, i :: (m.area j).free_slots.erase i,
              (m.area j).free_slots_from_other_cpu.erase i⟩
        else m.area j' := by
  exact updateArea_area m j j' (fun a =>
    { a with
      used := u64sub a.used 1
      free_slots := i :: a.free_slots.erase i
      free_slots_from_other_cpu := a.free_slots_from_other_cpu.erase i })

theorem reclaimStep_sameGeom (j : Nat) (m : IoTlbMem) (i : Nat) :
    SameGeom m (reclaimStep j m i) := by
  unfold reclaimStep IoTlbMem.updateArea
  exact ⟨rfl, rfl, rfl, rfl, by simp [List.length_set], by simp [List.length_set],
    by simp [List.length_set]⟩

theorem reclaimFold_sameGeom (j : Nat) (L : List Nat) (m : IoTlbMem) :
    SameGeom m (L.foldl (reclaimStep j) m) := by
  induction L generalizing m with
  | nil => exact sameGeom_self m
  | cons x xs ih =>
      exact SameGeom.trans (reclaimStep_sameGeom j m x) (ih _)

theorem reclaimFold_bit (j : Nat) (L : List Nat) (m : IoTlbMem)
    (hb : ∀ x ∈ L, x < m.bitmap.length) (i : Nat) :
    (L.foldl (reclaimStep j) m).bit i = if i ∈ L then true else m.bit i := by
  induction L generalizing m with
  | nil => simp
  | cons x xs ih =>
      show (xs.foldl (reclaimStep j) (reclaimStep j m x)).bit i = _
      have hlen := (reclaimStep_sameGeom j m x).bitmap_len
      rw [ih _ (by intro y hy; rw [hlen]; exact hb y (List.mem_cons_of_mem x hy))]
      have hstep : (reclaimStep j m x).bit i
          = if x = i ∧ x < m.bitmap.length then true else m.bit i := by
        unfold reclaimStep IoTlbMem.bit
        exact getD_set m.bitmap x i true false
      by_cases h1 : i ∈ xs
      · rw [if_pos h1, if_pos (List.mem_cons_of_mem x h1)]
      · rw [if_neg h1, hstep]
        by_cases h2 : i = x
        · subst h2
          rw [if_pos ⟨rfl, hb i (List.mem_cons_self _ _)⟩,
            if_pos (List.mem_cons_self _ _)]
        · rw [if_neg (by intro hc; exact h2 hc.1.symm)]
          rw [if_neg (by simp [List.mem_cons, h1, h2])]

theorem reclaimFold_slot (j : Nat) (L : List Nat) (m : IoTlbMem)
    (hb : ∀ x ∈ L, x < m.slots.length) (i : Nat) :
    (L.foldl (reclaimStep j) m).slot i
      = if i ∈ L then ⟨INVALID_PHYS_ADDR, 0⟩ else m.slot i := by
  induction L generalizing m with
  | nil => simp
  | cons x xs ih =>
      show (xs.foldl (reclaimStep j) (reclaimStep j m x)).slot i = _
      have hlen := (reclaimStep_sameGeom j m x).slots_len
      rw [ih _ (by intro y hy; rw [hlen]; exact hb y (List.mem_cons_of_mem x hy))]
      have hstep : (reclaimStep j m x).slot i
          = if x = i ∧ x < m.slots.length then ⟨INVALID_PHYS_ADDR, 0⟩ else m.slot i := by
        unfold reclaimStep IoTlbMem.slot
        exact getD_set m.slots x i ⟨INVALID_PHYS_ADDR, 0⟩ ⟨0, 0⟩
      by_cases h1 : i ∈ xs
      · rw [if_pos h1, if_pos (List.mem_cons_of_mem x h1)]
      · rw [if_neg h1, hstep]
        by_cases h2 : i = x
        · subst h2
          rw [if_pos ⟨rfl, hb i (List.mem_cons_self _ _)⟩,
            if_pos (List.mem_cons_self _ _)]
        · rw [if_neg (by intro hc; exact h2 hc.1.symm)]
          rw [if_neg (by simp [List.mem_cons, h1, h2])]

theorem reclaimFold_free (j : Nat) (L : List Nat) (m : IoTlbMem)
    (hj : j < m.areas.length) (hnd : L.Nodup)
    (hdisj : ∀ x ∈ L, x ∉ (m.area j).free_slots) :
    ((L.foldl (reclaimStep j) m).area j).free_slots
      = L.reverse ++ (m.area j).free_slots := by
  induction L generalizing m with
  | nil => simp
  | cons x xs ih =>
      show ((xs.foldl (reclaimStep j) (reclaimStep j m x)).area j).free_slots = _
      have hlen := (reclaimStep_sameGeom j m x).areas_len
      have hstep : (reclaimStep j m x).area j
          = ⟨u64sub (m.area j).used 1, x :: (m.area j).free_slots.erase x,
             (m.area j).free_slots_from_other_cpu.erase x⟩ := by
        rw [reclaimStep_area, if_pos ⟨rfl, hj⟩]
      have herase : (m.area j).free_slots.erase x = (m.area j).free_slots :=
        List.erase_of_not_mem (hdisj x (List.mem_cons_self _ _))
      rw [ih _ (by omega) (List.Nodup.of_cons hnd) (by
        intro y hy
        rw [hstep]
        show y ∉ x :: (m.area j).free_slots.erase x
        rw [herase]
        intro hc
        rcases List.mem_cons.1 hc with h | h
        · subst h
          exact (List.nodup_cons.1 hnd).1 hy
        · exact hdisj y (List.mem_cons_of_mem x hy) h)]
      rw [hstep]
      show xs.reverse ++ (x :: (m.area j).free_slots.erase x) = _
      rw [herase]
      simp

theorem reclaimFold_other (j : Nat) (L : List Nat) (m : IoTlbMem)
    (hj : j < m.areas.length) (hndO : (m.area j).free_slots_from_other_cpu.Nodup) :
    ((L.foldl (reclaimStep j) m).area j).free_slots_from_other_cpu
      = (m.area j).free_slots_from_other_cpu.filter (fun x => !(L.contains x)) := by
  induction L generalizing m with
  | nil =>
      show (m.area j).free_slots_from_other_cpu = _
      rw [List.filter_congr (q := fun _ => true) (by intro x hx; simp)]
      simp
  | cons x xs ih =>
      show ((xs.foldl (reclaimStep j) (reclaimStep j m x)).area j).free_slots_from_other_cpu = _
      have hlen := (reclaimStep_sameGeom j m x).areas_len
      have hstep : (reclaimStep j m x).area j
          = ⟨u64sub (m.area j).used 1, x :: (m.area j).free_slots.erase x,
             (m.area j).free_slots_from_other_cpu.erase x⟩ := by
        rw [reclaimStep_area, if_pos ⟨rfl, hj⟩]
      rw [ih _ (by omega) (by rw [hstep]; exact List.Nodup.erase x hndO)]
      rw [hstep]
      show ((m.area j).free_slots_from_other_cpu.erase x).filter _ = _
      rw [List.Nodup.erase_eq_filter hndO, List.filter_filter]
      refine List.filter_congr ?_
      intro y hy
      by_cases hc : y = x
      · subst hc
        have h1 : (y != y) = false := by simp
        rw [h1, Bool.and_false]
        have h2 : (List.contains (y :: xs) y) = true := by
          simp
        rw [h2]
        rfl
      · have h1 : (y != x) = true := by simp [hc]
        rw [h1, Bool.and_true]
        by_cases h2 : y ∈ xs
        · have hx : xs.contains y = true := by simpa using h2
          have hcx : (x :: xs).contains y = true := by simp [h2]
          rw [hx, hcx]
        · have hx : xs.contains y = false := by simpa using h2
          have hcx : (x :: xs).contains y = false := by simp [hc, h2]
          rw [hx, hcx]

theorem reclaimFold_used (j : Nat) (L : List Nat) (m : IoTlbMem)
    (hj : j < m.areas.length)
    (hub : L.length ≤ (m.area j).used) (hlt : (m.area j).used < U64_MOD) :
    ((L.foldl (reclaimStep j) m).area j).used = (m.area j).used - L.length := by
  induction L generalizing m with
  | nil => simp
  | cons x xs ih =>
      show ((xs.foldl (reclaimStep j) (reclaimStep j m x)).area j).used = _
      have hlen := (reclaimStep_sameGeom j m x).areas_len
      have hstep : (reclaimStep j m x).area j
          = ⟨u64sub (m.area j).used 1, x :: (m.area j).free_slots.erase x,
             (m.area j).free_slots_from_other_cpu.erase x⟩ := by
        rw [reclaimStep_area, if_pos ⟨rfl, hj⟩]
      have hlenL : (x :: xs).length = xs.length + 1 := rfl
      have hsub : u64sub (m.area j).used 1 = (m.area j).used - 1 :=
        u64sub_eq (by rw [hlenL] at hub; omega) hlt
      have h1 : xs.length ≤ ((reclaimStep j m x).area j).used := by
        rw [hstep]
        show xs.length ≤ u64sub (m.area j).used 1
        rw [hsub]
        rw [hlenL] at hub
        omega
      have h2 : ((reclaimStep j m x).area j).used < U64_MOD := by
        rw [hstep]
        show u64sub (m.area j).used 1 < U64_MOD
        rw [hsub]
        omega
      rw [ih _ (by omega) h1 h2, hstep]
      show u64sub (m.area j).used 1 - xs.length = _
      rw [hsub, hlenL]
      omega

theorem reclaimFold_area_ne (j : Nat) (L : List Nat) (m : IoTlbMem) {j' : Nat}
    (h : j' ≠ j) :
    (L.foldl (reclaimStep j) m).area j' = m.area j' := by
  induction L generalizing m with
  | nil => rfl
  | cons x xs ih =>
      show (xs.foldl (reclaimStep j) (reclaimStep j m x)).area j' = _
      rw [ih]
      rw [reclaimStep_area]
      rw [if_neg (by intro hc; exact h hc.1.symm)]

/-! ### Characterization of the orig_addr-recording loop -/

theorem origLoop_bitmap (orig idx n : Nat) (m : IoTlbMem) :
    (origLoop orig idx n m).bitmap = m.bitmap := by
  induction n with
  | zero => rfl
  | succ n ih =>
      show (origStep orig idx (origLoop orig idx n m) n).bitmap = _
      unfold origStep
      exact ih

theorem origLoop_areas (orig idx n : Nat) (m : IoTlbMem) :
    (origLoop orig idx n m).areas = m.areas := by
  induction n with
  | zero => rfl
  | succ n ih =>
      show (origStep orig idx (origLoop orig idx n m) n).areas = _
      unfold origStep
      exact ih

theorem origLoop_sameGeom (orig idx n : Nat) (m : IoTlbMem) :
    SameGeom m (origLoop orig idx n m) := by
  induction n with
  | zero => exact sameGeom_self m
  | succ n ih =>
      refine SameGeom.trans ih ?_
      show SameGeom _ (origStep orig idx (origLoop orig idx n m) n)
      unfold origStep
      exact ⟨rfl, rfl, rfl, rfl, rfl, by simp [List.length_set], rfl⟩

theorem origLoop_slot (orig idx n : Nat) (m : IoTlbMem)
    (hb : idx + n ≤ m.slots.length) (i : Nat) :
    (origLoop orig idx n m).slot i
      = if idx ≤ i ∧ i < idx + n
        then ⟨slot_addr orig (i - idx), (m.slot i).alloc_size⟩
        else m.slot i := by
  induction n with
  | zero =>
      have h : ¬(idx ≤ i ∧ i < idx + 0) := by omega
      show m.slot i = _
      rw [if_neg h]
  | succ n ih =>
      have hb' : idx + n ≤ m.slots.length := by omega
      have hlen := (origLoop_sameGeom orig idx n m).slots_len
      show (origStep orig idx (origLoop orig idx n m) n).slot i = _
      unfold origStep IoTlbMem.slot at *
      rw [getD_set]
      by_cases h1 : idx + n = i
      · subst h1
        have h2 : idx + n < (origLoop orig idx n m).slots.length := by omega
        have h3 : idx ≤ idx + n ∧ idx + n < idx + (n + 1) := by omega
        rw [if_pos ⟨rfl, h2⟩, if_pos h3]
        have h4 : ¬(idx ≤ idx + n ∧ idx + n < idx + n) := by omega
        rw [ih hb', if_neg h4]
        have h5 : idx + n - idx = n := by omega
        rw [h5]
      · simp only [h1, false_and, if_false]
        rw [ih hb']
        by_cases h2 : idx ≤ i ∧ i < idx + n
        · have : idx ≤ i ∧ i < idx + (n + 1) := by omega
          simp [h2, this]
        · have h3 : ¬(idx ≤ i ∧ i < idx + (n + 1)) := by omega
          simp [h2, h3]

/-! ### The pool invariant -/

/-- Unit `i` belongs to area `j`'s contiguous slice of the index space. -/
def ownedBy (mem : IoTlbMem) (j i : Nat) : Prop :=
  j * mem.area_nslabs ≤ i ∧ i < (j + 1) * mem.area_nslabs

/-- The allocator's well-formedness invariant: geometry consistency, free
lists hold distinct owned indices, the bitmap agrees with free-list
membership, and (the amended conservation law) each area's used count plus
its free-list length equals the area's unit count.  Note that the
cross-CPU list does NOT appear in the conservation clause: a unit queued
on `free_slots_from_other_cpu` is still counted in `used` until the owner
CPU reclaims it. -/
structure Inv (mem : IoTlbMem) : Prop where
  areas_len : mem.areas.length = mem.nareas
  slots_len : mem.slots.length = mem.nslabs
  bitmap_len : mem.bitmap.length = mem.nslabs
  nareas_pos : 0 < mem.nareas
  geom : mem.nslabs = mem.nareas * mem.area_nslabs
  seg_dvd : IO_TLB_SEGSIZE ∣ mem.area_nslabs
  nslabs_lt : mem.nslabs < U64_MOD
  free_owned : ∀ j < mem.nareas, ∀ i ∈ (mem.area j).free_slots, ownedBy mem j i
  other_owned : ∀ j < mem.nareas,
      ∀ i ∈ (mem.area j).free_slots_from_other_cpu, ownedBy mem j i
  free_nodup : ∀ j < mem.nareas, (mem.area j).free_slots.Nodup
  other_nodup : ∀ j < mem.nareas, (mem.area j).free_slots_from_other_cpu.Nodup
  free_other_disj : ∀ j < mem.nareas, ∀ i ∈ (mem.area j).free_slots,
      i ∉ (mem.area j).free_slots_from_other_cpu
  bit_iff_free : ∀ j < mem.nareas, ∀ i, ownedBy mem j i →
      (mem.bit i = true ↔ i ∈ (mem.area j).free_slots)
  conservation : ∀ j < mem.nareas,
      (mem.area j).used + (mem.area j).free_slots.length = mem.area_nslabs

theorem length_le_of_mem_Ico {l : List Nat} {s n : Nat} (hnd : l.Nodup)
    (h : ∀ x ∈ l, s ≤ x ∧ x < s + n) : l.length ≤ n := by
  have hsub : l.toFinset ⊆ Finset.Ico s (s + n) := by
    intro x hx
    rw [List.mem_toFinset] at hx
    rw [Finset.mem_Ico]
    exact h x hx
  have := Finset.card_le_card hsub
  rw [Nat.card_Ico, List.toFinset_card_of_nodup hnd] at this
  omega

theorem ownedBy_iff (mem : IoTlbMem) (j i : Nat) :
    ownedBy mem j i ↔ j * mem.area_nslabs ≤ i ∧ i < j * mem.area_nslabs + mem.area_nslabs := by
  unfold ownedBy
  constructor
  · rintro ⟨h1, h2⟩
    refine ⟨h1, ?_⟩
    have : (j + 1) * mem.area_nslabs = j * mem.area_nslabs + mem.area_nslabs := by ring
    omega
  · rintro ⟨h1, h2⟩
    refine ⟨h1, ?_⟩
    have : (j + 1) * mem.area_nslabs = j * mem.area_nslabs + mem.area_nslabs := by ring
    omega

theorem ownedBy_lt_nslabs {mem : IoTlbMem} (hInv : Inv mem) {j i : Nat}
    (hj : j < mem.nareas) (h : ownedBy mem j i) : i < mem.nslabs := by
  have h2 := h.2
  have : (j + 1) * mem.area_nslabs ≤ mem.nareas * mem.area_nslabs :=
    Nat.mul_le_mul_right _ (by omega)
  rw [hInv.geom]
  omega

theorem ownedBy_unique {mem : IoTlbMem} {j j' i : Nat}
    (h : ownedBy mem j i) (h' : ownedBy mem j' i) : j = j' := by
  rcases (ownedBy_iff mem j i).1 h with ⟨h1, h2⟩
  rcases (ownedBy_iff mem j' i).1 h' with ⟨h3, h4⟩
  by_contra hne
  rcases Nat.lt_or_ge j j' with hlt | hge
  · have : (j + 1) * mem.area_nslabs ≤ j' * mem.area_nslabs :=
      Nat.mul_le_mul_right _ (by omega)
    have he : (j + 1) * mem.area_nslabs = j * mem.area_nslabs + mem.area_nslabs := by ring
    omega
  · have hlt' : j' < j := by omega
    have : (j' + 1) * mem.area_nslabs ≤ j * mem.area_nslabs :=
      Nat.mul_le_mul_right _ (by omega)
    have he : (j' + 1) * mem.area_nslabs = j' * mem.area_nslabs + mem.area_nslabs := by ring
    omega

theorem Inv.used_le {mem : IoTlbMem} (hInv : Inv mem) {j : Nat} (hj : j < mem.nareas) :
    (mem.area j).used ≤ mem.area_nslabs := by
  have := hInv.conservation j hj
  omega

theorem Inv.anslabs_le {mem : IoTlbMem} (hInv : Inv mem) :
    mem.area_nslabs ≤ mem.nslabs := by
  rw [hInv.geom]
  have := hInv.nareas_pos
  exact Nat.le_mul_of_pos_left _ this

theorem Inv.used_lt {mem : IoTlbMem} (hInv : Inv mem) {j : Nat} (hj : j < mem.nareas) :
    (mem.area j).used < U64_MOD :=
  lt_of_le_of_lt (le_trans (hInv.used_le hj) hInv.anslabs_le) hInv.nslabs_lt

theorem Inv.area_default {mem : IoTlbMem} (hInv : Inv mem) {j : Nat}
    (hj : mem.nareas ≤ j) : mem.area j = ⟨0, [], []⟩ := by
  unfold IoTlbMem.area
  exact List.getD_eq_default _ _ (by rw [hInv.areas_len]; omega)

/-- An `Inv`-relevant-parts transport: two pools with the same bitmap,
the same areas, the same geometry and equally long slot tables satisfy
the invariant together. -/
theorem inv_of_eq_parts {a b : IoTlbMem} (hInv : Inv a)
    (h1 : b.bitmap = a.bitmap) (h2 : b.areas = a.areas)
    (h3 : b.slots.length = a.slots.length)
    (h4 : b.start = a.start) (h5 : b.nslabs = a.nslabs) (h6 : b.nareas = a.nareas)
    (h7 : b.area_nslabs = a.area_nslabs) : Inv b := by
  have hbit : ∀ i, b.bit i = a.bit i := by
    intro i
    unfold IoTlbMem.bit
    rw [h1]
  have harea : ∀ j, b.area j = a.area j := by
    intro j
    unfold IoTlbMem.area
    rw [h2]
  have howned : ∀ j i, ownedBy b j i ↔ ownedBy a j i := by
    intro j i
    unfold ownedBy
    rw [h7]
  refine ⟨?_, ?_, ?_, ?_, ?_, ?_, ?_, ?_, ?_, ?_, ?_, ?_, ?_, ?_⟩
  · rw [h2, h6]; exact hInv.areas_len
  · rw [h3, h5]; exact hInv.slots_len
  · rw [h1, h5]; exact hInv.bitmap_len
  · rw [h6]; exact hInv.nareas_pos
  · rw [h5, h6, h7]; exact hInv.geom
  · rw [h7]; exact hInv.seg_dvd
  · rw [h5]; exact hInv.nslabs_lt
  · intro j hj i hi
    rw [howned]
    exact hInv.free_owned j (by omega) i (by rw [harea] at hi; exact hi)
  · intro j hj i hi
    rw [howned]
    exact hInv.other_owned j (by omega) i (by rw [harea] at hi; exact hi)
  · intro j hj
    rw [harea]
    exact hInv.free_nodup j (by omega)
  · intro j hj
    rw [harea]
    exact hInv.other_nodup j (by omega)
  · intro j hj i hi
    rw [harea] at *
    exact hInv.free_other_disj j (by omega) i hi
  · intro j hj i hi
    rw [hbit, harea]
    rw [howned] at hi
    exact hInv.bit_iff_free j (by omega) i hi
  · intro j hj
    rw [harea, h7]
    exact hInv.conservation j (by omega)

theorem bit_true_lt {m : IoTlbMem} {i : Nat} (h : m.bit i = true) :
    i < m.bitmap.length := by
  by_contra hc
  unfold IoTlbMem.bit at h
  rw [List.getD_eq_default _ _ (by omega)] at h
  exact Bool.noConfusion h

/-! ### Inversion of the slot search -/

/-- Abbreviation for the values `swiotlb_do_find_slots` computes before its
scan loop. -/
def findParams (dev : Device) (mem : IoTlbMem) (orig_addr alloc_size : Nat) :
    Nat × Nat × Nat × Nat × Nat :=
  (phys_to_dma_unencrypted dev mem.start &&& dev.boundary_mask,
   max (get_max_slots dev.boundary_mask) IO_TLB_SEGSIZE,
   dev.min_align_mask &&& (U32_MOD - IO_TLB_SIZE),
   nr_slots alloc_size % U32_MOD,
   swiotlb_align_offset dev orig_addr)

theorem do_find_slots_none_snd {dev : Device} {mem : IoTlbMem}
    {j orig alloc align : Nat} {m' : IoTlbMem}
    (heq : swiotlb_do_find_slots dev mem j orig alloc align = (none, m')) :
    m' = mem := by
  unfold swiotlb_do_find_slots at heq
  by_cases hg : nr_slots alloc % U32_MOD >
      u64sub mem.area_nslabs (mem.area j).used
  · rw [if_pos hg] at heq
    exact (Prod.mk.injEq _ _ _ _ ▸ heq).2.symm
  · rw [if_neg hg] at heq
    rcases hf : (mem.area j).free_slots.find? (slotFits mem orig alloc align
        (nr_slots alloc % U32_MOD)
        (phys_to_dma_unencrypted dev mem.start &&& dev.boundary_mask)
        (max (get_max_slots dev.boundary_mask) IO_TLB_SEGSIZE)
        (dev.min_align_mask &&& (U32_MOD - IO_TLB_SIZE))) with - | idx
    · rw [hf] at heq
      exact (Prod.mk.injEq _ _ _ _ ▸ heq).2.symm
    · rw [hf] at heq
      exact absurd (Prod.mk.injEq _ _ _ _ ▸ heq).1 (by simp)

theorem do_find_slots_some_inv {dev : Device} {mem : IoTlbMem}
    {j orig alloc align idx : Nat} {m' : IoTlbMem}
    (heq : swiotlb_do_find_slots dev mem j orig alloc align = (some idx, m')) :
    idx ∈ (mem.area j).free_slots ∧
    slotFits mem orig alloc align (nr_slots alloc % U32_MOD)
      (phys_to_dma_unencrypted dev mem.start &&& dev.boundary_mask)
      (max (get_max_slots dev.boundary_mask) IO_TLB_SEGSIZE)
      (dev.min_align_mask &&& (U32_MOD - IO_TLB_SIZE)) idx = true ∧
    m' = (claimLoop j alloc (swiotlb_align_offset dev orig) idx
            (nr_slots alloc % U32_MOD) mem).updateArea j
          (fun a => { a with used := u64add a.used (nr_slots alloc % U32_MOD) }) := by
  unfold swiotlb_do_find_slots at heq
  by_cases hg : nr_slots alloc % U32_MOD >
      u64sub mem.area_nslabs (mem.area j).used
  · rw [if_pos hg] at heq
    exact absurd (Prod.mk.injEq _ _ _ _ ▸ heq).1 (by simp)
  · rw [if_neg hg] at heq
    rcases hf : (mem.area j).free_slots.find? (slotFits mem orig alloc align
        (nr_slots alloc % U32_MOD)
        (phys_to_dma_unencrypted dev mem.start &&& dev.boundary_mask)
        (max (get_max_slots dev.boundary_mask) IO_TLB_SEGSIZE)
        (dev.min_align_mask &&& (U32_MOD - IO_TLB_SIZE))) with - | i0
    · rw [hf] at heq
      exact absurd (Prod.mk.injEq _ _ _ _ ▸ heq).1 (by simp)
    · rw [hf] at heq
      have h1 := (Prod.mk.injEq _ _ _ _ ▸ heq).1
      have h2 := (Prod.mk.injEq _ _ _ _ ▸ heq).2
      have hi : i0 = idx := by
        simpa using h1
      subst hi
      exact ⟨List.mem_of_find?_eq_some hf, List.find?_some hf, h2.symm⟩

/-! ### Unpacking a successful candidate's checks -/

theorem slotFits_unpack {mem : IoTlbMem}
    {orig alloc align n tbl mx ia i : Nat}
    (h : slotFits mem orig alloc align n tbl mx ia i = true) :
    (orig = 0 ∨ (slot_addr tbl i &&& ia) = (orig &&& ia)) ∧
    (align = 0 ∨ slot_addr tbl i &&& (align - 1) = 0) ∧
    (alloc < PAGE_SIZE ∨ slot_addr tbl i &&& (PAGE_SIZE - 1) = 0) ∧
    io_tlb_offset i + n ≤ IO_TLB_SEGSIZE ∧
    iommu_is_span_boundary i n (nr_slots tbl) mx = false ∧
    (∀ k < n, mem.bit (i + k) = true) := by
  unfold slotFits at h
  simp only [Bool.and_eq_true, Bool.or_eq_true, decide_eq_true_eq,
    Bool.not_eq_true', allSlotsFree, List.all_eq_true, List.mem_range] at h
  obtain ⟨⟨⟨⟨⟨h1, h2⟩, h3⟩, h4⟩, h5⟩, h6⟩ := h
  exact ⟨h1, h2, h3, h4, h5, fun k hk => h6 k hk⟩

/-- Units within one segment of an owned unit stay inside the owning
area: the area size is a multiple of the segment size, so a run that
does not cross a segment boundary does not cross an area boundary. -/
theorem owned_of_seg {mem : IoTlbMem} (hInv : Inv mem) {j i n k : Nat}
    (hown : ownedBy mem j i) (hseg : i % IO_TLB_SEGSIZE + n ≤ IO_TLB_SEGSIZE)
    (hk : k < n) : ownedBy mem j (i + k) := by
  obtain ⟨t, ht⟩ := hInv.seg_dvd
  rcases (ownedBy_iff mem j i).1 hown with ⟨h1, h2⟩
  rw [ownedBy_iff]
  have hseg128 : IO_TLB_SEGSIZE = 128 := rfl
  have hdm := Nat.div_add_mod i 128
  have hq : 128 * (i / 128) ≤ i := by omega
  constructor
  · omega
  · -- i sits in segment number i / 128; the run stays in that segment,
    -- and whole segments never straddle an area boundary.
    rw [hseg128] at hseg
    rw [ht, hseg128] at h1 h2
    rw [ht, hseg128]
    have hjt : j * (128 * t) = 128 * (j * t) := by ring
    rw [hjt] at h1 h2 ⊢
    omega

/-! ### Invariant preservation -/

/-- Generic invariant-preservation principle for an operation that only
rewrites one area (and bitmap bits owned by that area). -/
theorem inv_area_update {mem m' : IoTlbMem} (hInv : Inv mem) {j : Nat}
    (hj : j < mem.nareas)
    (hgeom : SameGeom mem m')
    (hne : ∀ j', j' ≠ j → m'.area j' = mem.area j')
    (hbit_unowned : ∀ i, ¬ ownedBy mem j i → m'.bit i = mem.bit i)
    (hfo : ∀ i ∈ (m'.area j).free_slots, ownedBy mem j i)
    (hoo : ∀ i ∈ (m'.area j).free_slots_from_other_cpu, ownedBy mem j i)
    (hfnd : (m'.area j).free_slots.Nodup)
    (hond : (m'.area j).free_slots_from_other_cpu.Nodup)
    (hdisj : ∀ i ∈ (m'.area j).free_slots, i ∉ (m'.area j).free_slots_from_other_cpu)
    (hbif : ∀ i, ownedBy mem j i → (m'.bit i = true ↔ i ∈ (m'.area j).free_slots))
    (hcons : (m'.area j).used + (m'.area j).free_slots.length = mem.area_nslabs) :
    Inv m' := by
  have howned : ∀ q i, ownedBy m' q i ↔ ownedBy mem q i := by
    intro q i
    unfold ownedBy
    rw [hgeom.eq_area_nslabs]
  refine ⟨?_, ?_, ?_, ?_, ?_, ?_, ?_, ?_, ?_, ?_, ?_, ?_, ?_, ?_⟩
  · rw [hgeom.areas_len, hgeom.eq_nareas]
    exact hInv.areas_len
  · rw [hgeom.slots_len, hgeom.eq_nslabs]
    exact hInv.slots_len
  · rw [hgeom.bitmap_len, hgeom.eq_nslabs]
    exact hInv.bitmap_len
  · rw [hgeom.eq_nareas]
    exact hInv.nareas_pos
  · rw [hgeom.eq_nslabs, hgeom.eq_nareas, hgeom.eq_area_nslabs]
    exact hInv.geom
  · rw [hgeom.eq_area_nslabs]
    exact hInv.seg_dvd
  · rw [hgeom.eq_nslabs]
    exact hInv.nslabs_lt
  · intro q hq i hi
    rw [howned]
    rw [hgeom.eq_nareas] at hq
    by_cases hqj : q = j
    · subst hqj
      exact hfo i hi
    · rw [hne q hqj] at hi
      exact hInv.free_owned q hq i hi
  · intro q hq i hi
    rw [howned]
    rw [hgeom.eq_nareas] at hq
    by_cases hqj : q = j
    · subst hqj
      exact hoo i hi
    · rw [hne q hqj] at hi
      exact hInv.other_owned q hq i hi
  · intro q hq
    rw [hgeom.eq_nareas] at hq
    by_cases hqj : q = j
    · subst hqj
      exact hfnd
    · rw [hne q hqj]
      exact hInv.free_nodup q hq
  · intro q hq
    rw [hgeom.eq_nareas] at hq
    by_cases hqj : q = j
    · subst hqj
      exact hond
    · rw [hne q hqj]
      exact hInv.other_nodup q hq
  · intro q hq i hi
    rw [hgeom.eq_nareas] at hq
    by_cases hqj : q = j
    · subst hqj
      exact hdisj i hi
    · rw [hne q hqj] at hi ⊢
      exact hInv.free_other_disj q hq i hi
  · intro q hq i hi
    rw [howned] at hi
    rw [hgeom.eq_nareas] at hq
    by_cases hqj : q = j
    · subst hqj
      exact hbif i hi
    · rw [hne q hqj]
      rw [hbit_unowned i (fun hc => hqj (ownedBy_unique hi hc))]
      exact hInv.bit_iff_free q hq i hi
  · intro q hq
    rw [hgeom.eq_nareas] at hq
    rw [hgeom.eq_area_nslabs]
    by_cases hqj : q = j
    · subst hqj
      exact hcons
    · rw [hne q hqj]
      exact hInv.conservation q hq

theorem do_find_slots_inv (dev : Device) (mem : IoTlbMem) (j orig alloc align : Nat)
    (hInv : Inv mem) :
    Inv (swiotlb_do_find_slots dev mem j orig alloc align).2 := by
  rcases hres : swiotlb_do_find_slots dev mem j orig alloc align with ⟨res, m'⟩
  rcases res with - | idx
  · rw [do_find_slots_none_snd hres]
    exact hInv
  · obtain ⟨hmem, hfits, hm'⟩ := do_find_slots_some_inv hres
    show Inv m'
    set n := nr_slots alloc % U32_MOD with hn
    set off := swiotlb_align_offset dev orig with hoff
    -- the area index is in range, since its free list is nonempty
    have hj : j < mem.nareas := by
      by_contra hc
      rw [hInv.area_default (by omega)] at hmem
      exact absurd hmem (List.not_mem_nil _)
    have hown : ownedBy mem j idx := hInv.free_owned j hj idx hmem
    obtain ⟨-, -, -, hseg, -, hAllFree⟩ := slotFits_unpack hfits
    rw [io_tlb_offset_eq] at hseg
    have hownk : ∀ k < n, ownedBy mem j (idx + k) := by
      intro k hk
      exact owned_of_seg hInv hown hseg hk
    have hfreek : ∀ k < n, idx + k ∈ (mem.area j).free_slots := by
      intro k hk
      exact (hInv.bit_iff_free j hj (idx + k) (hownk k hk)).1 (hAllFree k hk)
    have hnotherk : ∀ k < n, idx + k ∉ (mem.area j).free_slots_from_other_cpu := by
      intro k hk
      exact hInv.free_other_disj j hj (idx + k) (hfreek k hk)
    have hnle : n ≤ (mem.area j).free_slots.length := by
      refine le_length_of_Ico_subset (s := idx) (n := n) (hInv.free_nodup j hj) ?_
      intro x hx1 hx2
      have : x = idx + (x - idx) := by omega
      rw [this]
      exact hfreek (x - idx) (by omega)
    set mc := claimLoop j alloc off idx n mem with hmc
    have hgeom_mc : SameGeom mem mc := claimLoop_sameGeom j alloc off idx n mem
    have hjlen : j < mc.areas.length := by
      rw [hgeom_mc.areas_len, hInv.areas_len]
      omega
    have hup : m'.area j = ⟨u64add ((mem.area j).used) n,
        (mc.area j).free_slots, (mc.area j).free_slots_from_other_cpu⟩ := by
      rw [hm', updateArea_area, if_pos ⟨rfl, hjlen⟩]
      show (⟨u64add ((mc.area j).used) n, (mc.area j).free_slots,
        (mc.area j).free_slots_from_other_cpu⟩ : IoTlbArea) = _
      rw [claimLoop_used]
    have hbitm' : ∀ i, m'.bit i = mc.bit i := by
      intro i
      rw [hm']
      rfl
    have hgeom' : SameGeom mem m' := by
      rw [hm']
      exact SameGeom.trans hgeom_mc (updateArea_sameGeom mc j _)
    have hfree_mc : (mc.area j).free_slots
        = (mem.area j).free_slots.filter (fun x => decide (x < idx ∨ idx + n ≤ x)) :=
      claimLoop_free j alloc off idx n mem (hInv.free_nodup j hj)
    have hother_mc : (mc.area j).free_slots_from_other_cpu
        = (mem.area j).free_slots_from_other_cpu.filter
            (fun x => decide (x < idx ∨ idx + n ≤ x)) :=
      claimLoop_other j alloc off idx n mem (hInv.other_nodup j hj)
    have hbit_mc : ∀ i, mc.bit i = if idx ≤ i ∧ i < idx + n then false else mem.bit i :=
      claimLoop_bit j alloc off idx n mem
    -- length bookkeeping for the conservation clause
    have hsplit := length_filter_add_length_filter_not
      (fun x => decide (x < idx ∨ idx + n ≤ x)) (mem.area j).free_slots
    have hremoved : ((mem.area j).free_slots.filter
        (fun x => !(decide (x < idx ∨ idx + n ≤ x)))).length = n := by
      refine length_of_mem_iff_Ico (s := idx) (n := n)
        (List.Nodup.filter _ (hInv.free_nodup j hj)) ?_
      intro x
      rw [List.mem_filter]
      constructor
      · rintro ⟨-, hp⟩
        simp only [Bool.not_eq_eq_eq_not, Bool.not_true, decide_eq_false_iff_not] at hp
        omega
      · rintro ⟨hx1, hx2⟩
        refine ⟨?_, ?_⟩
        · have : x = idx + (x - idx) := by omega
          rw [this]
          exact hfreek (x - idx) (by omega)
        · simp only [Bool.not_eq_eq_eq_not, Bool.not_true, decide_eq_false_iff_not]
          omega
    have hused_eq : u64add ((mem.area j).used) n = (mem.area j).used + n := by
      refine u64add_eq ?_
      have h1 := hInv.conservation j hj
      have h2 := hInv.anslabs_le
      have h3 := hInv.nslabs_lt
      omega
    refine inv_area_update hInv hj hgeom' ?_ ?_ ?_ ?_ ?_ ?_ ?_ ?_ ?_
    · -- areas other than j are untouched
      intro j' hj'
      rw [hm', updateArea_area, if_neg (by intro hc; exact hj' hc.1.symm)]
      exact claimLoop_area_ne j alloc off idx n mem hj'
    · -- bits outside area j's owned range are untouched
      intro i hno
      rw [hbitm', hbit_mc]
      rw [if_neg (by
        intro hc
        exact hno (by
          have : i = idx + (i - idx) := by omega
          rw [this]
          exact hownk (i - idx) (by omega)))]
    · intro i hi
      rw [hup] at hi
      have : i ∈ (mem.area j).free_slots := by
        rw [hfree_mc] at hi
        exact (List.mem_filter.1 hi).1
      exact hInv.free_owned j hj i this
    · intro i hi
      rw [hup] at hi
      have : i ∈ (mem.area j).free_slots_from_other_cpu := by
        rw [hother_mc] at hi
        exact (List.mem_filter.1 hi).1
      exact hInv.other_owned j hj i this
    · rw [hup]
      show ((mc.area j).free_slots).Nodup
      rw [hfree_mc]
      exact List.Nodup.filter _ (hInv.free_nodup j hj)
    · rw [hup]
      show ((mc.area j).free_slots_from_other_cpu).Nodup
      rw [hother_mc]
      exact List.Nodup.filter _ (hInv.other_nodup j hj)
    · intro i hi
      rw [hup] at hi ⊢
      show i ∉ (mc.area j).free_slots_from_other_cpu
      rw [hother_mc]
      rw [hfree_mc] at hi
      intro hc
      exact hInv.free_other_disj j hj i (List.mem_filter.1 hi).1 (List.mem_filter.1 hc).1
    · intro i hi
      rw [hbitm', hbit_mc, hup]
      show _ ↔ i ∈ (mc.area j).free_slots
      rw [hfree_mc]
      by_cases hir : idx ≤ i ∧ i < idx + n
      · rw [if_pos hir]
        constructor
        · intro hc
          exact Bool.noConfusion hc
        · intro hc
          have := (List.mem_filter.1 hc).2
          simp only [decide_eq_true_eq] at this
          omega
      · rw [if_neg hir]
        rw [hInv.bit_iff_free j hj i hi]
        constructor
        · intro hc
          rw [List.mem_filter]
          exact ⟨hc, by simp only [decide_eq_true_eq]; omega⟩
        · intro hc
          exact (List.mem_filter.1 hc).1
    · rw [hup]
      show u64add ((mem.area j).used) n + ((mc.area j).free_slots).length = _
      rw [hused_eq, hfree_mc]
      have := hInv.conservation j hj
      omega

theorem filter_not_contains_self {L : List Nat} :
    L.filter (fun x => !(L.contains x)) = [] := by
  rw [List.filter_eq_nil_iff]
  intro x hx
  simp [hx]

theorem reclaimArea_inv (mem : IoTlbMem) (j : Nat) (hInv : Inv mem) :
    Inv (reclaimArea mem j) := by
  by_cases hj : j < mem.nareas
  · unfold reclaimArea
    set L := (mem.area j).free_slots_from_other_cpu with hL
    have hjlen : j < mem.areas.length := by rw [hInv.areas_len]; omega
    have hnd : L.Nodup := hInv.other_nodup j hj
    have hLowned : ∀ x ∈ L, ownedBy mem j x := hInv.other_owned j hj
    have hLdisj : ∀ x ∈ L, x ∉ (mem.area j).free_slots := by
      intro x hx hc
      exact hInv.free_other_disj j hj x hc hx
    have hLbit : ∀ x ∈ L, x < mem.bitmap.length := by
      intro x hx
      rw [hInv.bitmap_len]
      exact ownedBy_lt_nslabs hInv hj (hLowned x hx)
    have hLle : L.length ≤ (mem.area j).used := by
      have hnd2 : ((mem.area j).free_slots ++ L).Nodup := by
        rw [List.nodup_append]
        exact ⟨hInv.free_nodup j hj, hnd, fun a ha => hInv.free_other_disj j hj a ha⟩
      have hsum : (mem.area j).free_slots.length + L.length ≤ mem.area_nslabs := by
        have := length_le_of_mem_Ico (s := j * mem.area_nslabs) (n := mem.area_nslabs)
          hnd2 (by
            intro x hx
            rcases List.mem_append.1 hx with h | h
            · exact (ownedBy_iff mem j x).1 (hInv.free_owned j hj x h)
            · exact (ownedBy_iff mem j x).1 (hLowned x h))
        simpa using this
      have := hInv.conservation j hj
      omega
    set m' := L.foldl (reclaimStep j) mem with hm'
    have hgeom : SameGeom mem m' := reclaimFold_sameGeom j L mem
    have hfree' : (m'.area j).free_slots = L.reverse ++ (mem.area j).free_slots :=
      reclaimFold_free j L mem hjlen hnd hLdisj
    have hother' : (m'.area j).free_slots_from_other_cpu = [] := by
      rw [reclaimFold_other j L mem hjlen (hInv.other_nodup j hj), ← hL]
      exact filter_not_contains_self
    have hused' : (m'.area j).used = (mem.area j).used - L.length :=
      reclaimFold_used j L mem hjlen hLle (hInv.used_lt hj)
    have hbit' : ∀ i, m'.bit i = if i ∈ L then true else mem.bit i :=
      reclaimFold_bit j L mem hLbit
    refine inv_area_update hInv hj hgeom ?_ ?_ ?_ ?_ ?_ ?_ ?_ ?_ ?_
    · intro j' hj'
      exact reclaimFold_area_ne j L mem hj'
    · intro i hno
      rw [hbit']
      rw [if_neg (fun hc => hno (hLowned i hc))]
    · intro i hi
      rw [hfree'] at hi
      rcases List.mem_append.1 hi with h | h
      · exact hLowned i (List.mem_reverse.1 h)
      · exact hInv.free_owned j hj i h
    · intro i hi
      rw [hother'] at hi
      exact absurd hi (List.not_mem_nil _)
    · rw [hfree', List.nodup_append]
      refine ⟨List.nodup_reverse.2 hnd, hInv.free_nodup j hj, ?_⟩
      intro a ha
      exact hLdisj a (List.mem_reverse.1 ha)
    · rw [hother']
      exact List.nodup_nil
    · intro i hi
      rw [hother']
      exact List.not_mem_nil _
    · intro i hi
      rw [hbit', hfree']
      by_cases hiL : i ∈ L
      · rw [if_pos hiL]
        constructor
        · rintro -
          exact List.mem_append.2 (Or.inl (List.mem_reverse.2 hiL))
        · rintro -
          rfl
      · rw [if_neg hiL]
        rw [hInv.bit_iff_free j hj i hi]
        constructor
        · intro hc
          exact List.mem_append.2 (Or.inr hc)
        · intro hc
          rcases List.mem_append.1 hc with h | h
          · exact absurd (List.mem_reverse.1 h) hiL
          · exact h
    · rw [hused', hfree']
      have h1 := hInv.conservation j hj
      simp only [List.length_append, List.length_reverse]
      omega
  · show Inv ((mem.area j).free_slots_from_other_cpu.foldl (reclaimStep j) mem)
    rw [hInv.area_default (by omega)]
    exact hInv

/-! ### Operation traces -/

/-- Validity of a release request: the bounce address designates a live
allocated run (as the release-extent computation reconstructs it) whose
units are all marked allocated and sit on no free list.  Releasing
anything else is the caller bug (double free, bogus address) that the
design document declares undefined behaviour. -/
def validRelease (dev : Device) (mem : IoTlbMem) (tlb_addr : Nat) : Bool :=
  let offset := swiotlb_align_offset dev tlb_addr
  decide (tlb_addr < U64_MOD) &&
  decide (offset ≤ tlb_addr) &&
  decide (mem.start ≤ tlb_addr - offset) &&
  (let index := (tlb_addr - offset - mem.start) / IO_TLB_SIZE
   let nslots := nr_slots ((mem.slot index).alloc_size + offset)
   decide ((mem.slot index).alloc_size + offset + IO_TLB_SIZE ≤ U64_MOD) &&
   decide (1 ≤ nslots) &&
   decide (index + nslots ≤ mem.nslabs) &&
   decide (index % mem.area_nslabs + nslots ≤ mem.area_nslabs) &&
   (List.range nslots).all (fun k => !(mem.bit (index + k))) &&
   (List.range mem.nareas).all (fun j =>
     (List.range nslots).all (fun k =>
       !((mem.area j).free_slots.contains (index + k)) &&
       !((mem.area j).free_slots_from_other_cpu.contains (index + k)))))

/-- One allocator operation of a trace. -/
inductive TlbOp where
  | mapOp (dev : Device) (orig_addr mapping_size alloc_size alloc_align_mask : Nat)
      (dir : DmaDir) (cpu : Nat)
  | unmapOp (dev : Device) (tlb_addr mapping_size : Nat) (dir : DmaDir)
      (skip_cpu_sync : Bool) (cpu : Nat)
  | allocOp (dev : Device) (size cpu : Nat)
deriving DecidableEq, Repr

/-- The pool-state effect of one operation. -/
def applyOp (lockless : Bool) (mem : IoTlbMem) : TlbOp → IoTlbMem
  | .mapOp dev orig mapping alloc align dir cpu =>
      (swiotlb_tbl_map_single_mem lockless dev mem orig mapping alloc align dir cpu).mem
  | .unmapOp dev tlb mapping dir skip cpu =>
      (swiotlb_tbl_unmap_single lockless dev mem tlb mapping dir skip cpu).2
  | .allocOp dev size cpu =>
      (swiotlb_alloc_mem lockless dev mem size cpu).2

/-- An operation is valid in a state when a release targets a live
allocation; allocation requests are always valid (a failed search is a
normal outcome). -/
def validOp (mem : IoTlbMem) : TlbOp → Bool
  | .mapOp _ _ _ _ _ _ _ => true
  | .unmapOp dev tlb _ _ _ _ => validRelease dev mem tlb
  | .allocOp _ _ _ => true

/-- A trace is valid when every operation is valid in the state it runs in. -/
def validTrace (lockless : Bool) (mem : IoTlbMem) : List TlbOp → Bool
  | [] => true
  | op :: ops => validOp mem op && validTrace lockless (applyOp lockless mem op) ops

/-- Operations covered by the bitmap/metadata-agreement claim: mapping
operations with a sane original-buffer range (the staged per-unit
addresses neither wrap around nor collide with the free sentinel, and the
unit count does not truncate) and unmap operations; `swiotlb_alloc` is
excluded, because it never writes the slots' `orig_addr`. -/
def origSafeOp : TlbOp → Bool
  | .mapOp dev orig _ alloc _ _ _ =>
      decide (0 < alloc) &&
      decide (orig + alloc + 2 * IO_TLB_SIZE < U64_MOD) &&
      decide (nr_slots (alloc + swiotlb_align_offset dev orig) < U32_MOD)
  | .unmapOp _ _ _ _ _ _ => true
  | .allocOp _ _ _ => false

/-- Bitmap/metadata agreement at one unit: the unit's bitmap bit is set
exactly when its `orig_addr` is the free sentinel. -/
def OrigOk (m : IoTlbMem) (i : Nat) : Prop :=
  m.bit i = true ↔ (m.slot i).orig_addr = INVALID_PHYS_ADDR

/-- Bitmap/metadata agreement over the whole pool. -/
def OrigAgree (m : IoTlbMem) : Prop := ∀ i < m.nslabs, OrigOk m i

/-! ### Release preservation -/

theorem validRelease_unpack {dev : Device} {mem : IoTlbMem} {tlb_addr : Nat}
    (h : validRelease dev mem tlb_addr = true) :
    tlb_addr < U64_MOD ∧
    swiotlb_align_offset dev tlb_addr ≤ tlb_addr ∧
    mem.start ≤ tlb_addr - swiotlb_align_offset dev tlb_addr ∧
    ((mem.slot ((tlb_addr - swiotlb_align_offset dev tlb_addr - mem.start) / IO_TLB_SIZE)).alloc_size
        + swiotlb_align_offset dev tlb_addr + IO_TLB_SIZE ≤ U64_MOD) ∧
    (let offset := swiotlb_align_offset dev tlb_addr
     let index := (tlb_addr - offset - mem.start) / IO_TLB_SIZE
     let nslots := nr_slots ((mem.slot index).alloc_size + offset)
     1 ≤ nslots ∧
     index + nslots ≤ mem.nslabs ∧
     index % mem.area_nslabs + nslots ≤ mem.area_nslabs ∧
     (∀ k < nslots, mem.bit (index + k) = false) ∧
     (∀ j < mem.nareas, ∀ k < nslots,
        (index + k) ∉ (mem.area j).free_slots ∧
        (index + k) ∉ (mem.area j).free_slots_from_other_cpu)) := by
  unfold validRelease at h
  simp only [Bool.and_eq_true, decide_eq_true_eq, List.all_eq_true, List.mem_range,
    Bool.not_eq_true', Bool.not_eq_true] at h
  obtain ⟨⟨⟨h1, h2⟩, h3⟩, ⟨⟨⟨⟨⟨h4, h5⟩, h6⟩, h7⟩, h8⟩, h9⟩⟩ := h
  refine ⟨h1, h2, h3, h4, h5, h6, h7, ?_, ?_⟩
  · intro k hk
    exact h8 k hk
  · intro j hj k hk
    have hcc := h9 j hj k hk
    constructor
    · intro hc
      have hct : (mem.area j).free_slots.contains
          ((tlb_addr - swiotlb_align_offset dev tlb_addr - mem.start) / IO_TLB_SIZE + k) = true := by
        simpa using hc
      rw [hcc.1] at hct
      exact Bool.noConfusion hct
    · intro hc
      have hct : (mem.area j).free_slots_from_other_cpu.contains
          ((tlb_addr - swiotlb_align_offset dev tlb_addr - mem.start) / IO_TLB_SIZE + k) = true := by
        simpa using hc
      rw [hcc.2] at hct
      exact Bool.noConfusion hct

theorem release_index_eq {dev : Device} {mem : IoTlbMem} {tlb_addr : Nat}
    (h1 : tlb_addr < U64_MOD)
    (h2 : swiotlb_align_offset dev tlb_addr ≤ tlb_addr)
    (h3 : mem.start ≤ tlb_addr - swiotlb_align_offset dev tlb_addr) :
    u64sub (u64sub tlb_addr (swiotlb_align_offset dev tlb_addr)) mem.start
      = tlb_addr - swiotlb_align_offset dev tlb_addr - mem.start := by
  rw [u64sub_eq h2 h1, u64sub_eq h3 (by omega)]

theorem owned_run (mem : IoTlbMem) {index nslots : Nat}
    (hn3 : index % mem.area_nslabs + nslots ≤ mem.area_nslabs)
    {k : Nat} (hk : k < nslots) :
    ownedBy mem (index / mem.area_nslabs) (index + k) := by
  rw [ownedBy_iff]
  have hd := Nat.div_add_mod index mem.area_nslabs
  rw [Nat.mul_comm (index / mem.area_nslabs) mem.area_nslabs]
  omega

theorem release_slots_eq (lockless : Bool) (dev : Device) (mem : IoTlbMem)
    (tlb_addr cpu : Nat)
    (h1 : tlb_addr < U64_MOD)
    (h2 : swiotlb_align_offset dev tlb_addr ≤ tlb_addr)
    (h3 : mem.start ≤ tlb_addr - swiotlb_align_offset dev tlb_addr) :
    swiotlb_release_slots lockless dev mem tlb_addr cpu
      = (if lockless && !(decide ((tlb_addr - swiotlb_align_offset dev tlb_addr - mem.start)
              / IO_TLB_SIZE / mem.area_nslabs = cpu &&& (mem.nareas - 1)))
         then queueOtherCpuLoop
            ((tlb_addr - swiotlb_align_offset dev tlb_addr - mem.start) / IO_TLB_SIZE
              / mem.area_nslabs)
            ((tlb_addr - swiotlb_align_offset dev tlb_addr - mem.start) / IO_TLB_SIZE)
            (nr_slots ((mem.slot ((tlb_addr - swiotlb_align_offset dev tlb_addr - mem.start)
                / IO_TLB_SIZE)).alloc_size + swiotlb_align_offset dev tlb_addr))
            mem
         else (releaseLoop
            ((tlb_addr - swiotlb_align_offset dev tlb_addr - mem.start) / IO_TLB_SIZE
              / mem.area_nslabs)
            ((tlb_addr - swiotlb_align_offset dev tlb_addr - mem.start) / IO_TLB_SIZE)
            (nr_slots ((mem.slot ((tlb_addr - swiotlb_align_offset dev tlb_addr - mem.start)
                / IO_TLB_SIZE)).alloc_size + swiotlb_align_offset dev tlb_addr))
            mem).updateArea
            ((tlb_addr - swiotlb_align_offset dev tlb_addr - mem.start) / IO_TLB_SIZE
              / mem.area_nslabs)
            (fun a => { a with used := u64sub a.used (nr_slots ((mem.slot ((tlb_addr - swiotlb_align_offset dev tlb_addr - mem.start) / IO_TLB_SIZE)).alloc_size + swiotlb_align_offset dev tlb_addr)) })) := by
  simp only [swiotlb_release_slots]
  rw [release_index_eq h1 h2 h3]

theorem release_slots_inv (lockless : Bool) (dev : Device) (mem : IoTlbMem)
    (tlb_addr cpu : Nat) (hInv : Inv mem)
    (hv : validRelease dev mem tlb_addr = true) :
    Inv (swiotlb_release_slots lockless dev mem tlb_addr cpu) := by
  obtain ⟨h1, h2, h3, h4, hrest⟩ := validRelease_unpack hv
  obtain ⟨hn1, hn2, hn3, hbits, hlists⟩ := hrest
  rw [release_slots_eq lockless dev mem tlb_addr cpu h1 h2 h3]
  set offset := swiotlb_align_offset dev tlb_addr with hoffset
  set index := (tlb_addr - offset - mem.start) / IO_TLB_SIZE with hindex
  set nslots := nr_slots ((mem.slot index).alloc_size + offset) with hnslots
  set aindex := index / mem.area_nslabs with haindex
  clear_value aindex nslots index offset
  have hA : 0 < mem.area_nslabs := by
    by_contra hc
    have hA0 : mem.area_nslabs = 0 := by omega
    rw [hA0] at hn3
    rw [Nat.mod_zero] at hn3
    omega
  have hidxlt : index < mem.nslabs := by omega
  have haj : aindex < mem.nareas := by
    rw [haindex, Nat.div_lt_iff_lt_mul hA]
    have hg := hInv.geom
    omega
  have hownk : ∀ k < nslots, ownedBy mem aindex (index + k) := by
    intro k hk
    rw [haindex]
    exact owned_run mem hn3 hk
  have hjlen : aindex < mem.areas.length := by
    rw [hInv.areas_len]
    omega
  have hbnd : index + nslots ≤ mem.bitmap.length := by
    rw [hInv.bitmap_len]
    omega
  have hnot_free : ∀ k < nslots, (index + k) ∉ (mem.area aindex).free_slots := by
    intro k hk
    exact (hlists aindex haj k hk).1
  have hnot_other : ∀ k < nslots,
      (index + k) ∉ (mem.area aindex).free_slots_from_other_cpu := by
    intro k hk
    exact (hlists aindex haj k hk).2
  have hrange_mem : ∀ x, x ∈ List.range' index nslots ↔ index ≤ x ∧ x < index + nslots := by
    intro x
    exact List.mem_range'_1
  have hrange_nodup : (List.range' index nslots).Nodup := List.nodup_range' index nslots
  -- the used count can absorb the release
  have hfree_plus : (mem.area aindex).free_slots.length + nslots ≤ mem.area_nslabs := by
    have hnd2 : ((mem.area aindex).free_slots ++ List.range' index nslots).Nodup := by
      rw [List.nodup_append]
      refine ⟨hInv.free_nodup aindex haj, hrange_nodup, ?_⟩
      intro a ha hb
      rw [hrange_mem] at hb
      have : a = index + (a - index) := by omega
      rw [this] at ha
      exact hnot_free (a - index) (by omega) ha
    have := length_le_of_mem_Ico (s := aindex * mem.area_nslabs) (n := mem.area_nslabs)
      hnd2 (by
        intro x hx
        rcases List.mem_append.1 hx with h | h
        · exact (ownedBy_iff mem aindex x).1 (hInv.free_owned aindex haj x h)
        · rw [hrange_mem] at h
          have hx2 : x = index + (x - index) := by omega
          rw [hx2]
          exact (ownedBy_iff mem aindex (index + (x - index))).1
            (hownk (x - index) (by omega)))
    simp only [List.length_append, List.length_range'] at this
    omega
  have husedlt := hInv.used_lt haj
  have hused_ge : nslots ≤ (mem.area aindex).used := by
    have := hInv.conservation aindex haj
    omega
  by_cases hpath : lockless && !(decide (aindex = cpu &&& (mem.nareas - 1)))
  · rw [if_pos hpath]
    -- cross-CPU queueing path: units go to the other-CPU list, used
    -- count and bitmap untouched
    have hother' := queueLoop_other aindex index nslots mem hjlen
    have hfree' := queueLoop_free aindex index nslots mem
    have hused' := queueLoop_used aindex index nslots mem
    have hbit' : ∀ i, (queueOtherCpuLoop aindex index nslots mem).bit i = mem.bit i := by
      intro i
      unfold IoTlbMem.bit
      rw [queueLoop_bitmap]
    refine inv_area_update hInv haj (queueLoop_sameGeom aindex index nslots mem) ?_ ?_ ?_ ?_ ?_ ?_ ?_ ?_ ?_
    · intro j' hj'
      exact queueLoop_area_ne aindex index nslots mem hj'
    · intro i hno
      exact hbit' i
    · intro i hi
      rw [hfree'] at hi
      exact hInv.free_owned aindex haj i hi
    · intro i hi
      rw [hother'] at hi
      rcases List.mem_append.1 hi with h | h
      · rw [hrange_mem] at h
        have : i = index + (i - index) := by omega
        rw [this]
        exact hownk (i - index) (by omega)
      · exact hInv.other_owned aindex haj i h
    · rw [hfree']
      exact hInv.free_nodup aindex haj
    · rw [hother', List.nodup_append]
      refine ⟨hrange_nodup, hInv.other_nodup aindex haj, ?_⟩
      intro a ha hb
      rw [hrange_mem] at ha
      have : a = index + (a - index) := by omega
      rw [this] at hb
      exact hnot_other (a - index) (by omega) hb
    · intro i hi
      rw [hfree'] at hi
      rw [hother']
      intro hc
      rcases List.mem_append.1 hc with h | h
      · rw [hrange_mem] at h
        have : i = index + (i - index) := by omega
        rw [this] at hi
        exact hnot_free (i - index) (by omega) hi
      · exact hInv.free_other_disj aindex haj i hi h
    · intro i hi
      rw [hbit', hfree']
      exact hInv.bit_iff_free aindex haj i hi
    · rw [hfree', hused']
      exact hInv.conservation aindex haj
  · rw [if_neg hpath]
    -- owner-CPU release path
    set mr := releaseLoop aindex index nslots mem with hmr
    have hgeom_mr : SameGeom mem mr := releaseLoop_sameGeom aindex index nslots mem
    have hjlen' : aindex < mr.areas.length := by
      rw [hgeom_mr.areas_len]
      omega
    have hup : ((mr.updateArea aindex
        (fun a => { a with used := u64sub a.used nslots })).area aindex)
        = ⟨u64sub ((mem.area aindex).used) nslots, (mr.area aindex).free_slots,
           (mr.area aindex).free_slots_from_other_cpu⟩ := by
      rw [updateArea_area, if_pos ⟨rfl, hjlen'⟩]
      show (⟨u64sub ((mr.area aindex).used) nslots, (mr.area aindex).free_slots,
        (mr.area aindex).free_slots_from_other_cpu⟩ : IoTlbArea) = _
      rw [releaseLoop_used]
    have hbitm' : ∀ i, (mr.updateArea aindex
        (fun a => { a with used := u64sub a.used nslots })).bit i = mr.bit i := by
      intro i
      rfl
    have hfree' := releaseLoop_free aindex index nslots mem hjlen
    have hother' := releaseLoop_other aindex index nslots mem aindex
    have hbit' := releaseLoop_bit aindex index nslots mem hbnd
    have hused_eq : u64sub ((mem.area aindex).used) nslots
        = (mem.area aindex).used - nslots := u64sub_eq hused_ge husedlt
    refine inv_area_update hInv haj
      (SameGeom.trans hgeom_mr (updateArea_sameGeom mr aindex _)) ?_ ?_ ?_ ?_ ?_ ?_ ?_ ?_ ?_
    · intro j' hj'
      rw [updateArea_area, if_neg (by intro hc; exact hj' hc.1.symm)]
      exact releaseLoop_area_ne aindex index nslots mem hj'
    · intro i hno
      rw [hbitm', hbit']
      rw [if_neg (by
        intro hc
        exact hno (by
          have : i = index + (i - index) := by omega
          rw [this]
          exact hownk (i - index) (by omega)))]
    · intro i hi
      rw [hup] at hi
      show ownedBy mem aindex i
      rw [hfree'] at hi
      rcases List.mem_append.1 hi with h | h
      · rw [hrange_mem] at h
        have : i = index + (i - index) := by omega
        rw [this]
        exact hownk (i - index) (by omega)
      · exact hInv.free_owned aindex haj i h
    · intro i hi
      rw [hup] at hi
      show ownedBy mem aindex i
      rw [hother'] at hi
      exact hInv.other_owned aindex haj i hi
    · rw [hup]
      show ((mr.area aindex).free_slots).Nodup
      rw [hfree', List.nodup_append]
      refine ⟨hrange_nodup, hInv.free_nodup aindex haj, ?_⟩
      intro a ha hb
      rw [hrange_mem] at ha
      have : a = index + (a - index) := by omega
      rw [this] at hb
      exact hnot_free (a - index) (by omega) hb
    · rw [hup]
      show ((mr.area aindex).free_slots_from_other_cpu).Nodup
      rw [hother']
      exact hInv.other_nodup aindex haj
    · intro i hi
      rw [hup] at hi ⊢
      show i ∉ (mr.area aindex).free_slots_from_other_cpu
      rw [hother']
      rw [hfree'] at hi
      rcases List.mem_append.1 hi with h | h
      · rw [hrange_mem] at h
        have : i = index + (i - index) := by omega
        rw [this]
        exact hnot_other (i - index) (by omega)
      · exact hInv.free_other_disj aindex haj i h
    · intro i hi
      rw [hbitm', hbit', hup]
      show _ ↔ i ∈ (mr.area aindex).free_slots
      rw [hfree']
      by_cases hir : index ≤ i ∧ i < index + nslots
      · rw [if_pos hir]
        constructor
        · rintro -
          exact List.mem_append.2 (Or.inl ((hrange_mem i).2 hir))
        · rintro -
          rfl
      · rw [if_neg hir]
        rw [hInv.bit_iff_free aindex haj i hi]
        constructor
        · intro hc
          exact List.mem_append.2 (Or.inr hc)
        · intro hc
          rcases List.mem_append.1 hc with h | h
          · rw [hrange_mem] at h
            omega
          · exact h
    · rw [hup]
      show u64sub ((mem.area aindex).used) nslots + ((mr.area aindex).free_slots).length = _
      rw [hused_eq, hfree']
      have := hInv.conservation aindex haj
      simp only [List.length_append, List.length_range']
      omega

/-! ### Invariant preservation through search, map, release and traces -/

theorem find_slots_lockless_eq (dev : Device) (mem : IoTlbMem)
    (cpu orig alloc align : Nat) :
    swiotlb_find_slots_lockless dev mem cpu orig alloc align
      = (match swiotlb_do_find_slots dev mem (cpu &&& (mem.nareas - 1)) orig alloc align with
        | (some index, m') => (some index, m')
        | (none, _) => swiotlb_do_find_slots dev (reclaimArea mem (cpu &&& (mem.nareas - 1)))
            (cpu &&& (mem.nareas - 1)) orig alloc align) := rfl

theorem find_slots_lockless_inv (dev : Device) (mem : IoTlbMem)
    (cpu orig alloc align : Nat) (hInv : Inv mem) :
    Inv (swiotlb_find_slots_lockless dev mem cpu orig alloc align).2 := by
  rw [find_slots_lockless_eq]
  rcases h1 : swiotlb_do_find_slots dev mem (cpu &&& (mem.nareas - 1)) orig alloc align
    with ⟨res, m1⟩
  rcases res with - | idx
  · exact do_find_slots_inv _ _ _ _ _ _ (reclaimArea_inv mem _ hInv)
  · have h2 := do_find_slots_inv dev mem (cpu &&& (mem.nareas - 1)) orig alloc align hInv
    rw [h1] at h2
    exact h2

theorem tryAreas_inv (dev : Device) (mem : IoTlbMem) (orig alloc align : Nat)
    (L : List Nat) (hInv : Inv mem) :
    Inv (tryAreas dev mem orig alloc align L).2 := by
  induction L with
  | nil => exact hInv
  | cons j rest ih =>
      rcases h1 : swiotlb_do_find_slots dev mem j orig alloc align with ⟨res, m1⟩
      unfold tryAreas
      rw [h1]
      rcases res with - | idx
      · exact ih
      · have h2 := do_find_slots_inv dev mem j orig alloc align hInv
        rw [h1] at h2
        exact h2

theorem find_slots_inv (lockless : Bool) (dev : Device) (mem : IoTlbMem)
    (cpu orig alloc align : Nat) (hInv : Inv mem) :
    Inv (swiotlb_find_slots lockless dev mem cpu orig alloc align).2 := by
  unfold swiotlb_find_slots
  by_cases hl : lockless
  · rw [if_pos hl]
    exact find_slots_lockless_inv dev mem cpu orig alloc align hInv
  · rw [if_neg hl]
    exact tryAreas_inv dev mem orig alloc align _ hInv

theorem origLoop_inv (orig idx n : Nat) (m : IoTlbMem) (hInv : Inv m) :
    Inv (origLoop orig idx n m) := by
  refine inv_of_eq_parts hInv (origLoop_bitmap orig idx n m) (origLoop_areas orig idx n m)
    (origLoop_sameGeom orig idx n m).slots_len ?_ ?_ ?_ ?_
  · exact (origLoop_sameGeom orig idx n m).eq_start
  · exact (origLoop_sameGeom orig idx n m).eq_nslabs
  · exact (origLoop_sameGeom orig idx n m).eq_nareas
  · exact (origLoop_sameGeom orig idx n m).eq_area_nslabs

theorem map_single_mem_inv (lockless : Bool) (dev : Device) (mem : IoTlbMem)
    (orig mapping alloc align : Nat) (dir : DmaDir) (cpu : Nat) (hInv : Inv mem) :
    Inv (swiotlb_tbl_map_single_mem lockless dev mem orig mapping alloc align dir cpu).mem := by
  unfold swiotlb_tbl_map_single_mem
  by_cases h0 : mem.nslabs = 0
  · rw [if_pos h0]
    exact hInv
  · rw [if_neg h0]
    by_cases h1 : alloc < mapping
    · rw [if_pos h1]
      exact hInv
    · rw [if_neg h1]
      rcases h2 : swiotlb_find_slots lockless dev mem cpu orig
          (alloc + swiotlb_align_offset dev orig) align with ⟨res, m1⟩
      have h3 := find_slots_inv lockless dev mem cpu orig
        (alloc + swiotlb_align_offset dev orig) align hInv
      rw [h2] at h3
      rcases res with - | idx
      · exact h3
      · exact origLoop_inv orig idx _ m1 h3

theorem alloc_mem_inv (lockless : Bool) (dev : Device) (mem : IoTlbMem)
    (size cpu : Nat) (hInv : Inv mem) :
    Inv (swiotlb_alloc_mem lockless dev mem size cpu).2 := by
  unfold swiotlb_alloc_mem
  rcases h2 : swiotlb_find_slots lockless dev mem cpu 0 size 0 with ⟨res, m1⟩
  have h3 := find_slots_inv lockless dev mem cpu 0 size 0 hInv
  rw [h2] at h3
  rcases res with - | idx
  · exact h3
  · exact h3

theorem applyOp_inv (lockless : Bool) (mem : IoTlbMem) (op : TlbOp)
    (hInv : Inv mem) (hv : validOp mem op = true) :
    Inv (applyOp lockless mem op) := by
  cases op with
  | mapOp dev orig mapping alloc align dir cpu =>
      exact map_single_mem_inv lockless dev mem orig mapping alloc align dir cpu hInv
  | unmapOp dev tlb mapping dir skip cpu =>
      show Inv (swiotlb_release_slots lockless dev mem tlb cpu)
      exact release_slots_inv lockless dev mem tlb cpu hInv (by simpa [validOp] using hv)
  | allocOp dev size cpu =>
      exact alloc_mem_inv lockless dev mem size cpu hInv

theorem validTrace_inv (lockless : Bool) (ops : List TlbOp) (mem : IoTlbMem)
    (hInv : Inv mem) (hv : validTrace lockless mem ops = true) :
    Inv (ops.foldl (applyOp lockless) mem) := by
  induction ops generalizing mem with
  | nil => exact hInv
  | cons op rest ih =>
      have hv' : validOp mem op = true ∧
          validTrace lockless (applyOp lockless mem op) rest = true := by
        have : validTrace lockless mem (op :: rest)
            = (validOp mem op && validTrace lockless (applyOp lockless mem op) rest) := rfl
        rw [this, Bool.and_eq_true] at hv
        exact hv
      exact ih _ (applyOp_inv lockless mem op hInv hv'.1) hv'.2

/-! ### The invariant holds after initialization -/

theorem div_eq_iff_Ico {A i j : Nat} (hA : 0 < A) :
    i / A = j ↔ j * A ≤ i ∧ i < (j + 1) * A := by
  constructor
  · intro h
    subst h
    have hd := Nat.div_add_mod i A
    have hm := Nat.mod_lt i hA
    constructor
    · rw [Nat.mul_comm]
      omega
    · have he : (i / A + 1) * A = A * (i / A) + A := by ring
      omega
  · rintro ⟨hl, hr⟩
    exact Nat.div_eq_of_lt_le hl hr

theorem init_area (start nslabs nareas j : Nat) (hj : j < nareas) :
    (swiotlb_init_io_tlb_mem start nslabs nareas).area j
      = ⟨0, (List.range nslabs).filter (fun i => i / (nslabs / nareas) = j), []⟩ := by
  unfold swiotlb_init_io_tlb_mem IoTlbMem.area
  rw [List.getD_eq_getElem?_getD, List.getElem?_map, List.getElem?_range hj]
  rfl

theorem init_bit (start nslabs nareas i : Nat) :
    (swiotlb_init_io_tlb_mem start nslabs nareas).bit i = decide (i < nslabs) := by
  unfold swiotlb_init_io_tlb_mem IoTlbMem.bit
  by_cases h : i < nslabs
  · simp [List.getD_eq_getElem?_getD, List.getElem?_replicate, h]
  · simp only [decide_eq_false h]
    exact List.getD_eq_default _ _ (by simp [List.length_replicate]; omega)

theorem init_inv (start nslabs nareas : Nat) (h1 : 0 < nareas)
    (h2 : nslabs = nareas * (nslabs / nareas))
    (h3 : IO_TLB_SEGSIZE ∣ nslabs / nareas)
    (h4 : nslabs < U64_MOD) :
    Inv (swiotlb_init_io_tlb_mem start nslabs nareas) := by
  set A := nslabs / nareas with hA
  set m0 := swiotlb_init_io_tlb_mem start nslabs nareas with hm0
  have hanslabs : m0.area_nslabs = A := rfl
  have hnslabs : m0.nslabs = nslabs := rfl
  have hnareas : m0.nareas = nareas := rfl
  have howned : ∀ j i, ownedBy m0 j i ↔ j * A ≤ i ∧ i < (j + 1) * A := by
    intro j i
    unfold ownedBy
    rw [hanslabs]
  have hmem_free : ∀ j < nareas, ∀ x,
      x ∈ (m0.area j).free_slots ↔ (x < nslabs ∧ x / A = j) := by
    intro j hj x
    rw [hm0, init_area start nslabs nareas j hj]
    show x ∈ (List.range nslabs).filter (fun i => i / (nslabs / nareas) = j) ↔ _
    rw [List.mem_filter, List.mem_range]
    simp [hA]
  have hApos_of : ∀ j i, ownedBy m0 j i → 0 < A := by
    intro j i hoi
    rcases (howned j i).1 hoi with ⟨hl, hr⟩
    by_contra hc
    have : A = 0 := by omega
    rw [this] at hl hr
    omega
  refine ⟨?_, ?_, ?_, ?_, ?_, ?_, ?_, ?_, ?_, ?_, ?_, ?_, ?_, ?_⟩
  · show ((List.range nareas).map _).length = nareas
    simp
  · show (List.replicate nslabs (⟨INVALID_PHYS_ADDR, 0⟩ : IoTlbSlot)).length = nslabs
    simp
  · show (List.replicate nslabs true).length = nslabs
    simp
  · exact h1
  · exact h2
  · exact h3
  · exact h4
  · intro j hj i hi
    rw [hmem_free j hj i] at hi
    obtain ⟨hilt, hdiv⟩ := hi
    have hApos : 0 < A := by
      by_contra hc
      have hA0 : A = 0 := by omega
      rw [hA0, Nat.mul_zero] at h2
      omega
    rw [howned, ← hdiv]
    exact (div_eq_iff_Ico hApos).1 rfl
  · intro j hj i hi
    rw [hm0, init_area start nslabs nareas j hj] at hi
    exact absurd hi (List.not_mem_nil _)
  · intro j hj
    rw [hm0, init_area start nslabs nareas j hj]
    exact List.Nodup.filter _ (List.nodup_range nslabs)
  · intro j hj
    rw [hm0, init_area start nslabs nareas j hj]
    exact List.nodup_nil
  · intro j hj i hi
    rw [hm0, init_area start nslabs nareas j hj]
    exact List.not_mem_nil _
  · intro j hj i hi
    have hj' : j < nareas := hj
    have hApos := hApos_of j i hi
    rw [hm0, init_bit]
    rw [hmem_free j hj i]
    rcases (howned j i).1 hi with ⟨hl, hr⟩
    have hilt : i < nslabs := by
      have : (j + 1) * A ≤ nareas * A := Nat.mul_le_mul_right _ (by omega)
      omega
    constructor
    · rintro -
      exact ⟨hilt, (div_eq_iff_Ico hApos).2 ⟨hl, hr⟩⟩
    · rintro -
      exact decide_eq_true hilt
  · intro j hj
    have hj' : j < nareas := hj
    rw [hm0, init_area start nslabs nareas j hj]
    show 0 + ((List.range nslabs).filter (fun i => i / (nslabs / nareas) = j)).length = _
    rw [Nat.zero_add]
    show _ = A
    by_cases hApos : 0 < A
    · refine length_of_mem_iff_Ico (s := j * A) (n := A)
        (List.Nodup.filter _ (List.nodup_range nslabs)) ?_
      intro x
      rw [List.mem_filter, List.mem_range]
      constructor
      · rintro ⟨hx1, hx2⟩
        have : x / A = j := by simpa [hA] using hx2
        rcases (div_eq_iff_Ico hApos).1 this with ⟨hl, hr⟩
        have he : (j + 1) * A = j * A + A := by ring
        omega
      · rintro ⟨hl, hr⟩
        have he : (j + 1) * A = j * A + A := by ring
        have hxlt : x < nslabs := by
          have : (j + 1) * A ≤ nareas * A := Nat.mul_le_mul_right _ (by omega)
          omega
        refine ⟨hxlt, ?_⟩
        have : x / A = j := (div_eq_iff_Ico hApos).2 ⟨hl, by omega⟩
        simpa [hA] using this
    · have hA0 : A = 0 := by omega
      have hns0 : nslabs = 0 := by
        rw [hA0, Nat.mul_zero] at h2
        exact h2
      rw [hns0, hA0]
      rfl

/-! ### Geometry preservation through the operations -/

theorem do_find_slots_geom (dev : Device) (mem : IoTlbMem) (j orig alloc align : Nat) :
    SameGeom mem (swiotlb_do_find_slots dev mem j orig alloc align).2 := by
  rcases hres : swiotlb_do_find_slots dev mem j orig alloc align with ⟨res, m'⟩
  rcases res with - | idx
  · rw [do_find_slots_none_snd hres]
    exact sameGeom_self mem
  · obtain ⟨-, -, hm'⟩ := do_find_slots_some_inv hres
    show SameGeom mem m'
    rw [hm']
    exact SameGeom.trans
      (claimLoop_sameGeom j alloc (swiotlb_align_offset dev orig) idx _ mem)
      (updateArea_sameGeom _ j _)

theorem reclaimArea_geom (mem : IoTlbMem) (j : Nat) :
    SameGeom mem (reclaimArea mem j) :=
  reclaimFold_sameGeom j _ mem

theorem find_slots_lockless_geom (dev : Device) (mem : IoTlbMem)
    (cpu orig alloc align : Nat) :
    SameGeom mem (swiotlb_find_slots_lockless dev mem cpu orig alloc align).2 := by
  rw [find_slots_lockless_eq]
  rcases h1 : swiotlb_do_find_slots dev mem (cpu &&& (mem.nareas - 1)) orig alloc align
    with ⟨res, m1⟩
  rcases res with - | idx
  · exact SameGeom.trans (reclaimArea_geom mem _) (do_find_slots_geom dev _ _ orig alloc align)
  · have h2 := do_find_slots_geom dev mem (cpu &&& (mem.nareas - 1)) orig alloc align
    rw [h1] at h2
    exact h2

theorem tryAreas_geom (dev : Device) (mem : IoTlbMem) (orig alloc align : Nat)
    (L : List Nat) :
    SameGeom mem (tryAreas dev mem orig alloc align L).2 := by
  induction L with
  | nil => exact sameGeom_self mem
  | cons j rest ih =>
      rcases h1 : swiotlb_do_find_slots dev mem j orig alloc align with ⟨res, m1⟩
      unfold tryAreas
      rw [h1]
      rcases res with - | idx
      · exact ih
      · have h2 := do_find_slots_geom dev mem j orig alloc align
        rw [h1] at h2
        exact h2

theorem find_slots_geom (lockless : Bool) (dev : Device) (mem : IoTlbMem)
    (cpu orig alloc align : Nat) :
    SameGeom mem (swiotlb_find_slots lockless dev mem cpu orig alloc align).2 := by
  unfold swiotlb_find_slots
  by_cases hl : lockless
  · rw [if_pos hl]
    exact find_slots_lockless_geom dev mem cpu orig alloc align
  · rw [if_neg hl]
    exact tryAreas_geom dev mem orig alloc align _

theorem release_slots_eq_raw (lockless : Bool) (dev : Device) (mem : IoTlbMem)
    (tlb_addr cpu : Nat) :
    swiotlb_release_slots lockless dev mem tlb_addr cpu
      = (if lockless && !(decide (u64sub (u64sub tlb_addr (swiotlb_align_offset dev tlb_addr))
            mem.start / IO_TLB_SIZE / mem.area_nslabs = cpu &&& (mem.nareas - 1)))
         then queueOtherCpuLoop
            (u64sub (u64sub tlb_addr (swiotlb_align_offset dev tlb_addr)) mem.start
              / IO_TLB_SIZE / mem.area_nslabs)
            (u64sub (u64sub tlb_addr (swiotlb_align_offset dev tlb_addr)) mem.start
              / IO_TLB_SIZE)
            (nr_slots ((mem.slot (u64sub (u64sub tlb_addr (swiotlb_align_offset dev tlb_addr))
              mem.start / IO_TLB_SIZE)).alloc_size + swiotlb_align_offset dev tlb_addr))
            mem
         else (releaseLoop
            (u64sub (u64sub tlb_addr (swiotlb_align_offset dev tlb_addr)) mem.start
              / IO_TLB_SIZE / mem.area_nslabs)
            (u64sub (u64sub tlb_addr (swiotlb_align_offset dev tlb_addr)) mem.start
              / IO_TLB_SIZE)
            (nr_slots ((mem.slot (u64sub (u64sub tlb_addr (swiotlb_align_offset dev tlb_addr))
              mem.start / IO_TLB_SIZE)).alloc_size + swiotlb_align_offset dev tlb_addr))
            mem).updateArea
            (u64sub (u64sub tlb_addr (swiotlb_align_offset dev tlb_addr)) mem.start
              / IO_TLB_SIZE / mem.area_nslabs)
            (fun a => { a with used := u64sub a.used (nr_slots ((mem.slot (u64sub (u64sub tlb_addr (swiotlb_align_offset dev tlb_addr)) mem.start / IO_TLB_SIZE)).alloc_size + swiotlb_align_offset dev tlb_addr)) })) := rfl

theorem release_slots_geom (lockless : Bool) (dev : Device) (mem : IoTlbMem)
    (tlb_addr cpu : Nat) :
    SameGeom mem (swiotlb_release_slots lockless dev mem tlb_addr cpu) := by
  rw [release_slots_eq_raw]
  by_cases hc : lockless && !(decide (u64sub (u64sub tlb_addr (swiotlb_align_offset dev tlb_addr))
      mem.start / IO_TLB_SIZE / mem.area_nslabs = cpu &&& (mem.nareas - 1)))
  · rw [if_pos hc]
    exact queueLoop_sameGeom _ _ _ mem
  · rw [if_neg hc]
    exact SameGeom.trans (releaseLoop_sameGeom _ _ _ mem) (updateArea_sameGeom _ _ _)

theorem map_single_mem_geom (lockless : Bool) (dev : Device) (mem : IoTlbMem)
    (orig mapping alloc align : Nat) (dir : DmaDir) (cpu : Nat) :
    SameGeom mem
      (swiotlb_tbl_map_single_mem lockless dev mem orig mapping alloc align dir cpu).mem := by
  unfold swiotlb_tbl_map_single_mem
  by_cases h0 : mem.nslabs = 0
  · rw [if_pos h0]
    exact sameGeom_self mem
  · rw [if_neg h0]
    by_cases h1 : alloc < mapping
    · rw [if_pos h1]
      exact sameGeom_self mem
    · rw [if_neg h1]
      rcases h2 : swiotlb_find_slots lockless dev mem cpu orig
          (alloc + swiotlb_align_offset dev orig) align with ⟨res, m1⟩
      have h3 := find_slots_geom lockless dev mem cpu orig
        (alloc + swiotlb_align_offset dev orig) align
      rw [h2] at h3
      rcases res with - | idx
      · exact h3
      · exact SameGeom.trans h3 (origLoop_sameGeom orig idx _ m1)

theorem alloc_mem_geom (lockless : Bool) (dev : Device) (mem : IoTlbMem)
    (size cpu : Nat) :
    SameGeom mem (swiotlb_alloc_mem lockless dev mem size cpu).2 := by
  unfold swiotlb_alloc_mem
  rcases h2 : swiotlb_find_slots lockless dev mem cpu 0 size 0 with ⟨res, m1⟩
  have h3 := find_slots_geom lockless dev mem cpu 0 size 0
  rw [h2] at h3
  rcases res with - | idx
  · exact h3
  · exact h3

theorem applyOp_geom (lockless : Bool) (mem : IoTlbMem) (op : TlbOp) :
    SameGeom mem (applyOp lockless mem op) := by
  cases op with
  | mapOp dev orig mapping alloc align dir cpu =>
      exact map_single_mem_geom lockless dev mem orig mapping alloc align dir cpu
  | unmapOp dev tlb mapping dir skip cpu =>
      exact release_slots_geom lockless dev mem tlb cpu
  | allocOp dev size cpu =>
      exact alloc_mem_geom lockless dev mem size cpu

theorem foldl_geom (lockless : Bool) (ops : List TlbOp) (mem : IoTlbMem) :
    SameGeom mem (ops.foldl (applyOp lockless) mem) := by
  induction ops generalizing mem with
  | nil => exact sameGeom_self mem
  | cons op rest ih =>
      exact SameGeom.trans (applyOp_geom lockless mem op) (ih _)

/-! ### Claim C1: conservation -/

/-- C1 (amended): starting from a freshly initialized pool, along every
valid sequence of map / unmap / alloc operations (in either locking mode),
every area satisfies `used + |free_slots| + |free_slots_from_other_cpu| =
area_nslabs + |free_slots_from_other_cpu|` — equivalently `used +
|free_slots| = area_nslabs`.  The originally claimed equation
`used + |free_slots| + |free_slots_from_other_cpu| = area_nslabs` holds
exactly when the cross-CPU list is empty: a unit released by a non-owner
CPU is queued on `free_slots_from_other_cpu` while `used` still counts it,
so between such a release and the owner's reclamation the claimed sum
exceeds the area's unit count by the length of that list. -/
theorem C1_conservation_amended (lockless : Bool) (start nslabs nareas : Nat)
    (ops : List TlbOp)
    (h1 : 0 < nareas)
    (h2 : nslabs = nareas * (nslabs / nareas))
    (h3 : IO_TLB_SEGSIZE ∣ nslabs / nareas)
    (h4 : nslabs < U64_MOD)
    (hv : validTrace lockless (swiotlb_init_io_tlb_mem start nslabs nareas) ops = true) :
    ∀ j < nareas,
      ((ops.foldl (applyOp lockless) (swiotlb_init_io_tlb_mem start nslabs nareas)).area j).used
        + ((ops.foldl (applyOp lockless) (swiotlb_init_io_tlb_mem start nslabs nareas)).area j).free_slots.length
        + ((ops.foldl (applyOp lockless) (swiotlb_init_io_tlb_mem start nslabs nareas)).area j).free_slots_from_other_cpu.length
      = nslabs / nareas
        + ((ops.foldl (applyOp lockless) (swiotlb_init_io_tlb_mem start nslabs nareas)).area j).free_slots_from_other_cpu.length := by
  intro j hj
  have hInv := validTrace_inv lockless ops _ (init_inv start nslabs nareas h1 h2 h3 h4) hv
  have hgeom := foldl_geom lockless ops (swiotlb_init_io_tlb_mem start nslabs nareas)
  have hnareas : (ops.foldl (applyOp lockless) (swiotlb_init_io_tlb_mem start nslabs nareas)).nareas
      = nareas := hgeom.eq_nareas
  have hanslabs : (ops.foldl (applyOp lockless) (swiotlb_init_io_tlb_mem start nslabs nareas)).area_nslabs
      = nslabs / nareas := hgeom.eq_area_nslabs
  have hc := hInv.conservation j (by omega)
  rw [hanslabs] at hc
  omega

/-- C1 counterexample: in lockless mode, map one unit on CPU 0 (area 0)
and release it from CPU 1.  The unit is queued on area 0's cross-CPU list
while `used` still counts it, so `used + |free_slots| +
|free_slots_from_other_cpu| = 1 + 127 + 1 = 129 ≠ 128 = area unit count`:
the claimed conservation equation is false at this reachable state. -/
theorem C1_counterexample :
    validTrace true (swiotlb_init_io_tlb_mem 0 256 2)
      [TlbOp.mapOp ⟨U64_MOD - 1, 0, 0⟩ 4096 1 1 0 DmaDir.toDevice 0,
       TlbOp.unmapOp ⟨U64_MOD - 1, 0, 0⟩ 0 1 DmaDir.nodir true 1] = true ∧
    ¬ ((([TlbOp.mapOp ⟨U64_MOD - 1, 0, 0⟩ 4096 1 1 0 DmaDir.toDevice 0,
          TlbOp.unmapOp ⟨U64_MOD - 1, 0, 0⟩ 0 1 DmaDir.nodir true 1].foldl (applyOp true)
            (swiotlb_init_io_tlb_mem 0 256 2)).area 0).used
        + ((([TlbOp.mapOp ⟨U64_MOD - 1, 0, 0⟩ 4096 1 1 0 DmaDir.toDevice 0,
          TlbOp.unmapOp ⟨U64_MOD - 1, 0, 0⟩ 0 1 DmaDir.nodir true 1].foldl (applyOp true)
            (swiotlb_init_io_tlb_mem 0 256 2)).area 0).free_slots.length)
        + ((([TlbOp.mapOp ⟨U64_MOD - 1, 0, 0⟩ 4096 1 1 0 DmaDir.toDevice 0,
          TlbOp.unmapOp ⟨U64_MOD - 1, 0, 0⟩ 0 1 DmaDir.nodir true 1].foldl (applyOp true)
            (swiotlb_init_io_tlb_mem 0 256 2)).area 0).free_slots_from_other_cpu.length)
        = 256 / 2) := by
  constructor
  · decide
  · decide

/-- Witness for C1: a pool of one area of 128 units, one mapping applied;
the amended conservation equation holds in the resulting state. -/
theorem C1_conservation_amended_witness :
    ((0 : Nat) < 1 ∧ (128 : Nat) = 1 * (128 / 1) ∧ IO_TLB_SEGSIZE ∣ 128 / 1 ∧
      (128 : Nat) < U64_MOD ∧
      validTrace false (swiotlb_init_io_tlb_mem 0 128 1)
        [TlbOp.mapOp ⟨U64_MOD - 1, 0, 0⟩ 4096 1 1 0 DmaDir.toDevice 0] = true) ∧
    (∀ j < 1,
      (([TlbOp.mapOp ⟨U64_MOD - 1, 0, 0⟩ 4096 1 1 0 DmaDir.toDevice 0].foldl (applyOp false)
          (swiotlb_init_io_tlb_mem 0 128 1)).area j).used
        + (([TlbOp.mapOp ⟨U64_MOD - 1, 0, 0⟩ 4096 1 1 0 DmaDir.toDevice 0].foldl (applyOp false)
          (swiotlb_init_io_tlb_mem 0 128 1)).area j).free_slots.length
        + (([TlbOp.mapOp ⟨U64_MOD - 1, 0, 0⟩ 4096 1 1 0 DmaDir.toDevice 0].foldl (applyOp false)
          (swiotlb_init_io_tlb_mem 0 128 1)).area j).free_slots_from_other_cpu.length
      = 128 / 1
        + (([TlbOp.mapOp ⟨U64_MOD - 1, 0, 0⟩ 4096 1 1 0 DmaDir.toDevice 0].foldl (applyOp false)
          (swiotlb_init_io_tlb_mem 0 128 1)).area j).free_slots_from_other_cpu.length) :=
  ⟨⟨by decide, by decide, by decide, by decide, by decide⟩,
   C1_conservation_amended false 0 128 1
     [TlbOp.mapOp ⟨U64_MOD - 1, 0, 0⟩ 4096 1 1 0 DmaDir.toDevice 0]
     (by decide) (by decide) (by decide) (by decide) (by decide)⟩

/-! ### Bitmap/metadata agreement preservation -/

theorem reclaimArea_origok (mem : IoTlbMem) (j : Nat) (hInv : Inv mem) (i : Nat)
    (h : OrigOk mem i) : OrigOk (reclaimArea mem j) i := by
  by_cases hj : j < mem.nareas
  · unfold reclaimArea
    set L := (mem.area j).free_slots_from_other_cpu with hL
    have hLbit : ∀ x ∈ L, x < mem.bitmap.length := by
      intro x hx
      rw [hInv.bitmap_len]
      exact ownedBy_lt_nslabs hInv hj (hInv.other_owned j hj x hx)
    have hLslot : ∀ x ∈ L, x < mem.slots.length := by
      intro x hx
      rw [hInv.slots_len]
      exact ownedBy_lt_nslabs hInv hj (hInv.other_owned j hj x hx)
    unfold OrigOk
    rw [reclaimFold_bit j L mem hLbit, reclaimFold_slot j L mem hLslot]
    by_cases hiL : i ∈ L
    · rw [if_pos hiL, if_pos hiL]
      constructor
      · rintro -
        rfl
      · rintro -
        rfl
    · rw [if_neg hiL, if_neg hiL]
      exact h
  · show OrigOk ((mem.area j).free_slots_from_other_cpu.foldl (reclaimStep j) mem) i
    rw [hInv.area_default (by omega)]
    exact h

theorem do_find_slots_origok {dev : Device} {mem : IoTlbMem}
    {j orig alloc align : Nat} {res : Option Nat} {m' : IoTlbMem}
    (heq : swiotlb_do_find_slots dev mem j orig alloc align = (res, m'))
    (hInv : Inv mem) :
    (res = none → m' = mem) ∧
    (∀ idx, res = some idx →
       idx + nr_slots alloc % U32_MOD ≤ mem.nslabs ∧
       (∀ k < nr_slots alloc % U32_MOD, m'.bit (idx + k) = false) ∧
       (∀ i, i < idx ∨ idx + nr_slots alloc % U32_MOD ≤ i →
          m'.bit i = mem.bit i ∧ (m'.slot i).orig_addr = (mem.slot i).orig_addr)) := by
  constructor
  · intro hres
    subst hres
    exact do_find_slots_none_snd heq
  · intro idx hres
    subst hres
    obtain ⟨hmem, hfits, hm'⟩ := do_find_slots_some_inv heq
    set n := nr_slots alloc % U32_MOD with hn
    set off := swiotlb_align_offset dev orig with hoff
    have hj : j < mem.nareas := by
      by_contra hc
      rw [hInv.area_default (by omega)] at hmem
      exact absurd hmem (List.not_mem_nil _)
    obtain ⟨-, -, -, hseg, -, hAllFree⟩ := slotFits_unpack hfits
    rw [io_tlb_offset_eq] at hseg
    have hown : ownedBy mem j idx := hInv.free_owned j hj idx hmem
    have hbound : idx + n ≤ mem.nslabs := by
      rcases Nat.eq_zero_or_pos n with h0 | hpos
      · rw [h0]
        have := ownedBy_lt_nslabs hInv hj hown
        omega
      · have := ownedBy_lt_nslabs hInv hj
          (owned_of_seg hInv hown hseg (by omega : n - 1 < n))
        omega
    have hsbound : idx + n ≤ mem.slots.length := by
      rw [hInv.slots_len]
      exact hbound
    have hbit' : ∀ i, m'.bit i = if idx ≤ i ∧ i < idx + n then false else mem.bit i := by
      intro i
      have : m'.bit i = (claimLoop j alloc off idx n mem).bit i := by
        rw [hm']
        rfl
      rw [this, claimLoop_bit]
    have hslot' : ∀ i, (m'.slot i).orig_addr = (mem.slot i).orig_addr := by
      intro i
      have h1 : m'.slot i = (claimLoop j alloc off idx n mem).slot i := by
        rw [hm']
        rfl
      rw [h1, claimLoop_slot j alloc off idx n mem hsbound i]
      by_cases hir : idx ≤ i ∧ i < idx + n
      · rw [if_pos hir]
      · rw [if_neg hir]
    refine ⟨hbound, ?_, ?_⟩
    · intro k hk
      rw [hbit', if_pos (by omega)]
    · intro i hi
      refine ⟨?_, hslot' i⟩
      rw [hbit', if_neg (by omega)]

theorem find_slots_origok {lockless : Bool} {dev : Device} {mem : IoTlbMem}
    {cpu orig alloc align : Nat} {res : Option Nat} {m' : IoTlbMem}
    (heq : swiotlb_find_slots lockless dev mem cpu orig alloc align = (res, m'))
    (hInv : Inv mem) :
    (res = none → ∀ i, OrigOk mem i → OrigOk m' i) ∧
    (∀ idx, res = some idx →
       idx + nr_slots alloc % U32_MOD ≤ mem.nslabs ∧
       (∀ k < nr_slots alloc % U32_MOD, m'.bit (idx + k) = false) ∧
       (∀ i, i < idx ∨ idx + nr_slots alloc % U32_MOD ≤ i →
          OrigOk mem i → OrigOk m' i)) := by
  unfold swiotlb_find_slots at heq
  by_cases hl : lockless
  · rw [if_pos hl, find_slots_lockless_eq] at heq
    rcases h1 : swiotlb_do_find_slots dev mem (cpu &&& (mem.nareas - 1)) orig alloc align
      with ⟨res1, m1⟩
    rw [h1] at heq
    rcases res1 with - | idx1
    · -- first search failed: a reclamation pass ran, then a second search
      have hrec := reclaimArea_origok mem (cpu &&& (mem.nareas - 1)) hInv
      have hInv2 := reclaimArea_inv mem (cpu &&& (mem.nareas - 1)) hInv
      have hgeom2 := reclaimArea_geom mem (cpu &&& (mem.nareas - 1))
      have h2 := do_find_slots_origok heq hInv2
      constructor
      · intro hres i hok
        rw [h2.1 hres]
        exact hrec i hok
      · intro idx hres
        obtain ⟨hb, hf, hp⟩ := h2.2 idx hres
        refine ⟨by rw [← hgeom2.eq_nslabs]; exact hb, hf, ?_⟩
        intro i hi hok
        have hpe := hp i hi
        have hro := hrec i hok
        unfold OrigOk at hro ⊢
        rw [hpe.1, hpe.2]
        exact hro
    · -- first search succeeded
      have hinj : res = some idx1 ∧ m' = m1 := by
        have := heq
        exact ⟨(Prod.mk.injEq _ _ _ _ ▸ this).1.symm, (Prod.mk.injEq _ _ _ _ ▸ this).2.symm⟩
      obtain ⟨hres1, hm1⟩ := hinj
      subst hres1
      subst hm1
      have h2 := do_find_slots_origok h1 hInv
      constructor
      · intro hres
        exact absurd hres (by simp)
      · intro idx hres
        have : idx1 = idx := by simpa using hres
        subst this
        obtain ⟨hb, hf, hp⟩ := h2.2 idx1 rfl
        exact ⟨hb, hf, fun i hi hok => by
          have := hp i hi
          unfold OrigOk
          rw [this.1, this.2]
          exact hok⟩
  · rw [if_neg hl] at heq
    -- round-robin search: each failing area leaves the pool unchanged
    have heq' : tryAreas dev mem orig alloc align
        ((List.range mem.nareas).map (fun k => ((cpu &&& (mem.nareas - 1)) + k) % mem.nareas))
        = (res, m') := heq
    clear heq
    revert heq'
    generalize ((List.range mem.nareas).map
      (fun k => ((cpu &&& (mem.nareas - 1)) + k) % mem.nareas)) = L
    induction L with
    | nil =>
        intro heq
        have heq2 : ((none : Option Nat), mem) = (res, m') := heq
        rw [Prod.mk.injEq] at heq2
        obtain ⟨hres, hm⟩ := heq2
        subst hres
        subst hm
        constructor
        · rintro - i hok
          exact hok
        · intro idx hres
          exact absurd hres (by simp)
    | cons j rest ih =>
        intro heq
        rcases h1 : swiotlb_do_find_slots dev mem j orig alloc align with ⟨res1, m1⟩
        unfold tryAreas at heq
        rw [h1] at heq
        rcases res1 with - | idx1
        · exact ih heq
        · have hinj : res = some idx1 ∧ m' = m1 := by
            exact ⟨(Prod.mk.injEq _ _ _ _ ▸ heq).1.symm, (Prod.mk.injEq _ _ _ _ ▸ heq).2.symm⟩
          obtain ⟨hres1, hm1⟩ := hinj
          subst hres1
          subst hm1
          have h2 := do_find_slots_origok h1 hInv
          constructor
          · intro hres
            exact absurd hres (by simp)
          · intro idx hres
            have : idx1 = idx := by simpa using hres
            subst this
            obtain ⟨hb, hf, hp⟩ := h2.2 idx1 rfl
            exact ⟨hb, hf, fun i hi hok => by
              have := hp i hi
              unfold OrigOk
              rw [this.1, this.2]
              exact hok⟩

theorem map_single_mem_origagree (lockless : Bool) (dev : Device) (mem : IoTlbMem)
    (orig mapping alloc align : Nat) (dir : DmaDir) (cpu : Nat)
    (hInv : Inv mem)
    (h0 : 0 < alloc) (hbnd : orig + alloc + 2 * IO_TLB_SIZE < U64_MOD)
    (hntr : nr_slots (alloc + swiotlb_align_offset dev orig) < U32_MOD)
    (hagree : OrigAgree mem) :
    OrigAgree
      (swiotlb_tbl_map_single_mem lockless dev mem orig mapping alloc align dir cpu).mem := by
  unfold swiotlb_tbl_map_single_mem
  by_cases hz : mem.nslabs = 0
  · rw [if_pos hz]
    exact hagree
  · rw [if_neg hz]
    by_cases h1 : alloc < mapping
    · rw [if_pos h1]
      exact hagree
    · rw [if_neg h1]
      set off := swiotlb_align_offset dev orig with hoffdef
      rcases h2 : swiotlb_find_slots lockless dev mem cpu orig (alloc + off) align
        with ⟨res, m1⟩
      have hspec := find_slots_origok h2 hInv
      have hgeom1 := find_slots_geom lockless dev mem cpu orig (alloc + off) align
      rw [h2] at hgeom1
      rcases res with - | idx
      · intro i hi
        refine hspec.1 rfl i (hagree i ?_)
        rw [hgeom1.eq_nslabs] at hi
        exact hi
      · set n2 := nr_slots (alloc + off) with hn2def
        have hmodeq : n2 % U32_MOD = n2 := Nat.mod_eq_of_lt hntr
        obtain ⟨hb, hf, hp⟩ := hspec.2 idx rfl
        rw [hmodeq] at hb hf hp
        have hInv1 : Inv m1 := by
          have := find_slots_inv lockless dev mem cpu orig (alloc + off) align hInv
          rw [h2] at this
          exact this
        have hsl1 : m1.slots.length = mem.nslabs := by
          rw [hInv1.slots_len, hgeom1.eq_nslabs]
        have hsbound : idx + n2 ≤ m1.slots.length := by omega
        have hsz : IO_TLB_SIZE = 2048 := rfl
        have hoffle : off ≤ 2047 := by
          have := Nat.and_le_right (n := orig &&& dev.min_align_mask) (m := IO_TLB_SIZE - 1)
          rw [hoffdef]
          unfold swiotlb_align_offset
          omega
        have hnr : n2 = (alloc + off + IO_TLB_SIZE - 1) / IO_TLB_SIZE := by
          rw [hn2def]
          exact nr_slots_eq (by omega)
        have hmul : n2 * IO_TLB_SIZE ≤ alloc + off + IO_TLB_SIZE - 1 := by
          rw [hnr]
          exact Nat.div_mul_le_self _ _
        -- the staged per-unit addresses stay below the sentinel
        have hstORE : ∀ k < n2, slot_addr orig k ≠ INVALID_PHYS_ADDR := by
          intro k hk
          have hkb : k * IO_TLB_SIZE + IO_TLB_SIZE ≤ n2 * IO_TLB_SIZE := by
            have : k + 1 ≤ n2 := hk
            calc k * IO_TLB_SIZE + IO_TLB_SIZE = (k + 1) * IO_TLB_SIZE := by ring
            _ ≤ n2 * IO_TLB_SIZE := Nat.mul_le_mul_right _ this
          have hlt : orig + k * IO_TLB_SIZE < U64_MOD - 1 := by omega
          unfold slot_addr INVALID_PHYS_ADDR
          rw [Nat.mod_eq_of_lt (by omega)]
          omega
        intro i hi
        have hok : ∀ hrange : idx ≤ i ∧ i < idx + n2, OrigOk (origLoop orig idx n2 m1) i := by
          rintro ⟨hr1, hr2⟩
          unfold OrigOk
          have hbit : (origLoop orig idx n2 m1).bit i = m1.bit i := by
            unfold IoTlbMem.bit
            rw [origLoop_bitmap]
          rw [hbit]
          rw [origLoop_slot orig idx n2 m1 hsbound i, if_pos ⟨hr1, hr2⟩]
          have hbi : m1.bit i = false := by
            have : i = idx + (i - idx) := by omega
            rw [this]
            exact hf (i - idx) (by omega)
          rw [hbi]
          constructor
          · intro hc
            exact Bool.noConfusion hc
          · intro hc
            exact absurd hc (hstORE (i - idx) (by omega))
        by_cases hrange : idx ≤ i ∧ i < idx + n2
        · exact hok hrange
        · have hilt : i < mem.nslabs := by
            have hns : (origLoop orig idx n2 m1).nslabs = m1.nslabs :=
              (origLoop_sameGeom orig idx n2 m1).eq_nslabs
            rw [hns, hgeom1.eq_nslabs] at hi
            exact hi
          have hok1 : OrigOk m1 i := hp i (by omega) (hagree i hilt)
          unfold OrigOk
          have hbit : (origLoop orig idx n2 m1).bit i = m1.bit i := by
            unfold IoTlbMem.bit
            rw [origLoop_bitmap]
          rw [hbit]
          rw [origLoop_slot orig idx n2 m1 hsbound i, if_neg hrange]
          exact hok1

theorem release_slots_origagree (lockless : Bool) (dev : Device) (mem : IoTlbMem)
    (tlb_addr cpu : Nat) (hInv : Inv mem)
    (hv : validRelease dev mem tlb_addr = true)
    (hagree : OrigAgree mem) :
    OrigAgree (swiotlb_release_slots lockless dev mem tlb_addr cpu) := by
  obtain ⟨h1, h2, h3, h4, hrest⟩ := validRelease_unpack hv
  obtain ⟨hn1, hn2, hn3, hbits, hlists⟩ := hrest
  rw [release_slots_eq lockless dev mem tlb_addr cpu h1 h2 h3]
  set offset := swiotlb_align_offset dev tlb_addr with hoffset
  set index := (tlb_addr - offset - mem.start) / IO_TLB_SIZE with hindex
  set nslots := nr_slots ((mem.slot index).alloc_size + offset) with hnslots
  set aindex := index / mem.area_nslabs with haindex
  clear_value aindex nslots index offset
  have hgeomS : SameGeom mem (swiotlb_release_slots lockless dev mem tlb_addr cpu) :=
    release_slots_geom lockless dev mem tlb_addr cpu
  have hbbnd : index + nslots ≤ mem.bitmap.length := by
    rw [hInv.bitmap_len]
    omega
  have hsbnd : index + nslots ≤ mem.slots.length := by
    rw [hInv.slots_len]
    omega
  by_cases hpath : lockless && !(decide (aindex = cpu &&& (mem.nareas - 1)))
  · rw [if_pos hpath]
    intro i hi
    unfold OrigOk IoTlbMem.bit IoTlbMem.slot
    rw [queueLoop_bitmap, queueLoop_slots]
    have hi' : i < mem.nslabs := by
      rw [(queueLoop_sameGeom aindex index nslots mem).eq_nslabs] at hi
      exact hi
    exact hagree i hi'
  · rw [if_neg hpath]
    intro i hi
    have hi' : i < mem.nslabs := by
      have e1 : ((releaseLoop aindex index nslots mem).updateArea aindex
          (fun a => { a with used := u64sub a.used nslots })).nslabs
          = (releaseLoop aindex index nslots mem).nslabs := rfl
      rw [e1, (releaseLoop_sameGeom aindex index nslots mem).eq_nslabs] at hi
      exact hi
    unfold OrigOk
    have hbit : ((releaseLoop aindex index nslots mem).updateArea aindex
        (fun a => { a with used := u64sub a.used nslots })).bit i
        = (releaseLoop aindex index nslots mem).bit i := rfl
    have hslot : ((releaseLoop aindex index nslots mem).updateArea aindex
        (fun a => { a with used := u64sub a.used nslots })).slot i
        = (releaseLoop aindex index nslots mem).slot i := rfl
    rw [hbit, hslot, releaseLoop_bit aindex index nslots mem hbbnd i,
      releaseLoop_slot aindex index nslots mem hsbnd i]
    by_cases hir : index ≤ i ∧ i < index + nslots
    · rw [if_pos hir, if_pos hir]
      constructor
      · rintro -
        rfl
      · rintro -
        rfl
    · rw [if_neg hir, if_neg hir]
      exact hagree i hi'

theorem applyOp_origagree (lockless : Bool) (mem : IoTlbMem) (op : TlbOp)
    (hInv : Inv mem) (hv : validOp mem op = true) (hsafe : origSafeOp op = true)
    (hagree : OrigAgree mem) :
    OrigAgree (applyOp lockless mem op) := by
  cases op with
  | mapOp dev orig mapping alloc align dir cpu =>
      have hs : 0 < alloc ∧ orig + alloc + 2 * IO_TLB_SIZE < U64_MOD ∧
          nr_slots (alloc + swiotlb_align_offset dev orig) < U32_MOD := by
        have : origSafeOp (TlbOp.mapOp dev orig mapping alloc align dir cpu)
            = (decide (0 < alloc) && decide (orig + alloc + 2 * IO_TLB_SIZE < U64_MOD) &&
               decide (nr_slots (alloc + swiotlb_align_offset dev orig) < U32_MOD)) := rfl
        rw [this] at hsafe
        simp only [Bool.and_eq_true, decide_eq_true_eq] at hsafe
        exact ⟨hsafe.1.1, hsafe.1.2, hsafe.2⟩
      exact map_single_mem_origagree lockless dev mem orig mapping alloc align dir cpu
        hInv hs.1 hs.2.1 hs.2.2 hagree
  | unmapOp dev tlb mapping dir skip cpu =>
      show OrigAgree (swiotlb_release_slots lockless dev mem tlb cpu)
      exact release_slots_origagree lockless dev mem tlb cpu hInv
        (by simpa [validOp] using hv) hagree
  | allocOp dev size cpu =>
      exact absurd hsafe (by simp [origSafeOp])

theorem validTrace_origagree (lockless : Bool) (ops : List TlbOp) (mem : IoTlbMem)
    (hInv : Inv mem) (hagree : OrigAgree mem)
    (hv : validTrace lockless mem ops = true)
    (hsafe : ops.all origSafeOp = true) :
    OrigAgree (ops.foldl (applyOp lockless) mem) := by
  induction ops generalizing mem with
  | nil => exact hagree
  | cons op rest ih =>
      have hv' : validOp mem op = true ∧
          validTrace lockless (applyOp lockless mem op) rest = true := by
        have e : validTrace lockless mem (op :: rest)
            = (validOp mem op && validTrace lockless (applyOp lockless mem op) rest) := rfl
        rw [e, Bool.and_eq_true] at hv
        exact hv
      have hsafe' : origSafeOp op = true ∧ rest.all origSafeOp = true := by
        rw [List.all_cons, Bool.and_eq_true] at hsafe
        exact hsafe
      exact ih _ (applyOp_inv lockless mem op hInv hv'.1)
        (applyOp_origagree lockless mem op hInv hv'.1 hsafe'.1 hagree) hv'.2 hsafe'.2

theorem init_slot (start nslabs nareas i : Nat) (hi : i < nslabs) :
    (swiotlb_init_io_tlb_mem start nslabs nareas).slot i = ⟨INVALID_PHYS_ADDR, 0⟩ := by
  unfold swiotlb_init_io_tlb_mem IoTlbMem.slot
  simp [List.getD_eq_getElem?_getD, List.getElem?_replicate, hi]

theorem init_origagree (start nslabs nareas : Nat) :
    OrigAgree (swiotlb_init_io_tlb_mem start nslabs nareas) := by
  intro i hi
  unfold OrigOk
  have hi' : i < nslabs := hi
  rw [init_bit, init_slot start nslabs nareas i hi', decide_eq_true hi']
  constructor
  · rintro -
    rfl
  · rintro -
    rfl

/-! ### Claim C2: bitmap/metadata agreement -/

/-- C2 (amended): along every valid trace of `swiotlb_tbl_map_single` and
release operations (with sane original-buffer addresses), every unit's
bitmap bit is set exactly when its `orig_addr` is the free sentinel
`INVALID_PHYS_ADDR` — after initialization and after every operation
completes.  `swiotlb_alloc` must be excluded from the claim: it allocates
through `swiotlb_find_slots(dev, 0, size, 0)` and never writes the claimed
units' `orig_addr`, so after it completes those units have a cleared bit
while their `orig_addr` still holds the free sentinel (see the
counterexample). -/
theorem C2_bitmap_agreement_amended (lockless : Bool) (start nslabs nareas : Nat)
    (ops : List TlbOp)
    (h1 : 0 < nareas)
    (h2 : nslabs = nareas * (nslabs / nareas))
    (h3 : IO_TLB_SEGSIZE ∣ nslabs / nareas)
    (h4 : nslabs < U64_MOD)
    (hv : validTrace lockless (swiotlb_init_io_tlb_mem start nslabs nareas) ops = true)
    (hsafe : ops.all origSafeOp = true) :
    ∀ i < nslabs,
      ((ops.foldl (applyOp lockless) (swiotlb_init_io_tlb_mem start nslabs nareas)).bit i = true
        ↔ ((ops.foldl (applyOp lockless)
              (swiotlb_init_io_tlb_mem start nslabs nareas)).slot i).orig_addr
            = INVALID_PHYS_ADDR) := by
  intro i hi
  have hagree := validTrace_origagree lockless ops _
    (init_inv start nslabs nareas h1 h2 h3 h4)
    (init_origagree start nslabs nareas) hv hsafe
  have hgeom := foldl_geom lockless ops (swiotlb_init_io_tlb_mem start nslabs nareas)
  exact hagree i (by rw [hgeom.eq_nslabs]; exact hi)

/-- C2 counterexample: on a fresh one-area pool, `swiotlb_alloc` of one
unit succeeds and claims unit 0 (its bitmap bit becomes clear), yet unit
0's `orig_addr` still holds the free sentinel, so the claimed
"bit set iff orig_addr = INVALID_PHYS_ADDR after every swiotlb_alloc"
equivalence is false at unit 0 of this reachable state. -/
theorem C2_counterexample :
    (swiotlb_alloc_mem false ⟨U64_MOD - 1, 0, 0⟩
        (swiotlb_init_io_tlb_mem 0 128 1) 2048 0).1 = some 0 ∧
    ¬ ((swiotlb_alloc_mem false ⟨U64_MOD - 1, 0, 0⟩
          (swiotlb_init_io_tlb_mem 0 128 1) 2048 0).2.bit 0 = true
        ↔ ((swiotlb_alloc_mem false ⟨U64_MOD - 1, 0, 0⟩
          (swiotlb_init_io_tlb_mem 0 128 1) 2048 0).2.slot 0).orig_addr
            = INVALID_PHYS_ADDR) := by
  constructor
  · decide
  · decide

/-- Witness for C2: one valid, origin-safe mapping operation on a fresh
one-area pool; the agreement equivalence holds at every unit afterwards. -/
theorem C2_bitmap_agreement_amended_witness :
    ((0 : Nat) < 1 ∧ (128 : Nat) = 1 * (128 / 1) ∧ IO_TLB_SEGSIZE ∣ 128 / 1 ∧
      (128 : Nat) < U64_MOD ∧
      validTrace false (swiotlb_init_io_tlb_mem 0 128 1)
        [TlbOp.mapOp ⟨U64_MOD - 1, 0, 0⟩ 4096 1 1 0 DmaDir.toDevice 0] = true ∧
      [TlbOp.mapOp ⟨U64_MOD - 1, 0, 0⟩ 4096 1 1 0 DmaDir.toDevice 0].all origSafeOp = true) ∧
    (∀ i < 128,
      (([TlbOp.mapOp ⟨U64_MOD - 1, 0, 0⟩ 4096 1 1 0 DmaDir.toDevice 0].foldl (applyOp false)
          (swiotlb_init_io_tlb_mem 0 128 1)).bit i = true
        ↔ (([TlbOp.mapOp ⟨U64_MOD - 1, 0, 0⟩ 4096 1 1 0 DmaDir.toDevice 0].foldl (applyOp false)
          (swiotlb_init_io_tlb_mem 0 128 1)).slot i).orig_addr = INVALID_PHYS_ADDR)) :=
  ⟨⟨by decide, by decide, by decide, by decide, by decide, by decide⟩,
   C2_bitmap_agreement_amended false 0 128 1
     [TlbOp.mapOp ⟨U64_MOD - 1, 0, 0⟩ 4096 1 1 0 DmaDir.toDevice 0]
     (by decide) (by decide) (by decide) (by decide) (by decide) (by decide)⟩

/-! ### Consolidated facts about a successful slot search -/

/-- A successful `swiotlb_do_find_slots` call stays in bounds, satisfies the
candidate checks at the found index, and records `alloc_size - offset` in the
first claimed slot. -/
theorem do_find_slots_some_props {dev : Device} {mem : IoTlbMem}
    {j orig alloc align idx : Nat} {m' : IoTlbMem}
    (heq : swiotlb_do_find_slots dev mem j orig alloc align = (some idx, m'))
    (hInv : Inv mem) :
    idx + nr_slots alloc % U32_MOD ≤ mem.nslabs ∧
    (0 < nr_slots alloc % U32_MOD →
      (m'.slot idx).alloc_size = u64sub alloc (swiotlb_align_offset dev orig)) ∧
    slotFits mem orig alloc align (nr_slots alloc % U32_MOD)
      (phys_to_dma_unencrypted dev mem.start &&& dev.boundary_mask)
      (max (get_max_slots dev.boundary_mask) IO_TLB_SEGSIZE)
      (dev.min_align_mask &&& (U32_MOD - IO_TLB_SIZE)) idx = true := by
  obtain ⟨-, hfits, hm'⟩ := do_find_slots_some_inv heq
  have hbound := ((do_find_slots_origok heq hInv).2 idx rfl).1
  refine ⟨hbound, ?_, hfits⟩
  intro hpos
  set n := nr_slots alloc % U32_MOD with hn
  set off := swiotlb_align_offset dev orig with hoff
  have hsbound : idx + n ≤ mem.slots.length := by
    rw [hInv.slots_len]
    exact hbound
  have h1 : m'.slot idx = (claimLoop j alloc off idx n mem).slot idx := by
    rw [hm']
    rfl
  rw [h1, claimLoop_slot j alloc off idx n mem hsbound idx,
      if_pos ⟨Nat.le_refl idx, by omega⟩]
  show u64sub alloc (off + (idx - idx) * IO_TLB_SIZE) = u64sub alloc off
  rw [Nat.sub_self, Nat.zero_mul, Nat.add_zero]

/-- A successful `swiotlb_find_slots` call stays in bounds, records
`alloc_size - offset` in the first claimed slot, and the found index
satisfied the candidate checks against the searched pool state (the input
pool, or the pool after the lockless reclamation pass), which shares the
input pool's staging start address. -/
theorem find_slots_some_props {lockless : Bool} {dev : Device} {mem : IoTlbMem}
    {cpu orig alloc align idx : Nat} {m' : IoTlbMem}
    (heq : swiotlb_find_slots lockless dev mem cpu orig alloc align = (some idx, m'))
    (hInv : Inv mem) :
    idx + nr_slots alloc % U32_MOD ≤ mem.nslabs ∧
    (0 < nr_slots alloc % U32_MOD →
      (m'.slot idx).alloc_size = u64sub alloc (swiotlb_align_offset dev orig)) ∧
    ∃ ms : IoTlbMem, ms.start = mem.start ∧
      slotFits ms orig alloc align (nr_slots alloc % U32_MOD)
        (phys_to_dma_unencrypted dev ms.start &&& dev.boundary_mask)
        (max (get_max_slots dev.boundary_mask) IO_TLB_SEGSIZE)
        (dev.min_align_mask &&& (U32_MOD - IO_TLB_SIZE)) idx = true := by
  unfold swiotlb_find_slots at heq
  by_cases hl : lockless
  · rw [if_pos hl, find_slots_lockless_eq] at heq
    rcases h1 : swiotlb_do_find_slots dev mem (cpu &&& (mem.nareas - 1)) orig alloc align
      with ⟨res1, m1⟩
    rw [h1] at heq
    rcases res1 with - | idx1
    · have hInv2 := reclaimArea_inv mem (cpu &&& (mem.nareas - 1)) hInv
      have hgeom2 := reclaimArea_geom mem (cpu &&& (mem.nareas - 1))
      have h2 := do_find_slots_some_props heq hInv2
      refine ⟨by rw [← hgeom2.eq_nslabs]; exact h2.1, h2.2.1, ?_⟩
      exact ⟨reclaimArea mem (cpu &&& (mem.nareas - 1)), hgeom2.eq_start, h2.2.2⟩
    · have hres1 : (some idx1 : Option Nat) = some idx := (Prod.mk.injEq _ _ _ _ ▸ heq).1
      have hm1 : m1 = m' := (Prod.mk.injEq _ _ _ _ ▸ heq).2
      have hii : idx1 = idx := by simpa using hres1
      subst hii
      subst hm1
      have h2 := do_find_slots_some_props h1 hInv
      exact ⟨h2.1, h2.2.1, mem, rfl, h2.2.2⟩
  · rw [if_neg hl] at heq
    have heq' : tryAreas dev mem orig alloc align
        ((List.range mem.nareas).map (fun k => ((cpu &&& (mem.nareas - 1)) + k) % mem.nareas))
        = (some idx, m') := heq
    clear heq
    revert heq'
    generalize ((List.range mem.nareas).map
      (fun k => ((cpu &&& (mem.nareas - 1)) + k) % mem.nareas)) = L
    induction L with
    | nil =>
        intro heq
        have heq2 : ((none : Option Nat), mem) = (some idx, m') := heq
        exact absurd (Prod.mk.injEq _ _ _ _ ▸ heq2).1 (by simp)
    | cons j rest ih =>
        intro heq
        rcases h1 : swiotlb_do_find_slots dev mem j orig alloc align with ⟨res1, m1⟩
        unfold tryAreas at heq
        rw [h1] at heq
        rcases res1 with - | idx1
        · exact ih heq
        · have hres1 : (some idx1 : Option Nat) = some idx := (Prod.mk.injEq _ _ _ _ ▸ heq).1
          have hm1 : m1 = m' := (Prod.mk.injEq _ _ _ _ ▸ heq).2
          have hii : idx1 = idx := by simpa using hres1
          subst hii
          subst hm1
          have h2 := do_find_slots_some_props h1 hInv
          exact ⟨h2.1, h2.2.1, mem, rfl, h2.2.2⟩

/-! ### Claim C5: segment non-crossing -/

/-- C5: for every successful slot search (hence every successful
allocation) returning start unit `istart` on a well-formed pool, the
claimed run of `n = nr_slots alloc_size` units (32-bit truncated, as the
code computes it) satisfies `istart % IO_TLB_SEGSIZE + n ≤ IO_TLB_SEGSIZE`,
i.e. it lies entirely within one fixed-size segment. -/
theorem C5_segment_non_crossing (lockless : Bool) (dev : Device) (mem : IoTlbMem)
    (cpu orig_addr alloc_size alloc_align_mask istart : Nat) (m' : IoTlbMem)
    (hInv : Inv mem)
    (heq : swiotlb_find_slots lockless dev mem cpu orig_addr alloc_size alloc_align_mask
      = (some istart, m')) :
    istart % IO_TLB_SEGSIZE + nr_slots alloc_size % U32_MOD ≤ IO_TLB_SEGSIZE := by
  obtain ⟨-, -, ms, -, hfits⟩ := find_slots_some_props heq hInv
  obtain ⟨-, -, -, hseg, -, -⟩ := slotFits_unpack hfits
  rw [io_tlb_offset_eq] at hseg
  exact hseg

theorem C5_segment_non_crossing_witness :
    swiotlb_find_slots false ⟨U64_MOD - 1, 0, 0⟩ (swiotlb_init_io_tlb_mem 0 128 1) 0 4096 1 0
      = (some 0, (swiotlb_find_slots false ⟨U64_MOD - 1, 0, 0⟩
          (swiotlb_init_io_tlb_mem 0 128 1) 0 4096 1 0).2) ∧
    0 % IO_TLB_SEGSIZE + nr_slots 1 % U32_MOD ≤ IO_TLB_SEGSIZE :=
  ⟨by decide,
   C5_segment_non_crossing false ⟨U64_MOD - 1, 0, 0⟩ (swiotlb_init_io_tlb_mem 0 128 1)
     0 4096 1 0 0
     (swiotlb_find_slots false ⟨U64_MOD - 1, 0, 0⟩ (swiotlb_init_io_tlb_mem 0 128 1) 0 4096 1 0).2
     (init_inv 0 128 1 (by decide) (by decide) (by decide) (by decide))
     (by decide)⟩

/-! ### Claim C7: decreasing recorded reserved size -/

/-- C7: for every successful `swiotlb_do_find_slots` call for a request of
total size `alloc_size` (alignment offset included) claiming units
`istart, …, istart + n - 1`, the k-th claimed unit records
`alloc_size - offset - k * IO_TLB_SIZE` in its `alloc_size` metadata
(whenever that quantity is non-negative), i.e. the recorded reserved size
decreases by one unit size per unit. -/
theorem C7_decreasing_reserved_size (dev : Device) (mem : IoTlbMem)
    (j orig_addr alloc_size alloc_align_mask istart : Nat) (m' : IoTlbMem)
    (hInv : Inv mem) (hS : alloc_size < U64_MOD)
    (heq : swiotlb_do_find_slots dev mem j orig_addr alloc_size alloc_align_mask
      = (some istart, m')) :
    ∀ k, k < nr_slots alloc_size % U32_MOD →
      swiotlb_align_offset dev orig_addr + k * IO_TLB_SIZE ≤ alloc_size →
      (m'.slot (istart + k)).alloc_size
        = alloc_size - swiotlb_align_offset dev orig_addr - k * IO_TLB_SIZE := by
  intro k hk hle
  obtain ⟨-, -, hm'⟩ := do_find_slots_some_inv heq
  have hbound := ((do_find_slots_origok heq hInv).2 istart rfl).1
  set n := nr_slots alloc_size % U32_MOD with hn
  set off := swiotlb_align_offset dev orig_addr with hoff
  have hsbound : istart + n ≤ mem.slots.length := by
    rw [hInv.slots_len]
    exact hbound
  have h1 : m'.slot (istart + k)
      = (claimLoop j alloc_size off istart n mem).slot (istart + k) := by
    rw [hm']
    rfl
  rw [h1, claimLoop_slot j alloc_size off istart n mem hsbound (istart + k),
      if_pos ⟨by omega, by omega⟩]
  show u64sub alloc_size (off + (istart + k - istart) * IO_TLB_SIZE)
    = alloc_size - off - k * IO_TLB_SIZE
  have h2 : istart + k - istart = k := by omega
  rw [h2, u64sub_eq hle hS, Nat.sub_sub]

theorem C7_decreasing_reserved_size_witness :
    (4096 : Nat) < U64_MOD ∧
    swiotlb_do_find_slots ⟨U64_MOD - 1, 0, 0⟩ (swiotlb_init_io_tlb_mem 0 128 1) 0 4096 4096 0
      = (some 0, (swiotlb_do_find_slots ⟨U64_MOD - 1, 0, 0⟩
          (swiotlb_init_io_tlb_mem 0 128 1) 0 4096 4096 0).2) ∧
    (((swiotlb_do_find_slots ⟨U64_MOD - 1, 0, 0⟩
          (swiotlb_init_io_tlb_mem 0 128 1) 0 4096 4096 0).2.slot (0 + 1)).alloc_size
      = 4096 - swiotlb_align_offset ⟨U64_MOD - 1, 0, 0⟩ 4096 - 1 * IO_TLB_SIZE) :=
  ⟨by decide, by decide,
   C7_decreasing_reserved_size ⟨U64_MOD - 1, 0, 0⟩ (swiotlb_init_io_tlb_mem 0 128 1)
     0 4096 4096 0 0
     (swiotlb_do_find_slots ⟨U64_MOD - 1, 0, 0⟩
       (swiotlb_init_io_tlb_mem 0 128 1) 0 4096 4096 0).2
     (init_inv 0 128 1 (by decide) (by decide) (by decide) (by decide))
     (by decide) (by decide) 1 (by decide) (by decide)⟩

/-! ### Claim C6: bounce-copy overflow clamping -/

/-- C6: when `swiotlb_bounce` runs on an allocated slot (orig_addr is not
the free sentinel), with a well-formed in-unit offset, and the requested
byte count exceeds the bytes still valid from that offset
(`remaining = alloc_size - (tlb_offset - orig_addr_offset)`), the copy is
still performed with the byte count clamped to `remaining` (the `copied`
outcome with the clamp flag set); the function returns normally rather
than aborting. -/
theorem C6_bounce_overflow_clamps (dev : Device) (mem : IoTlbMem) (tlb_addr size : Nat)
    (dir : DmaDir) (index remaining : Nat)
    (hidx : index = u64sub tlb_addr mem.start / IO_TLB_SIZE)
    (horig : (mem.slot index).orig_addr ≠ INVALID_PHYS_ADDR)
    (hoff : swiotlb_align_offset dev (mem.slot index).orig_addr
      ≤ tlb_addr &&& (IO_TLB_SIZE - 1))
    (hin : (tlb_addr &&& (IO_TLB_SIZE - 1))
        - swiotlb_align_offset dev (mem.slot index).orig_addr
      ≤ (mem.slot index).alloc_size)
    (hrem : remaining = (mem.slot index).alloc_size
      - ((tlb_addr &&& (IO_TLB_SIZE - 1))
          - swiotlb_align_offset dev (mem.slot index).orig_addr))
    (hover : remaining < size) :
    swiotlb_bounce dev mem tlb_addr size dir = BounceAction.copied true dir remaining := by
  subst hidx
  subst hrem
  simp only [swiotlb_bounce]
  rw [if_neg horig, if_neg (Nat.not_lt.mpr hoff), if_neg (Nat.not_lt.mpr hin),
      if_pos hover]

theorem C6_bounce_overflow_clamps_witness :
    (100 : Nat) < 200 ∧
    swiotlb_bounce ⟨0, 0, 0⟩ ⟨0, 1, 1, 1, [false], [⟨4096, 100⟩], [⟨1, [], []⟩]⟩
        0 200 DmaDir.fromDevice
      = BounceAction.copied true DmaDir.fromDevice 100 :=
  ⟨by decide,
   C6_bounce_overflow_clamps ⟨0, 0, 0⟩ ⟨0, 1, 1, 1, [false], [⟨4096, 100⟩], [⟨1, [], []⟩]⟩
     0 200 DmaDir.fromDevice 0 100
     (by decide) (by decide) (by decide) (by decide) (by decide) (by decide)⟩

/-! ### Claim C9: release extent determined by slot metadata -/

/-- C9: for every release reached from `swiotlb_tbl_unmap_single` (normal,
non-lockless path), the units freed form exactly the contiguous run of
`nslots = nr_slots(slots[index].alloc_size + offset)` units starting at
the `index` recomputed from the bounce address: they are prepended to the
owning area's free list, their bitmap bits are set, and the area's used
count drops by `nslots`; the `mapping_size` argument of
`swiotlb_tbl_unmap_single` (like its direction and skip flags) has no
effect on the resulting pool state. -/
theorem C9_release_extent (dev : Device) (mem : IoTlbMem) (tlb_addr cpu : Nat)
    (index nslots aindex : Nat)
    (h1 : tlb_addr < U64_MOD)
    (h2 : swiotlb_align_offset dev tlb_addr ≤ tlb_addr)
    (h3 : mem.start ≤ tlb_addr - swiotlb_align_offset dev tlb_addr)
    (hidx : index = (tlb_addr - swiotlb_align_offset dev tlb_addr - mem.start) / IO_TLB_SIZE)
    (hns : nslots = nr_slots ((mem.slot index).alloc_size + swiotlb_align_offset dev tlb_addr))
    (hai : aindex = index / mem.area_nslabs)
    (haj : aindex < mem.areas.length)
    (hbnd : index + nslots ≤ mem.bitmap.length) :
    (∀ ms1 ms2 : Nat, ∀ dir1 dir2 : DmaDir, ∀ sk1 sk2 : Bool,
      (swiotlb_tbl_unmap_single false dev mem tlb_addr ms1 dir1 sk1 cpu).2
        = (swiotlb_tbl_unmap_single false dev mem tlb_addr ms2 dir2 sk2 cpu).2) ∧
    ((swiotlb_release_slots false dev mem tlb_addr cpu).area aindex).free_slots
      = List.range' index nslots ++ (mem.area aindex).free_slots ∧
    (∀ k, k < nslots →
      (swiotlb_release_slots false dev mem tlb_addr cpu).bit (index + k) = true) ∧
    ((swiotlb_release_slots false dev mem tlb_addr cpu).area aindex).used
      = u64sub (mem.area aindex).used nslots := by
  have hrw := release_slots_eq false dev mem tlb_addr cpu h1 h2 h3
  rw [Bool.false_and,
      if_neg (show ¬(false = true) from fun hc => Bool.noConfusion hc)] at hrw
  rw [← hidx, ← hns, ← hai] at hrw
  refine ⟨fun ms1 ms2 dir1 dir2 sk1 sk2 => rfl, ?_, ?_, ?_⟩
  · rw [hrw, updateArea_area,
        if_pos ⟨rfl, by
          rw [(releaseLoop_sameGeom aindex index nslots mem).areas_len]
          exact haj⟩]
    show ((releaseLoop aindex index nslots mem).area aindex).free_slots = _
    exact releaseLoop_free aindex index nslots mem haj
  · intro k hk
    rw [hrw]
    show (releaseLoop aindex index nslots mem).bit (index + k) = true
    rw [releaseLoop_bit aindex index nslots mem hbnd (index + k),
        if_pos ⟨by omega, by omega⟩]
  · rw [hrw, updateArea_area,
        if_pos ⟨rfl, by
          rw [(releaseLoop_sameGeom aindex index nslots mem).areas_len]
          exact haj⟩]
    show u64sub ((releaseLoop aindex index nslots mem).area aindex).used nslots = _
    rw [releaseLoop_used aindex index nslots mem aindex]

theorem C9_release_extent_witness :
    ((swiotlb_tbl_unmap_single false ⟨0, 0, 0⟩
        ⟨0, 2, 1, 2, [false, false], [⟨100, 4096⟩, ⟨2148, 2048⟩], [⟨2, [], []⟩]⟩
        0 5 DmaDir.fromDevice false 0).2
      = (swiotlb_tbl_unmap_single false ⟨0, 0, 0⟩
        ⟨0, 2, 1, 2, [false, false], [⟨100, 4096⟩, ⟨2148, 2048⟩], [⟨2, [], []⟩]⟩
        0 99 DmaDir.toDevice true 0).2) ∧
    ((swiotlb_release_slots false ⟨0, 0, 0⟩
        ⟨0, 2, 1, 2, [false, false], [⟨100, 4096⟩, ⟨2148, 2048⟩], [⟨2, [], []⟩]⟩
        0 0).area 0).free_slots
      = List.range' 0 2
        ++ ((⟨0, 2, 1, 2, [false, false], [⟨100, 4096⟩, ⟨2148, 2048⟩],
              [⟨2, [], []⟩]⟩ : IoTlbMem).area 0).free_slots ∧
    (swiotlb_release_slots false ⟨0, 0, 0⟩
        ⟨0, 2, 1, 2, [false, false], [⟨100, 4096⟩, ⟨2148, 2048⟩], [⟨2, [], []⟩]⟩
        0 0).bit (0 + 1) = true ∧
    ((swiotlb_release_slots false ⟨0, 0, 0⟩
        ⟨0, 2, 1, 2, [false, false], [⟨100, 4096⟩, ⟨2148, 2048⟩], [⟨2, [], []⟩]⟩
        0 0).area 0).used
      = u64sub ((⟨0, 2, 1, 2, [false, false], [⟨100, 4096⟩, ⟨2148, 2048⟩],
          [⟨2, [], []⟩]⟩ : IoTlbMem).area 0).used 2 := by
  have H := C9_release_extent ⟨0, 0, 0⟩
    ⟨0, 2, 1, 2, [false, false], [⟨100, 4096⟩, ⟨2148, 2048⟩], [⟨2, [], []⟩]⟩ 0 0 0 2 0
    (by decide) (by decide) (by decide) (by decide) (by decide) (by decide)
    (by decide) (by decide)
  exact ⟨H.1 5 99 DmaDir.fromDevice DmaDir.toDevice false true, H.2.1,
    H.2.2.1 1 (by decide), H.2.2.2⟩

/-! ### Claim C10: pre-search rejection leaves state unchanged -/

/-- C10: when the pool is absent, has zero units, or the requested
`mapping_size` exceeds `alloc_size`, `swiotlb_tbl_map_single` returns
DMA_MAPPING_ERROR with the pool state returned exactly as it was passed
in and no bounce performed: the guards fire before the slot search. -/
theorem C10_pre_search_rejection (lockless : Bool) (dev : Device)
    (memOpt : Option IoTlbMem) (orig_addr mapping_size alloc_size alloc_align_mask : Nat)
    (dir : DmaDir) (cpu : Nat)
    (h : memOpt = none ∨
      ∃ mem, memOpt = some mem ∧ (mem.nslabs = 0 ∨ alloc_size < mapping_size)) :
    swiotlb_tbl_map_single lockless dev memOpt orig_addr mapping_size alloc_size
        alloc_align_mask dir cpu
      = (DMA_MAPPING_ERROR, memOpt, none) := by
  rcases h with h | ⟨mem, hm, hcase⟩
  · subst h
    rfl
  · subst hm
    have hr : swiotlb_tbl_map_single_mem lockless dev mem orig_addr mapping_size
        alloc_size alloc_align_mask dir cpu = ⟨DMA_MAPPING_ERROR, mem, none⟩ := by
      simp only [swiotlb_tbl_map_single_mem]
      rcases hcase with h0 | h0
      · rw [if_pos h0]
      · by_cases hz : mem.nslabs = 0
        · rw [if_pos hz]
        · rw [if_neg hz, if_pos h0]
    simp only [swiotlb_tbl_map_single]
    rw [hr]

theorem C10_pre_search_rejection_witness :
    ((some (swiotlb_init_io_tlb_mem 0 128 1) : Option IoTlbMem) = none ∨
      ∃ mem, (some (swiotlb_init_io_tlb_mem 0 128 1) : Option IoTlbMem) = some mem ∧
        (mem.nslabs = 0 ∨ (1 : Nat) < 2)) ∧
    swiotlb_tbl_map_single false ⟨0, 0, 0⟩ (some (swiotlb_init_io_tlb_mem 0 128 1))
        0 2 1 0 DmaDir.toDevice 0
      = (DMA_MAPPING_ERROR, some (swiotlb_init_io_tlb_mem 0 128 1), none) :=
  ⟨Or.inr ⟨swiotlb_init_io_tlb_mem 0 128 1, rfl, Or.inr (by decide)⟩,
   C10_pre_search_rejection false ⟨0, 0, 0⟩ (some (swiotlb_init_io_tlb_mem 0 128 1))
     0 2 1 0 DmaDir.toDevice 0
     (Or.inr ⟨swiotlb_init_io_tlb_mem 0 128 1, rfl, Or.inr (by decide)⟩)⟩

/-! ### Claim C8: unconditional initial bounce -/

/-- The bounce performed right after a successful mapping: the staging
address points at the start of a freshly claimed run whose first slot
records the original address and the full allocation size, so the copy is
taken unclamped for the requested byte count. -/
theorem bounce_after_map {dev : Device} {m2 : IoTlbMem}
    {idx orig_addr mapping_size alloc_size : Nat}
    (hstart2 : m2.start % IO_TLB_SIZE = 0)
    (hb2 : m2.start + (idx + 1) * IO_TLB_SIZE ≤ U64_MOD)
    (hslot : m2.slot idx = ⟨orig_addr, alloc_size⟩)
    (horig_lt : orig_addr < INVALID_PHYS_ADDR)
    (hms : mapping_size ≤ alloc_size) :
    swiotlb_bounce dev m2
        (m2.start + idx * IO_TLB_SIZE + swiotlb_align_offset dev orig_addr)
        mapping_size DmaDir.toDevice
      = BounceAction.copied false DmaDir.toDevice mapping_size := by
  have hT : IO_TLB_SIZE = 2048 := rfl
  have hU : U64_MOD = 18446744073709551616 := by unfold U64_MOD; norm_num
  have hoffle : swiotlb_align_offset dev orig_addr ≤ 2047 := by
    unfold swiotlb_align_offset
    exact Nat.and_le_right
  rw [hT] at hstart2 hb2 ⊢
  rw [hU] at hb2
  have hidx0 : u64sub (m2.start + idx * 2048 + swiotlb_align_offset dev orig_addr) m2.start
      / IO_TLB_SIZE = idx := by
    rw [u64sub_eq (by omega) (by rw [hU]; omega), hT]
    omega
  have hmod : (m2.start + idx * 2048 + swiotlb_align_offset dev orig_addr) &&& (IO_TLB_SIZE - 1)
      = swiotlb_align_offset dev orig_addr := by
    have h1 : IO_TLB_SIZE - 1 = 2 ^ 11 - 1 := rfl
    have h2 : (2 : Nat) ^ 11 = 2048 := by norm_num
    rw [h1, Nat.and_pow_two_sub_one_eq_mod, h2]
    omega
  simp only [swiotlb_bounce]
  rw [hidx0]
  simp only [hslot]
  rw [if_neg (Nat.ne_of_lt horig_lt), hmod, if_neg (Nat.lt_irrefl _), Nat.sub_self,
      if_neg (Nat.not_lt_zero _), Nat.sub_zero, if_neg (Nat.not_lt.mpr hms)]

/-- C8: for every successful `swiotlb_tbl_map_single`, regardless of the
requested DMA direction, the full `mapping_size` bytes of the original
buffer are copied into the staging buffer (direction DMA_TO_DEVICE,
unclamped) before the bounce address is returned, assuming a sane pool
(unit-aligned start address, address space not wrapping) and a sane
original buffer. -/
theorem C8_unconditional_bounce (lockless : Bool) (dev : Device) (mem : IoTlbMem)
    (orig_addr mapping_size alloc_size alloc_align_mask cpu : Nat) (dir : DmaDir)
    (hInv : Inv mem)
    (hstart : mem.start % IO_TLB_SIZE = 0)
    (hpool : mem.start + mem.nslabs * IO_TLB_SIZE ≤ U64_MOD)
    (halloc : 0 < alloc_size)
    (hor : orig_addr + alloc_size + 2 * IO_TLB_SIZE < U64_MOD)
    (hntr : nr_slots (alloc_size + swiotlb_align_offset dev orig_addr) < U32_MOD)
    (hsucc : (swiotlb_tbl_map_single_mem lockless dev mem orig_addr mapping_size
        alloc_size alloc_align_mask dir cpu).addr ≠ DMA_MAPPING_ERROR) :
    (swiotlb_tbl_map_single_mem lockless dev mem orig_addr mapping_size
        alloc_size alloc_align_mask dir cpu).bounce
      = some (BounceAction.copied false DmaDir.toDevice mapping_size) := by
  have hT : IO_TLB_SIZE = 2048 := rfl
  have hU : U64_MOD = 18446744073709551616 := by unfold U64_MOD; norm_num
  have hoffle : swiotlb_align_offset dev orig_addr ≤ 2047 := by
    unfold swiotlb_align_offset
    exact Nat.and_le_right
  have hz' : ¬ mem.nslabs = 0 := by
    intro hz
    apply hsucc
    simp only [swiotlb_tbl_map_single_mem]
    rw [if_pos hz]
  have hms' : ¬ alloc_size < mapping_size := by
    intro hms
    apply hsucc
    simp only [swiotlb_tbl_map_single_mem]
    rw [if_neg hz', if_pos hms]
  rcases hfind : swiotlb_find_slots lockless dev mem cpu orig_addr
      (alloc_size + swiotlb_align_offset dev orig_addr) alloc_align_mask with ⟨res, m1⟩
  rcases res with - | idx
  · exfalso
    apply hsucc
    simp only [swiotlb_tbl_map_single_mem]
    rw [if_neg hz', if_neg hms', hfind]
  · have hmain : swiotlb_tbl_map_single_mem lockless dev mem orig_addr mapping_size
        alloc_size alloc_align_mask dir cpu
        = ⟨u64add (slot_addr (origLoop orig_addr idx
              (nr_slots (alloc_size + swiotlb_align_offset dev orig_addr)) m1).start idx)
            (swiotlb_align_offset dev orig_addr),
          origLoop orig_addr idx
            (nr_slots (alloc_size + swiotlb_align_offset dev orig_addr)) m1,
          some (swiotlb_bounce dev
            (origLoop orig_addr idx
              (nr_slots (alloc_size + swiotlb_align_offset dev orig_addr)) m1)
            (u64add (slot_addr (origLoop orig_addr idx
                (nr_slots (alloc_size + swiotlb_align_offset dev orig_addr)) m1).start idx)
              (swiotlb_align_offset dev orig_addr))
            mapping_size DmaDir.toDevice)⟩ := by
      simp only [swiotlb_tbl_map_single_mem]
      rw [if_neg hz', if_neg hms', hfind]
    have hprops := find_slots_some_props hfind hInv
    have hvU : alloc_size + swiotlb_align_offset dev orig_addr + IO_TLB_SIZE ≤ U64_MOD := by
      rw [hT, hU]
      rw [hT, hU] at hor
      omega
    have hn1 : 1 ≤ nr_slots (alloc_size + swiotlb_align_offset dev orig_addr) := by
      rw [nr_slots_eq hvU, hT]
      omega
    have hnn : nr_slots (alloc_size + swiotlb_align_offset dev orig_addr) % U32_MOD
        = nr_slots (alloc_size + swiotlb_align_offset dev orig_addr) :=
      Nat.mod_eq_of_lt hntr
    have hb := hprops.1
    rw [hnn] at hb
    have hfirst := hprops.2.1 (by rw [hnn]; omega)
    have halloc_stored : (m1.slot idx).alloc_size = alloc_size := by
      rw [hfirst, u64sub_eq (Nat.le_add_left _ _) (by rw [hU]; rw [hT, hU] at hor; omega)]
      omega
    have hg1 : SameGeom mem m1 := by
      have h := find_slots_geom lockless dev mem cpu orig_addr
        (alloc_size + swiotlb_align_offset dev orig_addr) alloc_align_mask
      rw [hfind] at h
      exact h
    have hg2 : SameGeom m1 (origLoop orig_addr idx
        (nr_slots (alloc_size + swiotlb_align_offset dev orig_addr)) m1) :=
      origLoop_sameGeom _ _ _ _
    have hstart_eq : (origLoop orig_addr idx
        (nr_slots (alloc_size + swiotlb_align_offset dev orig_addr)) m1).start
        = mem.start := hg2.eq_start.trans hg1.eq_start
    have hsbound : idx + nr_slots (alloc_size + swiotlb_align_offset dev orig_addr)
        ≤ m1.slots.length := by
      rw [hg1.slots_len, hInv.slots_len]
      exact hb
    have hslot2 : (origLoop orig_addr idx
        (nr_slots (alloc_size + swiotlb_align_offset dev orig_addr)) m1).slot idx
        = ⟨orig_addr, alloc_size⟩ := by
      rw [origLoop_slot _ _ _ _ hsbound idx, if_pos ⟨Nat.le_refl idx, by omega⟩,
          Nat.sub_self]
      have hsa : slot_addr orig_addr 0 = orig_addr := by
        unfold slot_addr
        rw [hU]
        rw [hT, hU] at hor
        omega
      rw [hsa, halloc_stored]
    have hstart2 : (origLoop orig_addr idx
        (nr_slots (alloc_size + swiotlb_align_offset dev orig_addr)) m1).start
        % IO_TLB_SIZE = 0 := by
      rw [hstart_eq]
      exact hstart
    have hb2 : (origLoop orig_addr idx
        (nr_slots (alloc_size + swiotlb_align_offset dev orig_addr)) m1).start
        + (idx + 1) * IO_TLB_SIZE ≤ U64_MOD := by
      rw [hstart_eq, hT, hU]
      rw [hT, hU] at hpool
      omega
    have horig_lt : orig_addr < INVALID_PHYS_ADDR := by
      unfold INVALID_PHYS_ADDR
      rw [hU]
      rw [hT, hU] at hor
      omega
    have htlb : u64add (slot_addr (origLoop orig_addr idx
          (nr_slots (alloc_size + swiotlb_align_offset dev orig_addr)) m1).start idx)
        (swiotlb_align_offset dev orig_addr)
        = (origLoop orig_addr idx
            (nr_slots (alloc_size + swiotlb_align_offset dev orig_addr)) m1).start
          + idx * IO_TLB_SIZE + swiotlb_align_offset dev orig_addr := by
      rw [hstart_eq]
      unfold slot_addr u64add
      rw [hT, hU]
      rw [hT, hU] at hpool
      omega
    rw [hmain]
    refine congrArg some ?_
    rw [htlb]
    exact bounce_after_map hstart2 hb2 hslot2 horig_lt (Nat.not_lt.mp hms')

theorem C8_unconditional_bounce_witness :
    ((swiotlb_tbl_map_single_mem false ⟨U64_MOD - 1, 0, 0⟩ (swiotlb_init_io_tlb_mem 0 128 1)
        4096 3 100 0 DmaDir.fromDevice 0).addr ≠ DMA_MAPPING_ERROR) ∧
    (swiotlb_tbl_map_single_mem false ⟨U64_MOD - 1, 0, 0⟩ (swiotlb_init_io_tlb_mem 0 128 1)
        4096 3 100 0 DmaDir.fromDevice 0).bounce
      = some (BounceAction.copied false DmaDir.toDevice 3) :=
  ⟨by decide,
   C8_unconditional_bounce false ⟨U64_MOD - 1, 0, 0⟩ (swiotlb_init_io_tlb_mem 0 128 1)
     4096 3 100 0 0 DmaDir.fromDevice
     (init_inv 0 128 1 (by decide) (by decide) (by decide) (by decide))
     (by decide) (by decide) (by decide) (by decide) (by decide) (by decide)⟩

/-! ### Claim C3: segment-boundary crossing -/

/-- Modelled from the spec: a bus-address range of `len` bytes starting at
`base` crosses a `bsize`-aligned boundary exactly when the range extends
past the next multiple of `bsize` at or above `base`, i.e. when
`bsize < base % bsize + len`. -/
def crossesBoundary (base len bsize : Nat) : Bool :=
  decide (bsize < base % bsize + len)

theorem C3_counterexample :
    ((65535 : Nat) ≠ U64_MOD - 1) ∧
    (swiotlb_find_slots false ⟨65535, 0, 0⟩ (swiotlb_init_io_tlb_mem 0 128 1)
        0 4096 63488 0).1 = some 0 ∧
    (swiotlb_find_slots false ⟨65535, 0, 0⟩
        (swiotlb_find_slots false ⟨65535, 0, 0⟩ (swiotlb_init_io_tlb_mem 0 128 1)
          0 4096 63488 0).2 0 4096 2049 0).1 = some 31 ∧
    crossesBoundary
      (phys_to_dma_unencrypted ⟨65535, 0, 0⟩
        (slot_addr (swiotlb_init_io_tlb_mem 0 128 1).start 31))
      (nr_slots 2049 * IO_TLB_SIZE) (65535 + 1) = true := by
  refine ⟨by decide, by decide, by decide, by decide⟩

/-- C3 (amended): the boundary is respected for every device whose
segment-boundary mask is `2 ^ m - 1` with `m ≥ 18` (boundary at least
`IO_TLB_SEGSIZE` units, so the clamp `max(max_slots, IO_TLB_SEGSIZE)` is
the true per-boundary limit) and `m ≤ 63` (finite mask), provided the
pool's bus base address is unit-aligned and the pool's bus window does not
wrap: the bus-address range of the units claimed by a successful slot
search does not cross any multiple of `boundary_mask + 1`.  For
`m < 18` the claim fails, see the counterexample. -/
theorem C3_boundary_respected_amended (lockless : Bool) (dev : Device) (mem : IoTlbMem)
    (cpu orig_addr alloc_size alloc_align_mask istart m : Nat) (m' : IoTlbMem)
    (hInv : Inv mem)
    (hbm : dev.boundary_mask = 2 ^ m - 1)
    (hm1 : 18 ≤ m) (hm2 : m ≤ 63)
    (hstart : (mem.start + dev.dma_offset) % IO_TLB_SIZE = 0)
    (hptd : mem.start + dev.dma_offset + mem.nslabs * IO_TLB_SIZE ≤ U64_MOD)
    (heq : swiotlb_find_slots lockless dev mem cpu orig_addr alloc_size alloc_align_mask
      = (some istart, m')) :
    crossesBoundary (phys_to_dma_unencrypted dev (slot_addr mem.start istart))
      (nr_slots alloc_size % U32_MOD * IO_TLB_SIZE) (dev.boundary_mask + 1) = false := by
  have hT : IO_TLB_SIZE = 2048 := rfl
  have hU : U64_MOD = 18446744073709551616 := by unfold U64_MOD; norm_num
  have h2m : (2 : Nat) ^ m ≤ 2 ^ 63 := Nat.pow_le_pow_right (by omega) hm2
  have h263 : (2 : Nat) ^ 63 = 9223372036854775808 := by norm_num
  rw [h263] at h2m
  have h2mpos : (0 : Nat) < 2 ^ m := Nat.two_pow_pos m
  have hsplit : (2 : Nat) ^ m = 2048 * 2 ^ (m - 11) := by
    have h1 : (2048 : Nat) = 2 ^ 11 := by norm_num
    rw [h1, ← pow_add]
    congr 1
    omega
  obtain ⟨hbound, -, ms, hms_start, hfits⟩ := find_slots_some_props heq hInv
  obtain ⟨-, -, -, -, hspan, -⟩ := slotFits_unpack hfits
  set n := nr_slots alloc_size % U32_MOD with hn
  rcases Nat.eq_zero_or_pos n with h0 | hpos
  · rw [h0]
    unfold crossesBoundary
    rw [decide_eq_false_iff_not]
    simp only [Nat.zero_mul, Nat.add_zero]
    rw [hbm, Nat.sub_add_cancel Nat.one_le_two_pow]
    exact Nat.not_lt.mpr (Nat.le_of_lt (Nat.mod_lt _ h2mpos))
  · unfold iommu_is_span_boundary at hspan
    rw [decide_eq_false_iff_not] at hspan
    rw [hms_start] at hspan
    have hne : dev.boundary_mask ≠ U64_MOD - 1 := by
      rw [hbm, hU]
      omega
    have hgms : get_max_slots dev.boundary_mask = 2 ^ (m - 11) := by
      unfold get_max_slots
      rw [if_neg hne, hbm, Nat.sub_add_cancel Nat.one_le_two_pow]
      rw [nr_slots_eq (by rw [hT, hU]; omega)]
      rw [hT, hsplit]
      omega
    have hmx : max (get_max_slots dev.boundary_mask) IO_TLB_SEGSIZE = 2 ^ (m - 11) := by
      rw [hgms]
      have h128 : IO_TLB_SEGSIZE = 128 := rfl
      rw [h128]
      have h7 : (128 : Nat) ≤ 2 ^ (m - 11) := by
        have h8 : (128 : Nat) = 2 ^ 7 := by norm_num
        rw [h8]
        exact Nat.pow_le_pow_right (by omega) (by omega)
      omega
    rw [hmx] at hspan
    have hA : phys_to_dma_unencrypted dev mem.start = mem.start + dev.dma_offset := by
      unfold phys_to_dma_unencrypted
      rw [hU]
      rw [hT, hU] at hptd
      omega
    have hand : phys_to_dma_unencrypted dev mem.start &&& dev.boundary_mask
        = (mem.start + dev.dma_offset) % 2 ^ m := by
      rw [hA, hbm, Nat.and_pow_two_sub_one_eq_mod]
    rw [hand] at hspan
    have hdvdA : (2048 : Nat) ∣ (mem.start + dev.dma_offset) := by
      rw [hT] at hstart
      exact Nat.dvd_of_mod_eq_zero hstart
    have hdvdP : (2048 : Nat) ∣ 2 ^ m := by
      have h11 : (2048 : Nat) = 2 ^ 11 := by norm_num
      rw [h11]
      exact pow_dvd_pow 2 (by omega)
    have hdvdT : (2048 : Nat) ∣ (mem.start + dev.dma_offset) % 2 ^ m :=
      (Nat.dvd_mod_iff hdvdP).mpr hdvdA
    obtain ⟨S, hS⟩ := hdvdT
    have htblU : (mem.start + dev.dma_offset) % 2 ^ m + IO_TLB_SIZE ≤ U64_MOD := by
      have hlt : (mem.start + dev.dma_offset) % 2 ^ m < 2 ^ m := Nat.mod_lt _ h2mpos
      rw [hT, hU]
      omega
    have hnrtbl : nr_slots ((mem.start + dev.dma_offset) % 2 ^ m) = S := by
      rw [nr_slots_eq htblU, hS, hT]
      omega
    rw [hnrtbl] at hspan
    have hPn : phys_to_dma_unencrypted dev (slot_addr mem.start istart)
        = mem.start + dev.dma_offset + istart * 2048 := by
      unfold phys_to_dma_unencrypted slot_addr
      rw [hT, hU]
      rw [hT, hU] at hptd
      omega
    rw [hPn]
    unfold crossesBoundary
    rw [decide_eq_false_iff_not]
    rw [hbm, Nat.sub_add_cancel Nat.one_le_two_pow, hT]
    intro hlt
    apply hspan
    have hmod : (mem.start + dev.dma_offset + istart * 2048) % 2 ^ m
        = 2048 * ((S + istart) % 2 ^ (m - 11)) := by
      conv_lhs => rw [← Nat.mod_add_mod]
      rw [hS]
      rw [show 2048 * S + istart * 2048 = 2048 * (S + istart) from by ring]
      rw [hsplit, Nat.mul_mod_mul_left]
    rw [hmod] at hlt
    rw [hsplit] at hlt
    omega

theorem C3_boundary_respected_amended_witness :
    swiotlb_find_slots false ⟨262143, 0, 0⟩ (swiotlb_init_io_tlb_mem 0 128 1) 0 4096 1 0
      = (some 0, (swiotlb_find_slots false ⟨262143, 0, 0⟩
          (swiotlb_init_io_tlb_mem 0 128 1) 0 4096 1 0).2) ∧
    crossesBoundary
      (phys_to_dma_unencrypted ⟨262143, 0, 0⟩
        (slot_addr (swiotlb_init_io_tlb_mem 0 128 1).start 0))
      (nr_slots 1 % U32_MOD * IO_TLB_SIZE)
      ((262143 : Nat) + 1) = false :=
  ⟨by decide,
   C3_boundary_respected_amended false ⟨262143, 0, 0⟩ (swiotlb_init_io_tlb_mem 0 128 1)
     0 4096 1 0 0 18
     (swiotlb_find_slots false ⟨262143, 0, 0⟩ (swiotlb_init_io_tlb_mem 0 128 1) 0 4096 1 0).2
     (init_inv 0 128 1 (by decide) (by decide) (by decide) (by decide))
     (by decide) (by decide) (by decide) (by decide) (by decide) (by decide)⟩

/-! ### Claim C4: alignment of the returned staging address -/

/-- Bit-level core of the alignment claim: if the search's origin-alignment
check holds against the truncated bus base `start % 2 ^ mb`, then the
physical staging address `start + idx * 2048 + off` (with the in-unit
offset `off` taken from the original address) agrees with the original
address on every bit of the minimum-alignment mask `ma`. -/
theorem align_bits_eq {start idx off orig ma mb : Nat}
    (hstart : start % 2048 = 0)
    (hoff : off = orig &&& ma &&& 2047)
    (hmb1 : 11 ≤ mb)
    (hma_lt : ma < 2 ^ mb)
    (hma32 : ma < 4294967296)
    (halign : (start % 2 ^ mb + idx * 2048) &&& (ma &&& 4294965248)
        = orig &&& (ma &&& 4294965248)) :
    (start + idx * 2048 + off) &&& ma = orig &&& ma := by
  have hofflt : off < 2 ^ 11 := by
    have h1 : off ≤ 2047 := by
      rw [hoff]
      exact Nat.and_le_right
    omega
  apply Nat.eq_of_testBit_eq
  intro k
  rw [Nat.testBit_and, Nat.testBit_and]
  cases hmak : ma.testBit k with
  | false => rw [Bool.and_false, Bool.and_false]
  | true =>
      rw [Bool.and_true, Bool.and_true]
      have hk32 : k < 32 := by
        by_contra hc
        have hf : ma.testBit k = false :=
          Nat.testBit_lt_two_pow (Nat.lt_of_lt_of_le hma32 (by
            have h32 : (4294967296 : Nat) = 2 ^ 32 := by norm_num
            rw [h32]
            exact Nat.pow_le_pow_right (by omega) (by omega)))
        rw [hf] at hmak
        exact Bool.noConfusion hmak
      have hkmb : k < mb := by
        by_contra hc
        have hf : ma.testBit k = false :=
          Nat.testBit_lt_two_pow (Nat.lt_of_lt_of_le hma_lt
            (Nat.pow_le_pow_right (by omega) (by omega)))
        rw [hf] at hmak
        exact Bool.noConfusion hmak
      by_cases hk11 : k < 11
      · -- bits below unit granularity come from the in-unit offset
        have hdecomp : start + idx * 2048 + off = 2 ^ 11 * (start / 2048 + idx) + off := by
          have hdm := Nat.div_add_mod start 2048
          have h2 : (2 : Nat) ^ 11 = 2048 := by norm_num
          rw [h2]
          omega
        rw [hdecomp, Nat.testBit_mul_pow_two_add _ hofflt k, if_pos hk11]
        rw [hoff]
        simp only [Nat.testBit_and]
        rw [hmak]
        have h2047 : (2047 : Nat).testBit k = true := by
          have h1 : (2047 : Nat) = 2 ^ 11 - 1 := by norm_num
          rw [h1, Nat.testBit_two_pow_sub_one]
          exact decide_eq_true hk11
        rw [h2047, Bool.and_true, Bool.and_true]
      · -- bits at or above unit granularity come from the checked address
        have hia : (4294965248 : Nat).testBit k = true := by
          have h1 : (4294965248 : Nat) = 2 ^ 11 * (2 ^ 21 - 1) + 0 := by norm_num
          rw [h1, Nat.testBit_mul_pow_two_add _ (by norm_num : (0 : Nat) < 2 ^ 11) k,
              if_neg (by omega)]
          rw [Nat.testBit_two_pow_sub_one]
          exact decide_eq_true (by omega)
        have hstep : (start % 2 ^ mb + idx * 2048).testBit k = orig.testBit k := by
          have h := congrArg (fun x => x.testBit k) halign
          simp only [Nat.testBit_and] at h
          rw [hmak, hia] at h
          simp only [Bool.and_true] at h
          exact h
        have hdvdt : (2048 : Nat) ∣ start % 2 ^ mb := by
          have hdvdP : (2048 : Nat) ∣ 2 ^ mb := by
            have h11 : (2048 : Nat) = 2 ^ 11 := by norm_num
            rw [h11]
            exact pow_dvd_pow 2 (by omega)
          exact (Nat.dvd_mod_iff hdvdP).mpr (Nat.dvd_of_mod_eq_zero hstart)
        obtain ⟨D, hD⟩ := hdvdt
        have hAmod : (start + idx * 2048 + off) % 2 ^ mb
            = (start % 2 ^ mb + idx * 2048 + off) % 2 ^ mb := by
          conv_lhs => rw [show start + idx * 2048 + off
            = start + (idx * 2048 + off) from by omega]
          conv_rhs => rw [show start % 2 ^ mb + idx * 2048 + off
            = start % 2 ^ mb + (idx * 2048 + off) from by omega]
          rw [Nat.mod_add_mod]
        have hA1 : (start + idx * 2048 + off).testBit k
            = (start % 2 ^ mb + idx * 2048 + off).testBit k := by
          have e1 := Nat.testBit_mod_two_pow (start + idx * 2048 + off) mb k
          have e2 := Nat.testBit_mod_two_pow (start % 2 ^ mb + idx * 2048 + off) mb k
          rw [hAmod] at e1
          rw [e2] at e1
          have hd : decide (k < mb) = true := decide_eq_true hkmb
          rw [hd, Bool.true_and, Bool.true_and] at e1
          exact e1.symm
        have hsum : start % 2 ^ mb + idx * 2048 + off = 2 ^ 11 * (D + idx) + off := by
          rw [hD]
          have h2 : (2 : Nat) ^ 11 = 2048 := by norm_num
          rw [h2]
          ring
        have hsum2 : start % 2 ^ mb + idx * 2048 = 2 ^ 11 * (D + idx) + 0 := by
          rw [hD]
          have h2 : (2 : Nat) ^ 11 = 2048 := by norm_num
          rw [h2]
          ring
        have hA2 : (start % 2 ^ mb + idx * 2048 + off).testBit k
            = (D + idx).testBit (k - 11) := by
          rw [hsum, Nat.testBit_mul_pow_two_add _ hofflt k, if_neg (by omega)]
        have hA3 : (start % 2 ^ mb + idx * 2048).testBit k
            = (D + idx).testBit (k - 11) := by
          rw [hsum2, Nat.testBit_mul_pow_two_add _ (by norm_num : (0 : Nat) < 2 ^ 11) k,
              if_neg (by omega)]
        rw [hA1, hA2, ← hA3, hstep]

theorem C4_counterexample :
    ((4096 : Nat) ≠ 0) ∧
    ((61440 : Nat) ≠ 0) ∧
    ((swiotlb_tbl_map_single_mem false ⟨U64_MOD - 1, 61440, 4096⟩
        (swiotlb_init_io_tlb_mem 0 128 1) 4096 1 1 0 DmaDir.toDevice 0).addr
      ≠ DMA_MAPPING_ERROR) ∧
    ¬((swiotlb_tbl_map_single_mem false ⟨U64_MOD - 1, 61440, 4096⟩
        (swiotlb_init_io_tlb_mem 0 128 1) 4096 1 1 0 DmaDir.toDevice 0).addr &&& 61440
      = (4096 : Nat) &&& 61440) := by
  refine ⟨by decide, by decide, by decide, by decide⟩

/-- C4 (amended): for every successful `swiotlb_tbl_map_single` with a
non-zero original address, the returned staging address agrees with the
original address on the bits of the device's minimum-alignment mask,
provided the device's bus translation offset is zero (with a non-zero
offset the check runs on bus addresses while the returned address is
physical, and the claim fails — see the counterexample), the
segment-boundary mask is of the form `2 ^ mb - 1` with `mb ≥ IO_TLB_SHIFT`
(so truncating the bus base keeps unit alignment), the alignment mask has
no bits at or above bit `mb` or bit 32, and the pool is sane (unit-aligned
start, non-wrapping window, sane sizes). -/
theorem C4_alignment_honored_amended (lockless : Bool) (dev : Device) (mem : IoTlbMem)
    (orig_addr mapping_size alloc_size alloc_align_mask cpu mb : Nat) (dir : DmaDir)
    (hInv : Inv mem)
    (hstart : mem.start % IO_TLB_SIZE = 0)
    (hpool : mem.start + mem.nslabs * IO_TLB_SIZE ≤ U64_MOD)
    (halloc : 0 < alloc_size)
    (hor : orig_addr + alloc_size + 2 * IO_TLB_SIZE < U64_MOD)
    (hntr : nr_slots (alloc_size + swiotlb_align_offset dev orig_addr) < U32_MOD)
    (horig : orig_addr ≠ 0)
    (hdoff : dev.dma_offset = 0)
    (hbm : dev.boundary_mask = 2 ^ mb - 1)
    (hmb1 : IO_TLB_SHIFT ≤ mb)
    (hma_lt : dev.min_align_mask < 2 ^ mb)
    (hma32 : dev.min_align_mask < U32_MOD)
    (hsucc : (swiotlb_tbl_map_single_mem lockless dev mem orig_addr mapping_size
        alloc_size alloc_align_mask dir cpu).addr ≠ DMA_MAPPING_ERROR) :
    (swiotlb_tbl_map_single_mem lockless dev mem orig_addr mapping_size
        alloc_size alloc_align_mask dir cpu).addr &&& dev.min_align_mask
      = orig_addr &&& dev.min_align_mask := by
  have hT : IO_TLB_SIZE = 2048 := rfl
  have hU : U64_MOD = 18446744073709551616 := by unfold U64_MOD; norm_num
  have hU32 : U32_MOD = 4294967296 := by unfold U32_MOD; norm_num
  have hmb1' : 11 ≤ mb := hmb1
  have hoffle : swiotlb_align_offset dev orig_addr ≤ 2047 := by
    unfold swiotlb_align_offset
    exact Nat.and_le_right
  rw [hT] at hstart
  rw [hU32] at hma32
  have hz' : ¬ mem.nslabs = 0 := by
    intro hz
    apply hsucc
    simp only [swiotlb_tbl_map_single_mem]
    rw [if_pos hz]
  have hms' : ¬ alloc_size < mapping_size := by
    intro hms
    apply hsucc
    simp only [swiotlb_tbl_map_single_mem]
    rw [if_neg hz', if_pos hms]
  rcases hfind : swiotlb_find_slots lockless dev mem cpu orig_addr
      (alloc_size + swiotlb_align_offset dev orig_addr) alloc_align_mask with ⟨res, m1⟩
  rcases res with - | idx
  · exfalso
    apply hsucc
    simp only [swiotlb_tbl_map_single_mem]
    rw [if_neg hz', if_neg hms', hfind]
  · have hmain : swiotlb_tbl_map_single_mem lockless dev mem orig_addr mapping_size
        alloc_size alloc_align_mask dir cpu
        = ⟨u64add (slot_addr (origLoop orig_addr idx
              (nr_slots (alloc_size + swiotlb_align_offset dev orig_addr)) m1).start idx)
            (swiotlb_align_offset dev orig_addr),
          origLoop orig_addr idx
            (nr_slots (alloc_size + swiotlb_align_offset dev orig_addr)) m1,
          some (swiotlb_bounce dev
            (origLoop orig_addr idx
              (nr_slots (alloc_size + swiotlb_align_offset dev orig_addr)) m1)
            (u64add (slot_addr (origLoop orig_addr idx
                (nr_slots (alloc_size + swiotlb_align_offset dev orig_addr)) m1).start idx)
              (swiotlb_align_offset dev orig_addr))
            mapping_size DmaDir.toDevice)⟩ := by
      simp only [swiotlb_tbl_map_single_mem]
      rw [if_neg hz', if_neg hms', hfind]
    obtain ⟨hbound0, -, ms, hms_start, hfits⟩ := find_slots_some_props hfind hInv
    obtain ⟨halign1, -, -, -, -, -⟩ := slotFits_unpack hfits
    rcases halign1 with hcontra | halign0
    · exact absurd hcontra horig
    rw [hms_start] at halign0
    have hvU : alloc_size + swiotlb_align_offset dev orig_addr + IO_TLB_SIZE ≤ U64_MOD := by
      rw [hT, hU]
      rw [hT, hU] at hor
      omega
    have hn1 : 1 ≤ nr_slots (alloc_size + swiotlb_align_offset dev orig_addr) := by
      rw [nr_slots_eq hvU, hT]
      omega
    have hnn : nr_slots (alloc_size + swiotlb_align_offset dev orig_addr) % U32_MOD
        = nr_slots (alloc_size + swiotlb_align_offset dev orig_addr) :=
      Nat.mod_eq_of_lt hntr
    rw [hnn] at hbound0
    have hbb : idx < mem.nslabs := by omega
    have hg1 : SameGeom mem m1 := by
      have h := find_slots_geom lockless dev mem cpu orig_addr
        (alloc_size + swiotlb_align_offset dev orig_addr) alloc_align_mask
      rw [hfind] at h
      exact h
    have hg2 : SameGeom m1 (origLoop orig_addr idx
        (nr_slots (alloc_size + swiotlb_align_offset dev orig_addr)) m1) :=
      origLoop_sameGeom _ _ _ _
    have hstart_eq : (origLoop orig_addr idx
        (nr_slots (alloc_size + swiotlb_align_offset dev orig_addr)) m1).start
        = mem.start := hg2.eq_start.trans hg1.eq_start
    have hptd0 : phys_to_dma_unencrypted dev mem.start = mem.start := by
      unfold phys_to_dma_unencrypted
      rw [hdoff, Nat.add_zero, hU]
      rw [hT, hU] at hpool
      exact Nat.mod_eq_of_lt (by omega)
    have htbl0 : phys_to_dma_unencrypted dev mem.start &&& dev.boundary_mask
        = mem.start % 2 ^ mb := by
      rw [hptd0, hbm, Nat.and_pow_two_sub_one_eq_mod]
    rw [htbl0] at halign0
    have hia_eq : U32_MOD - IO_TLB_SIZE = (4294965248 : Nat) := rfl
    rw [hia_eq] at halign0
    have hsa : slot_addr (mem.start % 2 ^ mb) idx = mem.start % 2 ^ mb + idx * 2048 := by
      have hle : mem.start % 2 ^ mb ≤ mem.start := Nat.mod_le _ _
      unfold slot_addr
      rw [hT, hU]
      rw [hT, hU] at hpool
      generalize mem.start % 2 ^ mb = s2 at hle ⊢
      omega
    rw [hsa] at halign0
    have htlb4 : u64add (slot_addr (origLoop orig_addr idx
          (nr_slots (alloc_size + swiotlb_align_offset dev orig_addr)) m1).start idx)
        (swiotlb_align_offset dev orig_addr)
        = mem.start + idx * 2048 + swiotlb_align_offset dev orig_addr := by
      rw [hstart_eq]
      unfold slot_addr u64add
      rw [hT, hU]
      rw [hT, hU] at hpool
      omega
    rw [hmain]
    show u64add (slot_addr (origLoop orig_addr idx
          (nr_slots (alloc_size + swiotlb_align_offset dev orig_addr)) m1).start idx)
        (swiotlb_align_offset dev orig_addr) &&& dev.min_align_mask
      = orig_addr &&& dev.min_align_mask
    rw [htlb4]
    exact align_bits_eq hstart rfl hmb1' hma_lt hma32 halign0

theorem C4_alignment_honored_amended_witness :
    ((swiotlb_tbl_map_single_mem false ⟨U64_MOD - 1, 61440, 0⟩
        (swiotlb_init_io_tlb_mem 0 128 1) 4096 1 100 0 DmaDir.toDevice 0).addr
      ≠ DMA_MAPPING_ERROR) ∧
    (swiotlb_tbl_map_single_mem false ⟨U64_MOD - 1, 61440, 0⟩
        (swiotlb_init_io_tlb_mem 0 128 1) 4096 1 100 0 DmaDir.toDevice 0).addr &&& 61440
      = (4096 : Nat) &&& 61440 :=
  ⟨by decide,
   C4_alignment_honored_amended false ⟨U64_MOD - 1, 61440, 0⟩
     (swiotlb_init_io_tlb_mem 0 128 1) 4096 1 100 0 0 64 DmaDir.toDevice
     (init_inv 0 128 1 (by decide) (by decide) (by decide) (by decide))
     (by decide) (by decide) (by decide) (by decide) (by decide) (by decide)
     (by decide) (by decide) (by decide) (by decide) (by decide) (by decide)⟩

end Swiotlb
